import Mathlib

/-!
# insobot `mod_schedule.c`: a shallow embedding and its verified properties

The schedule module keeps, per owner, an ordered list of stream schedules
(`SchedEntry`), parses day and time specifications typed by users, and
synchronises the store with a remote gist.

Conventions of the embedding

* `time_t` and `int` values are `Int`; the `unsigned` day mask and the
  `uint8_t` repeat mask are `Nat`, reduced modulo `2^32` resp. `2^8` at the
  places where the C types truncate.
* C strings are `List Char` (no terminating NUL), one `Char` per byte.
* The C library (`gmtime_r`, `timegm`, `sscanf`, `strtok_r`, `strcasecmp`,
  `strptime`, `strftime`) is modelled by executable definitions that follow
  POSIX/glibc.
* `tz_abbr2off` (declared in `inso_tz.h`) and `inso_is_wlist` (declared in
  `inso_utils.h`) are parameters.
* The module state is a `World`: the store, the source of the offset index,
  and the trace of the calls to the gist and to `send_msg`. The answer of the
  gist to a load is an input of `sched_reload`.
* A function whose C behaviour can be undefined returns an `Option`, with
  `none` for the undefined case.
-/

namespace Sched

/-! ## C library: calendar arithmetic -/

/-- Days since 1970-01-01 of the proleptic Gregorian date `y-m-d`
(`m` in `1..12`; `d` may lie outside the month, as `timegm` allows). -/
def days_from_civil (y m d : Int) : Int :=
  let y1 := if m ≤ 2 then y - 1 else y
  let era := y1 / 400
  let yoe := y1 - era * 400
  let doy := (153 * (if m > 2 then m - 3 else m + 9) + 2) / 5 + d - 1
  let doe := yoe * 365 + yoe / 4 - yoe / 100 + doy
  era * 146097 + doe - 719468

/-- Proleptic Gregorian date `(year, month 1..12, day 1..31)` of a day number
counted from 1970-01-01. -/
def civil_from_days (z : Int) : Int × Int × Int :=
  let z1 := z + 719468
  let era := z1 / 146097
  let doe := z1 - era * 146097
  let yoe := (doe - doe / 1460 + doe / 36524 - doe / 146096) / 365
  let doy := doe - (365 * yoe + yoe / 4 - yoe / 100)
  let mp := (5 * doy + 2) / 153
  let d := doy - (153 * mp + 2) / 5 + 1
  let m := if mp < 10 then mp + 3 else mp - 9
  (if m ≤ 2 then yoe + era * 400 + 1 else yoe + era * 400, m, d)

/-- The broken-down time `struct tm` (without `tm_isdst`, which UTC never sets). -/
structure tm where
  tm_sec : Int
  tm_min : Int
  tm_hour : Int
  tm_mday : Int
  tm_mon : Int
  tm_year : Int
  tm_wday : Int
  tm_yday : Int
  deriving DecidableEq

/-- The zero-initialised `struct tm x = {}`. -/
def tm_zero : tm := ⟨0, 0, 0, 0, 0, 0, 0, 0⟩

/-- The call `gmtime_r(&t, &out)`: broken-down UTC time of `t`. -/
def gmtime_r (t : Int) : tm :=
  let days := t / 86400
  let rem := t % 86400
  let ymd := civil_from_days days
  { tm_sec := rem % 60
    tm_min := rem % 3600 / 60
    tm_hour := rem / 3600
    tm_mday := ymd.2.2
    tm_mon := ymd.2.1 - 1
    tm_year := ymd.1 - 1900
    tm_wday := (days + 4) % 7
    tm_yday := days - days_from_civil ymd.1 1 1 }

/-- The value returned by `timegm(&x)`: fields out of range are carried over
(`tm_mon` into the year, all others linearly into the day count). -/
def timegm (x : tm) : Int :=
  let y := x.tm_year + 1900 + x.tm_mon / 12
  let m := x.tm_mon % 12 + 1
  (days_from_civil y m 1 + (x.tm_mday - 1)) * 86400
    + x.tm_hour * 3600 + x.tm_min * 60 + x.tm_sec

/-- The side effect of `timegm(&x)` on `x`: the structure is normalised. -/
def timegm_norm (x : tm) : tm := gmtime_r (timegm x)

/-- Source `get_dow`: Monday = 0 ... Sunday = 6. -/
def get_dow (x : tm) : Int :=
  if x.tm_wday ≠ 0 then x.tm_wday - 1 else 6

/-! ## C library: characters, strings and scanning -/

/-- Two's-complement wrap-around of an `int` result (32 bits). -/
def int32 (x : Int) : Int := (x + 2147483648) % 4294967296 - 2147483648

/-- Truncation of an `unsigned` result (32 bits). -/
def uint32 (x : Nat) : Nat := x % 4294967296

/-- Library `isspace` in the C locale. -/
def isspace (c : Char) : Bool :=
  c == ' ' || c == '\t' || c == '\n' || c == '\x0b' || c == '\x0c' || c == '\r'

/-- Library `tolower` applied to every character of a string. -/
def lower (s : List Char) : List Char := s.map Char.toLower

/-- The test `strcasecmp(a, b) == 0`. -/
def strcasecmp_eq (a b : List Char) : Bool := lower a == lower b

/-- Skip leading white space, as every numeric `scanf` conversion does. -/
def skip_space : List Char → List Char
  | [] => []
  | c :: cs => if isspace c then skip_space cs else c :: cs

/-- Read a maximal run of decimal digits, accumulating its value. -/
def scan_digits : List Char → Nat → Nat × List Char
  | [], acc => (acc, [])
  | c :: cs, acc =>
    if c.isDigit then scan_digits cs (acc * 10 + (c.toNat - 48)) else (acc, c :: cs)

/-- Store a scanned number into an `int`: as glibc does, the value is first
saturated to the range of `long` and then truncated. -/
def store_int (v : Int) : Int :=
  int32 (max (-9223372036854775808) (min v 9223372036854775807))

/-- An unsigned decimal number at the head of the input. -/
def scan_unsigned : List Char → Option (Nat × List Char)
  | [] => none
  | c :: cs => if c.isDigit then some (scan_digits (c :: cs) 0) else none

/-- The `scanf` conversion `%d`: optional white space, optional sign, at least
one digit. Returns the value and the unread input, or `none` when no number
can be read. -/
def scan_d (s : List Char) : Option (Int × List Char) :=
  match skip_space s with
  | [] => none
  | c :: cs =>
    if c = '-' then (scan_unsigned cs).map (fun r => (store_int (-(r.1 : Int)), r.2))
    else if c = '+' then (scan_unsigned cs).map (fun r => (store_int (r.1 : Int), r.2))
    else (scan_unsigned (c :: cs)).map (fun r => (store_int (r.1 : Int), r.2))

/-- Result of `sscanf(in, "%d:%d%n-%d:%d%n", ...)` on zero-initialised
arrays: the number of conversions stored (`EOF` counts as none, the caller
only tests `< 2`), `time_pieces[0..3]` and `read_count[0..1]`. -/
structure ScanTime where
  time_count : Nat
  p0 : Int
  p1 : Int
  p2 : Int
  p3 : Int
  read0 : Nat
  read1 : Nat
  deriving DecidableEq

/-- A literal character of a `scanf` or `strptime` format: the next input
character must be that character. -/
def match_char (ch : Char) : List Char → Option (List Char)
  | c :: cs => if c = ch then some cs else none
  | [] => none

/-- The `sscanf` call of `sched_parse_time`. -/
def sscanf_time (inp : List Char) : ScanTime :=
  match scan_d inp with
  | none => ⟨0, 0, 0, 0, 0, 0, 0⟩
  | some (a, r1) =>
    match match_char ':' r1 with
    | none => ⟨1, a, 0, 0, 0, 0, 0⟩
    | some r2 =>
      match scan_d r2 with
      | none => ⟨1, a, 0, 0, 0, 0, 0⟩
      | some (b, r3) =>
        let n0 := inp.length - r3.length
        match match_char '-' r3 with
        | none => ⟨2, a, b, 0, 0, n0, 0⟩
        | some r4 =>
          match scan_d r4 with
          | none => ⟨2, a, b, 0, 0, n0, 0⟩
          | some (c, r5) =>
            match match_char ':' r5 with
            | none => ⟨3, a, b, c, 0, n0, 0⟩
            | some r6 =>
              match scan_d r6 with
              | none => ⟨3, a, b, c, 0, n0, 0⟩
              | some (d, r7) => ⟨4, a, b, c, d, n0, inp.length - r7.length⟩

/-- All tokens that a `strtok_r` loop over `s` yields: maximal runs of
non-delimiters, in order; `cur` is the token being read, reversed. -/
def strtok_loop (delim : Char → Bool) : List Char → List Char → List (List Char)
  | [], cur => if cur.isEmpty then [] else [cur.reverse]
  | c :: cs, cur =>
    if delim c then
      (if cur.isEmpty then strtok_loop delim cs [] else cur.reverse :: strtok_loop delim cs [])
    else strtok_loop delim cs (c :: cur)

/-- Tokens of `s` for the delimiter set `delim`. -/
def strtok_all (delim : Char → Bool) (s : List Char) : List (List Char) :=
  strtok_loop delim s []

/-- The C string left at the start of the buffer after a `strtok_r` loop: the
first delimiter after the first token has been overwritten with NUL. -/
def strtok_cut (delim : Char → Bool) (s : List Char) : List Char :=
  s.takeWhile delim ++ (s.dropWhile delim).takeWhile (fun c => !delim c)

/-- The glibc `strptime` helper `get_number(from, to, n)`: skips white space,
needs a digit, then reads up to `n` digits while the value can still stay
within `hi`. The loop body runs once before the first test. -/
def get_number_loop (hi : Nat) : Nat → List Char → Nat → Nat × List Char
  | 0, s, val => (val, s)
  | n + 1, s, val =>
    match s with
    | c :: cs =>
      if val * 10 ≤ hi ∧ c.isDigit then get_number_loop hi n cs (val * 10 + (c.toNat - 48))
      else (val, s)
    | [] => (val, s)

/-- See `get_number_loop`; `none` is the early `return NULL`. -/
def get_number (lo hi n : Nat) (s : List Char) : Option (Nat × List Char) :=
  match skip_space s with
  | c :: cs =>
    if c.isDigit then
      let r := get_number_loop hi (n - 1) cs (c.toNat - 48)
      if r.1 < lo ∨ r.1 > hi then none else some r
    else none
  | [] => none

/-- The glibc `strptime` conversion `%F`, which runs `%Y-%m-%d` on a copy of
the structure that is written back on success only. -/
def strptime_ymd (s : List Char) (date : tm) : Option (tm × List Char) :=
  match get_number 0 9999 4 s with
  | none => none
  | some (y, s1) =>
    match match_char '-' s1 with
    | none => none
    | some s2 =>
      match get_number 1 12 2 s2 with
      | none => none
      | some (m, s3) =>
        match match_char '-' s3 with
        | none => none
        | some s4 =>
          match get_number 1 31 2 s4 with
          | none => none
          | some (d, s5) =>
            some ({ date with
                    tm_year := (y : Int) - 1900
                    tm_mon := (m : Int) - 1
                    tm_mday := (d : Int) }, s5)

/-- The glibc `strptime` conversion `%T`, which runs `%H:%M:%S` on a copy of
the structure that is written back on success only. -/
def strptime_hms (s : List Char) (date : tm) : Option (tm × List Char) :=
  match get_number 0 23 2 s with
  | none => none
  | some (h, s1) =>
    match match_char ':' s1 with
    | none => none
    | some s2 =>
      match get_number 0 59 2 s2 with
      | none => none
      | some (m, s3) =>
        match match_char ':' s3 with
        | none => none
        | some s4 =>
          match get_number 0 61 2 s4 with
          | none => none
          | some (sec, s5) =>
            some ({ date with
                    tm_hour := (h : Int)
                    tm_min := (m : Int)
                    tm_sec := (sec : Int) }, s5)

/-- What glibc `strptime` does when the whole format has matched and gave a
date: `tm_wday` and `tm_yday` are recomputed from year, month and day. -/
def strptime_xday (x : tm) : tm :=
  { x with
    tm_wday := (days_from_civil (x.tm_year + 1900) (x.tm_mon + 1) x.tm_mday + 4) % 7
    tm_yday := days_from_civil (x.tm_year + 1900) (x.tm_mon + 1) x.tm_mday
                - days_from_civil (x.tm_year + 1900) 1 1 }

/-- The call `strptime(s, "%F", &date)`: `none` is the result NULL, which
leaves `*date` as it was; otherwise the updated structure and the unread
input. -/
def strptime_F (s : List Char) (date : tm) : Option (tm × List Char) :=
  (strptime_ymd s date).map (fun r => (strptime_xday r.1, r.2))

/-- The effect of `strptime(s, "%FT%TZ", &x)` on `x` (the result pointer is
not looked at by the caller): each of `%F` and `%T` is written when it
matched, and matching stops at the first mismatch. -/
def strptime_FTZ (s : List Char) (x : tm) : tm :=
  match strptime_ymd s x with
  | none => x
  | some (x1, s1) =>
    match match_char 'T' s1 with
    | none => x1
    | some s2 =>
      match strptime_hms s2 x1 with
      | none => x1
      | some (x2, s3) =>
        match match_char 'Z' s3 with
        | none => x2
        | some _ => strptime_xday x2

/-- Decimal digits of a number, at least two (`%m`, `%d`, `%H`, `%M`, `%S`). -/
def two_digits (v : Int) : List Char :=
  if v < 10 then '0' :: Nat.toDigits 10 v.toNat else Nat.toDigits 10 v.toNat

/-- Decimal digits of a year (`%Y`): no padding, a sign for negative years. -/
def year_digits (v : Int) : List Char :=
  if v < 0 then '-' :: Nat.toDigits 10 (-v).toNat else Nat.toDigits 10 v.toNat

/-- The text that `strftime(buf, size, "%FT%TZ", &x)` writes. -/
def strftime_FTZ (x : tm) : List Char :=
  year_digits (x.tm_year + 1900) ++ '-' :: two_digits (x.tm_mon + 1) ++ '-' ::
    two_digits x.tm_mday ++ 'T' :: two_digits x.tm_hour ++ ':' :: two_digits x.tm_min
    ++ ':' :: two_digits x.tm_sec ++ ['Z']

/-! ## Recurrence parser -/

/-- Source `days[]`. -/
def days : List (List Char) :=
  [['m', 'o', 'n'], ['t', 'u', 'e'], ['w', 'e', 'd'], ['t', 'h', 'u'],
   ['f', 'r', 'i'], ['s', 'a', 't'], ['s', 'u', 'n']]

/-- Index of the first entry of `names` that `tok` equals ignoring case: the
inner `for` loop over `days` with its `break`. -/
def day_index (tok : List Char) : List (List Char) → Nat → Option Nat
  | [], _ => none
  | d :: ds, i => if strcasecmp_eq tok d then some i else day_index tok ds (i + 1)

/-- Source `repeat_tokens[]` of `sched_parse_days`; `dow` is `get_dow(date)`. -/
def repeat_tokens (dow : Int) : List (List Char × Nat) :=
  [ (['t', 'o', 'd', 'a', 'y'], 0),
    (['d', 'a', 'i', 'l', 'y'], 0x7F),
    (['w', 'e', 'e', 'k', 'd', 'a', 'y', 's'], 0x1F),
    (['w', 'e', 'e', 'k', 'e', 'n', 'd', 's'], 0x60),
    (['w', 'e', 'e', 'k', 'l', 'y'], 1 <<< dow.toNat) ]

/-- First keyword of the table equal to `inp` ignoring case. -/
def find_repeat_token (inp : List Char) : List (List Char × Nat) → Option Nat
  | [] => none
  | (text, v) :: rest => if strcasecmp_eq inp text then some v else find_repeat_token inp rest

/-- The `strtok_r` loop over the comma separated list: ORs the bit of every
recognised token into `mask` and records whether any was recognised. -/
def parse_day_list : List (List Char) → Nat × Bool → Nat × Bool
  | [], acc => acc
  | tok :: rest, (mask, found) =>
    match day_index tok days 0 with
    | some i => parse_day_list rest (mask ||| (1 <<< i), true)
    | none => parse_day_list rest (mask, found)

/-- The scan `for(i = 0; i < 7; ++i) if(mask & (1 << i))`: first set bit at
or after `i`, looking at `n` positions. -/
def first_day_bit (mask : Nat) : Nat → Nat → Option Nat
  | 0, _ => none
  | n + 1, i => if mask &&& (1 <<< i) ≠ 0 then some i else first_day_bit mask n (i + 1)

/-- Lines 415-427 of `sched_parse_days`: make sure the start date is on one
of the repeat days. -/
def adjust_start_date (date : tm) (day_mask : Nat) : tm :=
  if day_mask ≠ 0 then
    let today := get_dow date
    if day_mask &&& (1 <<< today.toNat) = 0 then
      match first_day_bit day_mask 7 0 with
      | some i => timegm_norm { date with tm_mday := date.tm_mday + ((i : Int) - today) }
      | none => date
    else date
  else date

/-- Outputs of `sched_parse_days`: the return value, `*date` and `*day_mask`. -/
structure ParseDays where
  ok : Bool
  date : tm
  day_mask : Nat
  deriving DecidableEq

/-- The `struct tm` that `sched_parse_days` starts from: `gmtime_r(&now, date)`
with the time of day cleared. -/
def today_midnight (now : Int) : tm :=
  { gmtime_r now with tm_hour := 0, tm_min := 0, tm_sec := 0 }

/-- Lines 379-413 of `sched_parse_days`: the keyword table first, then the
comma separated list. Returns `*day_mask` and `found`. -/
def parse_day_words (dow : Int) (inp : List Char) : Nat × Bool :=
  match find_repeat_token inp (repeat_tokens dow) with
  | some v => (v, true)
  | none => parse_day_list (strtok_all (fun c => c == ',') inp) (0, false)

/-- Source `sched_parse_days`; `now` is the value of `time(0)`. When nothing
was found the `strtok_r` loop has run, so `strptime` sees the cut buffer; a
date followed by more text is rejected after `*date` has been written. -/
def sched_parse_days (now : Int) (inp : List Char) : ParseDays :=
  let date0 := today_midnight now
  let r := parse_day_words (get_dow date0) inp
  let date1 := adjust_start_date date0 r.1
  if r.2 then ⟨true, date1, r.1⟩
  else
    match strptime_F (strtok_cut (fun c => c == ',') inp) date1 with
    | some (d, []) =>
      ⟨true, timegm_norm { d with tm_hour := 0, tm_min := 0, tm_sec := 0 }, r.1⟩
    | some (d, _ :: _) => ⟨false, d, r.1⟩
    | none => ⟨false, date1, r.1⟩

/-- Outputs of a successful `sched_parse_time`. -/
structure ParseTime where
  mins_start : Int
  mins_end : Int
  day_mask : Nat
  got_duration : Bool
  deriving DecidableEq

/-- Lines 494-502 of `sched_parse_time`: adjust the day mask when the start
has moved to another UTC day. -/
def adjust_day_mask (mins_start : Int) (day_mask : Nat) : Nat :=
  if mins_start < 0 then
    uint32 (day_mask ||| uint32 ((day_mask &&& 1) <<< 7)) >>> 1
  else if mins_start > 24 * 60 then
    let m1 := uint32 (day_mask <<< 1)
    let m2 := m1 ||| (m1 >>> 7)
    m2 &&& 0x7f
  else day_mask

/-- Source `sched_parse_time`; `none` is the return value `false` (nothing is
written then). `tz_abbr2off` comes from `inso_tz.h`: it maps a zone
abbreviation to its offset in minutes, if it knows it. `day_mask` is the
incoming `*day_mask`. -/
def sched_parse_time (tz_abbr2off : List Char → Option Int) (inp : List Char)
    (day_mask : Nat) : Option ParseTime :=
  let sc := sscanf_time inp
  if sc.time_count < 2 then none
  else if sc.p0 < 0 ∨ sc.p1 < 0 ∨ sc.p2 < 0 ∨ sc.p3 < 0 then none
  else
    let p2 := if sc.time_count = 2 then int32 (sc.p0 + 1) else sc.p2
    let p3 := if sc.time_count = 2 then sc.p1 else sc.p3
    let got_duration := !(sc.time_count = 2)
    let mins_start := int32 (int32 (sc.p0 * 60) + sc.p1)
    let mins_end0 := int32 (int32 (p2 * 60) + p3)
    let mins_end := if mins_end0 < mins_start then int32 (mins_end0 + 24 * 60) else mins_end0
    -- parse timezone
    let tz : Option Int :=
      if sc.time_count = 2 ∨ sc.time_count = 4 then
        tz_abbr2off (inp.drop (if sc.time_count >>> 2 = 0 then sc.read0 else sc.read1))
      else none
    let mins_start := match tz with
      | some off => int32 (mins_start - off)
      | none => mins_start
    let mins_end := match tz with
      | some off => int32 (mins_end - off)
      | none => mins_end
    some ⟨mins_start, mins_end, adjust_day_mask mins_start day_mask, got_duration⟩

/-! ## Schedule store -/

/-- Source `SchedEntry`; `end_` and `repeat_` are the fields `end` and
`repeat` (a `uint8_t`). -/
structure SchedEntry where
  start : Int
  end_ : Int
  title : List Char
  repeat_ : Nat
  deriving DecidableEq

/-- The parallel arrays `sched_keys` and `sched_vals`, which are pushed to and
erased from together: one list of owner name and schedules. -/
abbrev Store := List (List Char × List SchedEntry)

/-- Source `sched_get`: index of the first key equal to `name`, `none` for -1. -/
def sched_get : Store → List Char → Option Nat
  | [], _ => none
  | (k, _) :: rest, name =>
    if k = name then some 0 else (sched_get rest name).map (fun i => i + 1)

/-- The array `sched_vals[index]`. -/
def sched_vals : Store → Nat → List SchedEntry
  | [], _ => []
  | (_, v) :: _, 0 => v
  | _ :: rest, i + 1 => sched_vals rest i

/-- Assignment to the array `sched_vals[index]`. -/
def set_vals : Store → Nat → List SchedEntry → Store
  | [], _, _ => []
  | (k, _) :: rest, 0, es => (k, es) :: rest
  | kv :: rest, i + 1, es => kv :: set_vals rest i es

/-- Source `sched_get_add`: the index of `name`, after pushing a new owner
with no schedules when it is not known yet. -/
def sched_get_add (sched : Store) (name : List Char) : Store × Nat :=
  match sched_get sched name with
  | some i => (sched, i)
  | none => (sched ++ [(name, [])], sched.length)

/-- The statement pair `index = sched_get_add(name); sb_push(sched_vals[index], e)`. -/
def sched_push (sched : Store) (name : List Char) (e : SchedEntry) : Store :=
  let r := sched_get_add sched name
  set_vals r.1 r.2 (sched_vals r.1 r.2 ++ [e])

/-- Source `sched_del_i`: erase schedule `id` of owner `index`; the owner is
erased as well when no schedule is left, and then the result is `true`. -/
def sched_del_i (sched : Store) (index id : Nat) : Store × Bool :=
  let es := (sched_vals sched index).eraseIdx id
  if es.isEmpty then (sched.eraseIdx index, true)
  else (set_vals sched index es, false)

/-! ## Module messages -/

/-- The request structure `SchedMsg` of `module_msgs.h`, with the fields that
`sched_mod_msg` reads; `user` and `title` may be NULL. -/
structure SchedMsg where
  user : Option (List Char)
  sched_id : Int
  start : Int
  end_ : Int
  title : Option (List Char)
  repeat_ : Nat
  deriving DecidableEq

/-- The string literal used when no title is given. -/
def untitled : List Char :=
  ['U', 'n', 't', 'i', 't', 'l', 'e', 'd', ' ', 'S', 't', 'r', 'e', 'a', 'm']

/-- The merge condition of lines 1043-1047 for one existing schedule `s`:
same title ignoring case, same duration, same UTC hour and minute as the
requested start, and `s` repeats. -/
def merge_match (title : List Char) (start end_ : Int) (s : SchedEntry) : Bool :=
  strcasecmp_eq title s.title
    && decide (s.end_ - s.start = end_ - start)
    && decide ((gmtime_r start).tm_hour = (gmtime_r s.start).tm_hour)
    && decide ((gmtime_r start).tm_min = (gmtime_r s.start).tm_min)
    && decide (s.repeat_ ≠ 0)

/-- The loop of lines 1039-1052: the first schedule that matches gets the
weekday bit of the requested start ORed into its `uint8_t` mask; `none` when
no schedule matches. -/
def merge_into : List SchedEntry → List Char → Int → Int → Option (List SchedEntry)
  | [], _, _, _ => none
  | s :: rest, title, start, end_ =>
    if merge_match title start end_ s then
      some ({ s with repeat_ := (s.repeat_ ||| (1 <<< (get_dow (gmtime_r start)).toNat)) % 256 }
        :: rest)
    else (merge_into rest title start end_).map (fun r => s :: r)

/-- Source `sched_mod_msg` for the command `sched_add`. Returns the store
and the argument of the callback invocation, if there is one (the callback
is only called, with `false`, for a rejected request). -/
def sched_mod_msg_add (sched : Store) (request : SchedMsg) (has_callback : Bool) :
    Store × Option Bool :=
  match request.user with
  | none => (sched, if has_callback then some false else none)
  | some ruser =>
    if request.start = 0 ∨ request.end_ = 0 ∨ request.start > request.end_ then
      (sched, if has_callback then some false else none)
    else
      let title := request.title.getD untitled
      let user := lower ruser
      -- check if we can merge this with an existing schedule
      let merged : Option Store :=
        match sched_get sched user with
        | some index =>
          (merge_into (sched_vals sched index) title request.start request.end_).map
            (fun es => set_vals sched index es)
        | none => none
      match merged with
      | some sched1 => (sched1, none)
      | none =>
        -- otherwise, add it.
        (sched_push sched user
          ⟨request.start, request.end_, title, request.repeat_ &&& 0x7f⟩, none)

/-! ## Remote document and module state -/

/-- A value below a key of a JSON object, as far as `yajl_tree_get` with a
one-key path and a wanted type tells values apart. -/
inductive JVal where
  | str (s : List Char)
  | num (i : Int)
  | other
  deriving DecidableEq

/-- An element of the root array: an object with its keys in order, or any
other value. -/
inductive JElem where
  | obj (fields : List (List Char × JVal))
  | other
  deriving DecidableEq

/-- One record written by `sched_upload`: the values of the keys `user`,
`start`, `end`, `title` and `repeat`. -/
structure SchedRecord where
  user : List Char
  start : List Char
  end_ : List Char
  title : List Char
  repeat_ : Nat
  deriving DecidableEq

/-- The answer of `inso_gist_load`: `INSO_GIST_304`, any failure code, or
`INSO_GIST_OK` with the files of the gist. The content of a file is given as
what `yajl_tree_parse` makes of it: the elements of the root array, or `none`
when the root is no array. -/
inductive GistLoad where
  | not_modified
  | failed
  | ok (files : List (List Char × Option (List JElem)))
  deriving DecidableEq

/-- The texts passed to `ctx->send_msg`, one constructor per format string. -/
inductive Reply where
  | add_usage
  | unable_to_parse_time
  | added (user title : List Char) (id : Nat)
  | edit_usage
  | could_not_parse_id
  | nothing_to_edit
  | no_schedules_by_user
  | no_schedule_with_id (user : List Char) (id : Int)
  | sub_ids_nyi
  | updated (user title : List Char) (id : Int)
  | del_usage
  | no_schedule_info (user : List Char)
  | need_an_id
  | removing_days_nyi
  | cannot_delete (user : List Char) (count : Nat) (id : Int)
  | deleted (user : List Char) (id : Int)
  | next_stream (user title : List Char) (h m s : Int)
  deriving DecidableEq

/-- The calls that leave the module, in the order they are made. -/
inductive Event where
  | lock
  | load
  | save (doc : List SchedRecord)
  | unlock
  | send_msg (r : Reply)
  deriving DecidableEq

/-- The module state: the store, what the offset index was last built from
(the store and the time read by the last `sched_offsets_update`, `none`
before the first one), and the calls made so far. -/
structure World where
  sched : Store
  offsets_src : Option (Store × Int)
  trace : List Event
  deriving DecidableEq

/-- Append a call to the trace. -/
def emit (w : World) (e : Event) : World := { w with trace := w.trace ++ [e] }

/-- The call `ctx->send_msg(chan, ...)`. -/
def send_msg (w : World) (r : Reply) : World := emit w (Event.send_msg r)

/-- Source `sched_offsets_update`, as far as the state records it: the index
is rebuilt from the current store at the current time. -/
def sched_offsets_update (now : Int) (w : World) : World :=
  { w with offsets_src := some (w.sched, now) }

/-- The call `yajl_tree_get(elem, {key, NULL}, type)` up to the type test:
the value of the first field with that key. -/
def yajl_tree_get (e : JElem) (key : List Char) : Option JVal :=
  match e with
  | JElem.obj fields => (fields.find? (fun kv => kv.1 == key)).map (fun kv => kv.2)
  | JElem.other => none

/-- The call `yajl_tree_get` with the type `yajl_t_string`. -/
def yajl_get_string (e : JElem) (key : List Char) : Option (List Char) :=
  match yajl_tree_get e key with
  | some (JVal.str v) => some v
  | _ => none

/-- The call `yajl_tree_get` with the type `yajl_t_number`. -/
def yajl_get_number (e : JElem) (key : List Char) : Option Int :=
  match yajl_tree_get e key with
  | some (JVal.num v) => some v
  | _ => none

/-- Lines 213-236 of `sched_reload` for one element of the array: owner and
entry. The five values are dereferenced without a NULL test, so a missing or
wrongly typed value makes the behaviour undefined: `none`. The second
`strptime` writes into the structure that the first `timegm` normalised. -/
def reload_entry (e : JElem) : Option (List Char × SchedEntry) :=
  match yajl_get_string e ['u', 's', 'e', 'r'], yajl_get_string e ['s', 't', 'a', 'r', 't'],
    yajl_get_string e ['e', 'n', 'd'], yajl_get_string e ['t', 'i', 't', 'l', 'e'],
    yajl_get_number e ['r', 'e', 'p', 'e', 'a', 't'] with
  | some user, some start, some end_, some title, some rep =>
    let tm1 := strptime_FTZ start tm_zero
    let tm2 := strptime_FTZ end_ (timegm_norm tm1)
    some (user, ⟨timegm tm1, timegm tm2, title, (rep % 256).toNat⟩)
  | _, _, _, _, _ => none

/-- The loop of lines 212-238 over the elements of the root array. -/
def reload_records : List JElem → Store → Option Store
  | [], sched => some sched
  | e :: rest, sched =>
    match reload_entry e with
    | none => none
    | some (user, entry) => reload_records rest (sched_push sched user entry)

/-- The file name looked for in the gist. -/
def schedule_json : List Char :=
  ['s', 'c', 'h', 'e', 'd', 'u', 'l', 'e', '.', 'j', 's', 'o', 'n']

/-- Source `sched_reload`; `resp` is what `inso_gist_load` answers. Returns
the result and the new state, or `none` when the behaviour is undefined. -/
def sched_reload (now : Int) (resp : GistLoad) (w : World) : Option (Bool × World) :=
  let w1 := emit w Event.load
  match resp with
  | GistLoad.not_modified => some (true, w1)
  | GistLoad.failed => some (false, w1)
  | GistLoad.ok files =>
    match files.find? (fun f => f.1 == schedule_json) with
    | none => some (false, w1)
    | some (_, none) => some (false, w1)
    | some (_, some elems) =>
      -- sched_free(), then the records
      match reload_records elems [] with
      | none => none
      | some sched => some (true, sched_offsets_update now { w1 with sched := sched })

/-- The records that `sched_upload` generates, owner by owner. -/
def sched_document : Store → List SchedRecord
  | [] => []
  | (k, v) :: rest =>
    v.map (fun e => ⟨k, strftime_FTZ (gmtime_r e.start), strftime_FTZ (gmtime_r e.end_),
      e.title, e.repeat_⟩) ++ sched_document rest

/-- Source `sched_upload`: save the document, rebuild the offset index. -/
def sched_upload (now : Int) (w : World) : World :=
  sched_offsets_update now (emit w (Event.save (sched_document w.sched)))

/-! ## Commands -/

/-- Source `sched_parse_user` with a buffer of `out_len` bytes: the result
and the lower-cased content of the buffer. A channel `#name` that does not
fit leaves the buffer as it was, uninitialised in all callers: `none`. -/
def sched_parse_user (inp fallback : List Char) (out_len : Nat) :
    Bool × Option (List Char) :=
  match inp with
  | '#' :: rest =>
    if rest.length < out_len then (true, some (lower rest)) else (false, none)
  | _ => (false, some (lower (fallback.take (out_len - 1))))

/-- Results of `sched_parse_id`: `id` is read uninitialised when `sscanf`
returns `EOF`, otherwise the call returns `false` or the id and the day. -/
inductive ParseId where
  | undefined
  | rejected
  | accepted (id : Int) (day_id : Option Nat)
  deriving DecidableEq

/-- Source `sched_parse_id`: `sscanf(in, "%d%3s", &id, day)`, then the day
name is looked up. -/
def sched_parse_id (inp : List Char) : ParseId :=
  match scan_d inp with
  | none => if (skip_space inp).isEmpty then ParseId.undefined else ParseId.rejected
  | some (id, rest) =>
    let day := ((skip_space rest).takeWhile (fun c => !isspace c)).take 3
    if id < 0 then ParseId.rejected
    else ParseId.accepted id (if day.isEmpty then none else day_index day days 0)

/-- The delimiters `" \t"` of the `strtok_r` calls in `sched_add` and
`sched_edit`. -/
def is_blank (c : Char) : Bool := c == ' ' || c == '\t'

/-- The title loop: the remaining tokens joined by single spaces, `none`
when there is no token left. -/
def join_title : List (List Char) → Option (List Char)
  | [] => none
  | t :: ts => some (ts.foldl (fun acc x => acc ++ ' ' :: x) t)

/-- The tokens still to be read after a parser looked at the token `a`: when
it accepted `a` the code moves on with `strtok_r(NULL, ...)`, otherwise `arg`
stays on `a`. -/
def rest_args (accepted : Bool) (a : List Char) (toks : List (List Char)) :
    List (List Char) :=
  if accepted then toks else a :: toks

/-- Source `sched_add` after a reload; `arg` is the text after the command
name. `none` stands for undefined behaviour. -/
def sched_add (tz_abbr2off : List Char → Option Int) (now : Int) (w : World)
    (name arg : List Char) : Option World :=
  match arg with
  | [] => some (send_msg w Reply.add_usage)
  | _ :: arg1 =>
    match strtok_all is_blank arg1 with
    | [] => some (send_msg w Reply.unable_to_parse_time)
    | a0 :: toks0 =>
      -- parse channel
      let pu := sched_parse_user a0 name 128
      match rest_args pu.1 a0 toks0 with
      | [] => some (send_msg w Reply.unable_to_parse_time)
      | a1 :: toks1 =>
        -- parse days
        let pd := sched_parse_days now a1
        match rest_args pd.ok a1 toks1 with
        | [] => some (send_msg w Reply.unable_to_parse_time)
        | a2 :: toks2 =>
          -- parse time
          match sched_parse_time tz_abbr2off a2 pd.day_mask with
          | none => some (send_msg w Reply.unable_to_parse_time)
          | some pt =>
            match pu.2 with
            | none => none
            | some sched_user =>
              let sched : SchedEntry :=
                ⟨timegm pd.date + int32 (pt.mins_start * 60),
                 timegm pd.date + int32 (pt.mins_end * 60),
                 (join_title toks2).getD untitled,
                 pt.day_mask % 256⟩
              -- add it
              let w1 := { w with sched := sched_push w.sched sched_user sched }
              let w2 := send_msg w1
                (Reply.added sched_user sched.title
                  ((sched_vals w1.sched (sched_get_add w.sched sched_user).2).length - 1))
              some (sched_upload now w2)

/-- The block `apply changes` of `sched_edit`: `date_edit` is the parsed date
with the final day mask when `EDIT_DATE` is set, `time_edit` the parsed time
when `EDIT_TIME` is set, `title_edit` the new title when `EDIT_TITLE` is set.
The differences are `int` values. -/
def apply_edit (entry : SchedEntry) (date_edit : Option (tm × Nat))
    (time_edit : Option ParseTime) (title_edit : Option (List Char)) : SchedEntry :=
  let e1 : SchedEntry :=
    match date_edit with
    | none => entry
    | some (date, day_mask) =>
      let diff := int32 (entry.end_ - entry.start)
      let old_date := gmtime_r entry.start
      let start := timegm { date with tm_hour := old_date.tm_hour, tm_min := old_date.tm_min }
      { entry with
        repeat_ := if day_mask ≠ 0 then day_mask % 256 else entry.repeat_
        start := start
        end_ := start + diff }
  let e2 : SchedEntry :=
    match time_edit with
    | none => e1
    | some pt =>
      let diff :=
        if pt.got_duration then int32 (int32 (pt.mins_end - pt.mins_start) * 60)
        else int32 (e1.end_ - e1.start)
      let old_date := gmtime_r e1.start
      let start := timegm { old_date with tm_hour := 0, tm_min := 0 }
        + int32 (pt.mins_start * 60)
      { e1 with start := start, end_ := start + diff }
  match title_edit with
  | none => e2
  | some t => { e2 with title := t }

/-- Source `sched_edit` after a reload. `none` stands for undefined
behaviour. -/
def sched_edit (tz_abbr2off : List Char → Option Int) (now : Int) (w : World)
    (name arg : List Char) : Option World :=
  match arg with
  | [] => some (send_msg w Reply.edit_usage)
  | _ :: arg1 =>
    match strtok_all is_blank arg1 with
    | [] => some (send_msg w Reply.could_not_parse_id)
    | a0 :: toks0 =>
      -- parse channel
      let pu := sched_parse_user a0 name 128
      match rest_args pu.1 a0 toks0 with
      | [] => some (send_msg w Reply.could_not_parse_id)
      | a1 :: toks1 =>
        -- parse id
        match sched_parse_id a1 with
        | ParseId.undefined => none
        | ParseId.rejected => some (send_msg w Reply.could_not_parse_id)
        | ParseId.accepted id day_id =>
          match toks1 with
          | [] => some (send_msg w Reply.nothing_to_edit)
          | a2 :: toks2 =>
            match pu.2 with
            | none => none
            | some sched_user =>
              -- check id validity
              match sched_get w.sched sched_user with
              | none => some (send_msg w Reply.no_schedules_by_user)
              | some index =>
                if (sched_vals w.sched index).length ≤ id.toNat then
                  some (send_msg w (Reply.no_schedule_with_id sched_user id))
                else if day_id.isSome then some (send_msg w Reply.sub_ids_nyi)
                else
                  -- parse days
                  let pd := sched_parse_days now a2
                  let toks3 := rest_args pd.ok a2 toks2
                  -- parse time
                  let pt : Option ParseTime :=
                    match toks3 with
                    | [] => none
                    | a3 :: _ => sched_parse_time tz_abbr2off a3 pd.day_mask
                  let toks4 := if pt.isSome then toks3.tail else toks3
                  let day_mask :=
                    match pt with
                    | some r => r.day_mask
                    | none => pd.day_mask
                  -- apply changes
                  let entries := sched_vals w.sched index
                  let entry := apply_edit (entries.getD id.toNat ⟨0, 0, [], 0⟩)
                    (if pd.ok then some (pd.date, day_mask) else none) pt (join_title toks4)
                  let w1 := { w with
                    sched := set_vals w.sched index (entries.set id.toNat entry) }
                  some (send_msg (sched_upload now w1)
                    (Reply.updated sched_user entry.title id))

/-- Source `sched_del` after a reload; the argument is split at spaces only.
`none` stands for undefined behaviour (the uninitialised buffer is looked
up, or `sscanf` is called on NULL). -/
def sched_del (now : Int) (w : World) (name arg : List Char) : Option World :=
  match strtok_all (fun c => c == ' ') arg with
  | [] => some (send_msg w Reply.del_usage)
  | a0 :: toks0 =>
    let pu := sched_parse_user a0 name 64
    match pu.2 with
    | none => none
    | some sched_user =>
      match sched_get w.sched sched_user with
      | none => some (send_msg w (Reply.no_schedule_info sched_user))
      | some index =>
        match rest_args pu.1 a0 toks0 with
        | [] => none
        | a1 :: _ =>
          match sched_parse_id a1 with
          | ParseId.undefined => none
          | ParseId.rejected => some (send_msg w Reply.need_an_id)
          | ParseId.accepted id day_id =>
            if day_id.isSome then some (send_msg w Reply.removing_days_nyi)
            else if id.toNat ≥ (sched_vals w.sched index).length then
              some (send_msg w
                (Reply.cannot_delete sched_user (sched_vals w.sched index).length id))
            else
              let w1 := { w with sched := (sched_del_i w.sched index id.toNat).1 }
              some (send_msg (sched_upload now w1) (Reply.deleted sched_user id))

/-- The mutating commands of `sched_cmd`. -/
inductive Cmd where
  | SCHED_ADD
  | SCHED_DEL
  | SCHED_EDIT
  deriving DecidableEq

/-- The command body that `sched_cmd` runs between reload and unlock. -/
def sched_run (tz_abbr2off : List Char → Option Int) (now : Int) (w : World)
    (name arg : List Char) (cmd : Cmd) : Option World :=
  match cmd with
  | Cmd.SCHED_ADD => sched_add tz_abbr2off now w name arg
  | Cmd.SCHED_DEL => sched_del now w name arg
  | Cmd.SCHED_EDIT => sched_edit tz_abbr2off now w name arg

/-- Source `sched_cmd` for `SCHED_ADD`, `SCHED_DEL` and `SCHED_EDIT`: for a
whitelisted user lock, reload (the result is not looked at), run the
command, unlock. `is_wlist` is `inso_is_wlist` of `inso_utils.h`, `resp` the
answer to the one `inso_gist_load` call. -/
def sched_cmd (tz_abbr2off : List Char → Option Int) (is_wlist : List Char → Bool)
    (now : Int) (resp : GistLoad) (w : World) (name arg : List Char) (cmd : Cmd) :
    Option World :=
  if is_wlist name then
    match sched_reload now resp (emit w Event.lock) with
    | none => none
    | some (_, w1) =>
      match sched_run tz_abbr2off now w1 name arg cmd with
      | none => none
      | some w2 => some (emit w2 Event.unlock)
  else some w

/-! ## Vocabulary of the statements -/

/-- A non-empty string of decimal digits (`HH`, `MM`, ...). -/
def is_number (s : List Char) : Bool := !s.isEmpty && s.all Char.isDigit

/-- The number that a string of decimal digits denotes. -/
def number_value (s : List Char) : Nat := s.foldl (fun a c => a * 10 + (c.toNat - 48)) 0

/-- The text `HH:MM`. -/
def time_text (h m : List Char) : List Char := h ++ ':' :: m

/-- The text `HH:MM-HH:MM`. -/
def range_text (h1 m1 h2 m2 : List Char) : List Char :=
  h1 ++ ':' :: (m1 ++ '-' :: (h2 ++ ':' :: m2))

/-- A zone abbreviation such as `GMT`: it starts with a letter. -/
def is_zone_text (z : List Char) : Bool :=
  match z with
  | [] => false
  | c :: _ => c.isAlpha

/-- Number of days set in a 7-bit day mask. -/
def day_count (mask : Nat) : Nat := ((List.range 7).filter (fun k => mask.testBit k)).length

/-- Weekday of `now` in UTC, Monday = 0 ... Sunday = 6 (1970-01-01 was a
Thursday). -/
def utc_weekday (now : Int) : Nat := ((now / 86400 + 3) % 7).toNat

/-- Reference definition of a day token: bit `i` for the `i`-th name of
mon, tue, wed, thu, fri, sat, sun, compared ignoring case; nothing for any
other token. -/
def spec_day_bit (tok : List Char) : Nat :=
  if lower tok = ['m', 'o', 'n'] then 0x01
  else if lower tok = ['t', 'u', 'e'] then 0x02
  else if lower tok = ['w', 'e', 'd'] then 0x04
  else if lower tok = ['t', 'h', 'u'] then 0x08
  else if lower tok = ['f', 'r', 'i'] then 0x10
  else if lower tok = ['s', 'a', 't'] then 0x20
  else if lower tok = ['s', 'u', 'n'] then 0x40
  else 0

/-- Reference definition of the keyword forms, compared ignoring case. -/
def spec_keyword_mask (weekday : Nat) (text : List Char) : Option Nat :=
  if lower text = ['t', 'o', 'd', 'a', 'y'] then some 0
  else if lower text = ['d', 'a', 'i', 'l', 'y'] then some 0x7F
  else if lower text = ['w', 'e', 'e', 'k', 'd', 'a', 'y', 's'] then some 0x1F
  else if lower text = ['w', 'e', 'e', 'k', 'e', 'n', 'd', 's'] then some 0x60
  else if lower text = ['w', 'e', 'e', 'k', 'l', 'y'] then some (1 <<< weekday)
  else none

/-- Reference definition of the day mask: a keyword gives its mask, any other
text is split on commas and the bits of its tokens are ORed. -/
def spec_day_mask (weekday : Nat) (text : List Char) : Nat :=
  match spec_keyword_mask weekday text with
  | some m => m
  | none => ((text.splitOn ',').map spec_day_bit).foldl (fun a b => a ||| b) 0

/-- Reference definition: at least one token of the comma separated text is
a day name. -/
def spec_day_list_ok (text : List Char) : Bool :=
  (text.splitOn ',').any (fun tok => spec_day_bit tok != 0)

/-- The schedules of an owner, in display order; none for an unknown owner. -/
def entries_of : Store → List Char → List SchedEntry
  | [], _ => []
  | (k, v) :: rest, name => if k = name then v else entries_of rest name

/-- The trace of `w1` continues the trace of `w` with calls that neither
lock nor unlock the gist. -/
def continues (w w1 : World) : Prop :=
  ∃ evs, w1.trace = w.trace ++ evs ∧ Event.lock ∉ evs ∧ Event.unlock ∉ evs

/-- A state for instantiating statements: `bob` owns one schedule, Mondays
and Tuesdays at 20:00 UTC for an hour; nothing has been called yet. -/
def sample_world : World :=
  ⟨[(['b', 'o', 'b'], [⟨1477944000, 1477947600, ['S', 'h', 'o', 'w'], 3⟩])], none, []⟩

/-- A small zone table for instantiating statements: `JST` is UTC+9 hours,
`PST` is UTC-8 hours, nothing else resolves. -/
def sample_tz (name : List Char) : Option Int :=
  if name = ['J', 'S', 'T'] then some 540
  else if name = ['P', 'S', 'T'] then some (-480)
  else none

/-- The update that a merge makes to the matching schedule: the weekday bit
of the requested start is ORed into the `uint8_t` mask. -/
def merged_entry (start : Int) (s : SchedEntry) : SchedEntry :=
  { s with repeat_ := (s.repeat_ ||| (1 <<< (get_dow (gmtime_r start)).toNat)) % 256 }

/-- Every schedule of every owner in the store satisfies `P`. -/
def all_entries (P : SchedEntry → Prop) (sched : Store) : Prop :=
  ∀ kv ∈ sched, ∀ e ∈ kv.2, P e

/-- The entry that `sched_edit` stores in place of `old` when the tokens
after the id are `a2 :: toks2`: day spec, time spec and title are tried in
this order, and `apply_edit` applies what was found. -/
def edit_entry (tz_abbr2off : List Char → Option Int) (now : Int) (old : SchedEntry)
    (a2 : List Char) (toks2 : List (List Char)) : SchedEntry :=
  let pd := sched_parse_days now a2
  let toks3 := rest_args pd.ok a2 toks2
  let pt : Option ParseTime :=
    match toks3 with
    | [] => none
    | a3 :: _ => sched_parse_time tz_abbr2off a3 pd.day_mask
  let toks4 := if pt.isSome then toks3.tail else toks3
  let day_mask :=
    match pt with
    | some r => r.day_mask
    | none => pd.day_mask
  apply_edit old (if pd.ok then some (pd.date, day_mask) else none) pt (join_title toks4)

/-- The instant `t` can be written in the format `YYYY-MM-DDTHH:MM:SSZ`: its
UTC year lies in `0..9999`. -/
def fits_format (t : Int) : Bool :=
  decide (0 ≤ (gmtime_r t).tm_year + 1900) && decide ((gmtime_r t).tm_year + 1900 ≤ 9999)

/-- What `yajl_tree_parse` makes of one object written by `sched_upload`: the
five keys in the order of the `yajl_gen_string` calls, the mask written by
`yajl_gen_integer`. -/
def record_json (r : SchedRecord) : JElem :=
  JElem.obj
    [ (['u', 's', 'e', 'r'], JVal.str r.user),
      (['s', 't', 'a', 'r', 't'], JVal.str r.start),
      (['e', 'n', 'd'], JVal.str r.end_),
      (['t', 'i', 't', 'l', 'e'], JVal.str r.title),
      (['r', 'e', 'p', 'e', 'a', 't'], JVal.num (r.repeat_ : Int)) ]

/-- The root array that `yajl_tree_parse` returns for a saved document. -/
def document_json (doc : List SchedRecord) : List JElem := doc.map record_json

/-- The answer of `inso_gist_load` when the gist holds the saved document. -/
def saved_gist (doc : List SchedRecord) : GistLoad :=
  GistLoad.ok [(schedule_json, some (document_json doc))]

/-- The `(owner, start, end, title, repeat)` tuples of a store, owner by
owner in display order. -/
def tuples : Store → List (List Char × Int × Int × List Char × Nat)
  | [] => []
  | (k, v) :: rest => v.map (fun e => (k, e.start, e.end_, e.title, e.repeat_)) ++ tuples rest

/-- The owners of a store that have a schedule. -/
def with_schedules (sched : Store) : Store := sched.filter (fun kv => !kv.2.isEmpty)

/-! ## Offset index -/

/-- Source `SchedOffset`. The pointers `user` and `entry` are kept as the
position they point to: `sched_keys[owner]` and `sched_vals[owner] + id`. -/
structure SchedOffset where
  offset : Int
  owner : Nat
  id : Nat
  deriving DecidableEq

/-- Source `sched_off_cmp`: the difference of the two `time_t` offsets,
converted to the `int` that the function returns. -/
def sched_off_cmp (a b : SchedOffset) : Int := int32 (a.offset - b.offset)

/-- Insertion of `x` in front of the first element that does not compare
below it. -/
def qsort_insert (cmp : SchedOffset → SchedOffset → Int) (x : SchedOffset) :
    List SchedOffset → List SchedOffset
  | [] => [x]
  | y :: ys => if cmp x y ≤ 0 then x :: y :: ys else y :: qsort_insert cmp x ys

/-- Library `qsort`, modelled as the stable sort by insertion. For two
elements every comparison sort gives this result, and for a comparison that
is a total preorder every stable sort does. -/
def qsort (cmp : SchedOffset → SchedOffset → Int) : List SchedOffset → List SchedOffset
  | [] => []
  | x :: xs => qsort_insert cmp x (qsort cmp xs)

/-- The structure that `sched_offsets_update` and `sched_next` pass to
`timegm` to get the start of the week: `gmtime_r(&now, &now_tm)` moved back to
Monday, with the time of day cleared. -/
def week_tm (now : Int) : tm :=
  { gmtime_r now with
    tm_mday := (gmtime_r now).tm_mday - get_dow (gmtime_r now)
    tm_hour := 0
    tm_min := 0
    tm_sec := 0 }

/-- The loop `for(int k = 0; k < DAYS_IN_WEEK; ++k)` of `sched_offsets_update`
from day `k` on, with `n` days to go. `date` is the structure of that name:
only `tm_mday` is assigned in the loop, and each `timegm(&date)` normalises
the structure in place. -/
def offsets_days (now_tm : tm) (week_start : Int) (owner id rep : Nat) :
    Nat → Nat → tm → List SchedOffset
  | 0, _, _ => []
  | n + 1, k, date =>
    if rep &&& (1 <<< k) = 0 then
      offsets_days now_tm week_start owner id rep n (k + 1) date
    else
      let date1 := { date with tm_mday := now_tm.tm_mday + (k : Int) }
      ⟨timegm date1 - week_start, owner, id⟩
        :: offsets_days now_tm week_start owner id rep n (k + 1) (timegm_norm date1)

/-- The body of the loop over the schedules of one owner (lines 128-152):
what is pushed for schedule `s`. `now` is the time since `week_start`. -/
def offsets_entry (now_tm : tm) (week_start now : Int) (owner id : Nat) (s : SchedEntry) :
    List SchedOffset :=
  let t := s.start - week_start
  let once : List SchedOffset :=
    if s.repeat_ = 0 ∧ now - t < 12 * 60 * 60 then [⟨t, owner, id⟩] else []
  let date := { gmtime_r s.start with tm_year := now_tm.tm_year, tm_mon := now_tm.tm_mon }
  once ++ offsets_days now_tm week_start owner id s.repeat_ 7 0 date

/-- The loop over the schedules of owner `owner`, from schedule `j` on. -/
def offsets_vals (now_tm : tm) (week_start now : Int) (owner : Nat) :
    List SchedEntry → Nat → List SchedOffset
  | [], _ => []
  | s :: rest, j =>
    offsets_entry now_tm week_start now owner j s
      ++ offsets_vals now_tm week_start now owner rest (j + 1)

/-- The loop over the owners, from owner `i` on. -/
def offsets_keys (now_tm : tm) (week_start now : Int) : Store → Nat → List SchedOffset
  | [], _ => []
  | (_, v) :: rest, i =>
    offsets_vals now_tm week_start now i v 0 ++ offsets_keys now_tm week_start now rest (i + 1)

/-- The array `sched_offsets` that `sched_offsets_update` has pushed when it
reaches `qsort`; `now` is the value of `time(0)`. `timegm(&now_tm)` has
normalised `now_tm`. -/
def offsets_emit (now : Int) (sched : Store) : List SchedOffset :=
  let week_start := timegm (week_tm now)
  offsets_keys (timegm_norm (week_tm now)) week_start (now - week_start) sched 0

/-- The array `sched_offsets` after `sched_offsets_update`. -/
def offsets_build (now : Int) (sched : Store) : List SchedOffset :=
  qsort sched_off_cmp (offsets_emit now sched)

/-- The array `sched_offsets` of a state: empty before the first
`sched_offsets_update`, afterwards what the last one built. -/
def sched_offsets (w : World) : List SchedOffset :=
  match w.offsets_src with
  | none => []
  | some (sched, now) => offsets_build now sched

/-- Lines 863-885 of `sched_next`: the index entry `next` and the `int`
variable `diff`; `none` when `next` stays NULL. -/
def sched_next_find (now : Int) (offsets : List SchedOffset) : Option (SchedOffset × Int) :=
  let base := timegm (week_tm now)
  match offsets.find? (fun s => decide (now < base + s.offset)) with
  | some s => some (s, int32 (base + s.offset - now))
  | none =>
    match offsets with
    | [] => none
    | s :: _ => some (s, int32 (base + s.offset + 7 * 24 * 60 * 60 - now))

/-- Source `sched_next`. The pointers of the index entry are followed in the
store that the index was built from; when the store has changed since, they
are stale and the result is `none`. -/
def sched_next (now : Int) (w : World) : Option World :=
  match sched_next_find now (sched_offsets w) with
  | none => some w
  | some (next, diff) =>
    if w.offsets_src.map Prod.fst = some w.sched then
      some (send_msg w (Reply.next_stream
        ((w.sched.map Prod.fst).getD next.owner [])
        ((sched_vals w.sched next.owner).getD next.id ⟨0, 0, [], 0⟩).title
        (Int.tdiv diff (60 * 60)) (Int.tmod (Int.tdiv diff 60) 60) (Int.tmod diff 60)))
    else none

/-! ## The message `sched_iter` -/

/-- The directive `SchedIterCmd` that the callback returns, as far as
`sched_mod_msg` looks at it: the tests `cmd & SCHED_ITER_DELETE` and
`cmd & SCHED_ITER_STOP`. -/
structure SchedIterCmd where
  delete : Bool
  stop : Bool
  deriving DecidableEq

/-- What one invocation of the callback leaves behind: its own state, the
four fields of `result` that are saved back (the callback leaves a string in
`title`), and the directive. The callback is taken to leave `result.user`,
which is set once per owner, as it is. -/
structure IterVisit (σ : Type) where
  cb_arg : σ
  start : Int
  end_ : Int
  title : List Char
  repeat_ : Nat
  cmd : SchedIterCmd

/-- The outcome of `sched_iter`: the store, the state of the callback and the
`result` structures that the callback was invoked with, in order. -/
structure IterState (σ : Type) where
  sched : Store
  cb_arg : σ
  calls : List SchedMsg

/-- The two nested loops of `sched_iter` (lines 973-1013), one step per
round: at owner `index` and schedule `i`. After `--index; break` the outer
loop goes on with `++index`, after `--i` the inner loop goes on with `++i`,
so both stay where they are. `none` when `fuel` rounds were not enough. -/
def sched_iter_loop {σ : Type} (visit : σ → SchedMsg → IterVisit σ) (iter_all : Bool) :
    Nat → Store → Nat → Nat → σ → List SchedMsg → Option (IterState σ)
  | 0, _, _, _, _, _ => none
  | fuel + 1, sched, index, i, st, calls =>
    match sched[index]? with
    | none => some ⟨sched, st, calls⟩
    | some (key, vals) =>
      match vals[i]? with
      | none =>
        if iter_all then sched_iter_loop visit iter_all fuel sched (index + 1) 0 st calls
        else some ⟨sched, st, calls⟩
      | some ent =>
        let result : SchedMsg :=
          ⟨some key, (i : Int), ent.start, ent.end_, some ent.title, ent.repeat_⟩
        let r := visit st result
        -- if the callback changed anything, save back those changes.
        let sched1 := set_vals sched index
          (vals.set i ⟨r.start, r.end_, r.title, r.repeat_ % 256⟩)
        let calls1 := calls ++ [result]
        if r.cmd.delete then
          let d := sched_del_i sched1 index i
          if d.2 then
            if iter_all then sched_iter_loop visit iter_all fuel d.1 index 0 r.cb_arg calls1
            else some ⟨d.1, r.cb_arg, calls1⟩
          else if r.cmd.stop then some ⟨d.1, r.cb_arg, calls1⟩
          else sched_iter_loop visit iter_all fuel d.1 index i r.cb_arg calls1
        else if r.cmd.stop then some ⟨sched1, r.cb_arg, calls1⟩
        else sched_iter_loop visit iter_all fuel sched1 index (i + 1) r.cb_arg calls1

/-- A number of rounds that `sched_iter_loop` cannot use up: one per owner,
one per schedule, and one to leave the outer loop. -/
def iter_fuel (sched : Store) : Nat :=
  sched.length + (sched.map (fun kv => kv.2.length)).sum + 1

/-- Source `sched_mod_msg` for the command `sched_iter`; `name` is `msg->arg`. -/
def sched_iter {σ : Type} (visit : σ → SchedMsg → IterVisit σ) (name : Option (List Char))
    (sched : Store) (st : σ) : Option (IterState σ) :=
  match name with
  | none => sched_iter_loop visit true (iter_fuel sched) sched 0 0 st []
  | some n =>
    match sched_get sched n with
    | none => some ⟨sched, st, []⟩
    | some index => sched_iter_loop visit false (iter_fuel sched) sched index 0 st []

/-- The messages that `sched_mod_msg` tells apart by `msg->cmd`. -/
inductive ModMsg (σ : Type) where
  | sched_iter (name : Option (List Char)) (visit : σ → SchedMsg → IterVisit σ) (cb_arg : σ)
  | sched_add (request : SchedMsg) (has_callback : Bool)
  | sched_save
  | other

/-- Source `sched_mod_msg` on the module state; `none` when `sched_iter`
gives none. -/
def sched_mod_msg {σ : Type} (now : Int) (w : World) (msg : ModMsg σ) : Option World :=
  match msg with
  | ModMsg.sched_iter name visit st =>
    (sched_iter visit name w.sched st).map (fun r => { w with sched := r.sched })
  | ModMsg.sched_add request has_callback =>
    some { w with sched := (sched_mod_msg_add w.sched request has_callback).1 }
  | ModMsg.sched_save => some (sched_upload now w)
  | ModMsg.other => some w

/-- The `result` structure that the callback of `sched_iter` is invoked with
for schedule `ent`, at position `i` of owner `key`. -/
def iter_msg (key : List Char) (i : Nat) (ent : SchedEntry) : SchedMsg :=
  ⟨some key, (i : Int), ent.start, ent.end_, some ent.title, ent.repeat_⟩

/-- Visiting the schedules `rem` of owner `key` one after the other, the
first of them at position `i`: a schedule whose visit answers delete is
dropped, any other is kept as the callback left it. Gives the schedules
kept, the last state of the callback and the invocations. -/
def visit_owner {σ : Type} (visit : σ → SchedMsg → IterVisit σ) (key : List Char) :
    List SchedEntry → Nat → σ → List SchedEntry × σ × List SchedMsg
  | [], _, st => ([], st, [])
  | e :: es, i, st =>
    let r := visit st (iter_msg key i e)
    if r.cmd.delete then
      let o := visit_owner visit key es i r.cb_arg
      (o.1, o.2.1, iter_msg key i e :: o.2.2)
    else
      let o := visit_owner visit key es (i + 1) r.cb_arg
      (⟨r.start, r.end_, r.title, r.repeat_ % 256⟩ :: o.1, o.2.1, iter_msg key i e :: o.2.2)

/-- Visiting all owners in store order; an owner whose schedules were all
deleted is removed. -/
def visit_all {σ : Type} (visit : σ → SchedMsg → IterVisit σ) :
    Store → σ → Store × σ × List SchedMsg
  | [], st => ([], st, [])
  | (k, v) :: rest, st =>
    let o := visit_owner visit k v 0 st
    let r := visit_all visit rest o.2.1
    (if o.1.isEmpty && !v.isEmpty then r.1 else (k, o.1) :: r.1, r.2.1, o.2.2 ++ r.2.2)

/-- The `(owner, start, end, title, repeat)` tuples that the callback of
`sched_iter` was shown, in the order of the invocations. -/
def call_tuples (calls : List SchedMsg) : List (List Char × Int × Int × List Char × Nat) :=
  calls.map (fun m => (m.user.getD [], m.start, m.end_, m.title.getD [], m.repeat_))

/-- From `w` to `w1` the index has kept up with the store: either the store
and the index are both as they were, or the index was rebuilt at `now` from
the store of `w1`. -/
def index_follows (now : Int) (w w1 : World) : Prop :=
  (w1.sched = w.sched ∧ w1.offsets_src = w.offsets_src) ∨ w1.offsets_src = some (w1.sched, now)

/-! ## Calendar lemmas -/

theorem yoe_bounds (doe : Int) (h0 : 0 ≤ doe) (h1 : doe < 146097) :
    0 ≤ (doe - doe / 1460 + doe / 36524 - doe / 146096) / 365 ∧
    (doe - doe / 1460 + doe / 36524 - doe / 146096) / 365 < 400 := by
  omega

theorem doy_bounds (doe yoe : Int) (h0 : 0 ≤ doe) (h1 : doe < 146097)
    (hy : (doe - doe / 1460 + doe / 36524 - doe / 146096) / 365 = yoe) :
    0 ≤ doe - (365 * yoe + yoe / 4 - yoe / 100) ∧
    doe - (365 * yoe + yoe / 4 - yoe / 100) < 366 := by
  have hf : doe / 36524 = 0 ∨ doe / 36524 = 1 ∨ doe / 36524 = 2 ∨ doe / 36524 = 3
      ∨ doe / 36524 = 4 := by omega
  have hd : yoe / 100 = 0 ∨ yoe / 100 = 1 ∨ yoe / 100 = 2 ∨ yoe / 100 = 3 := by omega
  rcases hf with hf | hf | hf | hf | hf <;> rcases hd with hd | hd | hd | hd <;> omega

/-- Month of `civil_from_days` lies in `1..12`. -/
theorem civil_month_range (z : Int) :
    1 ≤ (civil_from_days z).2.1 ∧ (civil_from_days z).2.1 ≤ 12 := by
  simp only [civil_from_days]
  generalize hdoe : z + 719468 - (z + 719468) / 146097 * 146097 = doe
  have h0 : 0 ≤ doe := by omega
  have h1 : doe < 146097 := by omega
  generalize hy : (doe - doe / 1460 + doe / 36524 - doe / 146096) / 365 = yoe
  have hb := doy_bounds doe yoe h0 h1 hy
  generalize doe - (365 * yoe + yoe / 4 - yoe / 100) = doy at hb ⊢
  split <;> omega

/-- The day number of the date of a day number is that day number. -/
theorem days_from_civil_civil (z : Int) :
    days_from_civil (civil_from_days z).1 (civil_from_days z).2.1 (civil_from_days z).2.2 = z := by
  simp only [civil_from_days, days_from_civil]
  generalize hera : (z + 719468) / 146097 = era
  generalize hdoe : z + 719468 - era * 146097 = doe
  have h0 : 0 ≤ doe := by omega
  have h1 : doe < 146097 := by omega
  generalize hy : (doe - doe / 1460 + doe / 36524 - doe / 146096) / 365 = yoe
  have hyb := yoe_bounds doe h0 h1
  rw [hy] at hyb
  have hb := doy_bounds doe yoe h0 h1 hy
  generalize hdoy : doe - (365 * yoe + yoe / 4 - yoe / 100) = doy at hb ⊢
  generalize hmp : (5 * doy + 2) / 153 = mp
  have hmp0 : 0 ≤ mp ∧ mp ≤ 11 := by omega
  by_cases hlt : mp < 10
  · simp only [hlt, if_true]
    have h1 : ¬ (mp + 3 ≤ 2) := by omega
    have h2 : mp + 3 > 2 := by omega
    simp only [h1, h2, if_true, if_false]
    have e1 : (yoe + era * 400) / 400 = era := by omega
    have e2 : yoe + era * 400 - era * 400 = yoe := by omega
    have e3 : mp + 3 - 3 = mp := by omega
    rw [e1, e2, e3]
    omega
  · simp only [hlt, if_false]
    have h1 : mp - 9 ≤ 2 := by omega
    have h2 : ¬ (mp - 9 > 2) := by omega
    simp only [h1, h2, if_true, if_false]
    have e1 : (yoe + era * 400 + 1 - 1) / 400 = era := by omega
    have e2 : yoe + era * 400 + 1 - 1 - era * 400 = yoe := by omega
    have e3 : mp - 9 + 9 = mp := by omega
    rw [e1, e2, e3]
    omega

/-! ## Scanning lemmas -/

theorem isDigit_toNat {c : Char} (h : c.isDigit = true) : 48 ≤ c.toNat ∧ c.toNat ≤ 57 := by
  simp [Char.isDigit] at h
  simp only [Char.toNat]
  exact ⟨by exact_mod_cast h.1, by exact_mod_cast h.2⟩

theorem isDigit_not_space {c : Char} (h : c.isDigit = true) : isspace c = false := by
  have hb := isDigit_toNat h
  have ne : ∀ d : Char, d.toNat < 48 → (c == d) = false := by
    intro d hd
    simp only [beq_eq_false_iff_ne, ne_eq]
    rintro rfl
    omega
  simp [isspace, ne ' ' (by decide), ne '\t' (by decide), ne '\n' (by decide),
    ne '\x0b' (by decide), ne '\x0c' (by decide), ne '\r' (by decide)]

theorem isDigit_ne {c d : Char} (h : c.isDigit = true) (hd : d.isDigit = false) : c ≠ d := by
  rintro rfl
  simp [h] at hd

theorem isAlpha_not_digit {c : Char} (h : c.isAlpha = true) : c.isDigit = false := by
  simp only [Char.isAlpha, Char.isUpper, Char.isLower, Bool.or_eq_true, Bool.and_eq_true,
    decide_eq_true_eq] at h
  simp only [Char.isDigit, Bool.and_eq_false_iff, decide_eq_false_iff_not]
  have h1 : ∀ a b : UInt32, a ≤ b ↔ a.toNat ≤ b.toNat := fun a b => Iff.rfl
  have h2 : ∀ a b : UInt32, a ≥ b ↔ a.toNat ≥ b.toNat := fun a b => Iff.rfl
  simp only [h1, h2] at h ⊢
  have e48 : (48 : UInt32).toNat = 48 := rfl
  have e57 : (57 : UInt32).toNat = 57 := rfl
  have e65 : (65 : UInt32).toNat = 65 := rfl
  have e90 : (90 : UInt32).toNat = 90 := rfl
  have e97 : (97 : UInt32).toNat = 97 := rfl
  have e122 : (122 : UInt32).toNat = 122 := rfl
  rw [e48, e57] 
  rw [e65, e90, e97, e122] at h
  omega

theorem isAlpha_ne_minus {c : Char} (h : c.isAlpha = true) : c ≠ '-' := by
  rintro rfl
  revert h
  decide

theorem scan_digits_append (ds rest : List Char) (acc : Nat)
    (hd : ∀ c ∈ ds, c.isDigit = true)
    (hr : ∀ c rs, rest = c :: rs → c.isDigit = false) :
    scan_digits (ds ++ rest) acc
      = (ds.foldl (fun a c => a * 10 + (c.toNat - 48)) acc, rest) := by
  induction ds generalizing acc with
  | nil =>
    cases rest with
    | nil => rfl
    | cons c rs => simp [scan_digits, hr c rs rfl]
  | cons d ds ih =>
    have h1 : d.isDigit = true := hd d (List.mem_cons_self _ _)
    simp only [List.cons_append, scan_digits, h1, if_true, List.foldl_cons]
    exact ih _ (fun c hc => hd c (List.mem_cons_of_mem _ hc))

theorem is_number_cons {s : List Char} (h : is_number s = true) :
    ∃ c cs, s = c :: cs ∧ c.isDigit = true ∧ ∀ x ∈ c :: cs, x.isDigit = true := by
  cases s with
  | nil => simp [is_number] at h
  | cons c cs =>
    simp only [is_number, List.isEmpty_cons, Bool.not_false, Bool.true_and, List.all_eq_true] at h
    exact ⟨c, cs, rfl, h c (List.mem_cons_self _ _), h⟩

/-- The conversion `%d` on a digit string followed by something that is not a
digit. -/
theorem scan_d_number (ds rest : List Char) (hn : is_number ds = true)
    (hr : ∀ c rs, rest = c :: rs → c.isDigit = false) :
    scan_d (ds ++ rest) = some (store_int (number_value ds), rest) := by
  obtain ⟨c, cs, rfl, hc, hall⟩ := is_number_cons hn
  have hm : c ≠ '-' := isDigit_ne hc (by decide)
  have hp : c ≠ '+' := isDigit_ne hc (by decide)
  have hs := scan_digits_append (c :: cs) rest 0 hall hr
  simp only [List.cons_append] at hs
  have hk : skip_space (c :: cs ++ rest) = c :: (cs ++ rest) := by
    simp [skip_space, isDigit_not_space hc]
  unfold scan_d
  rw [hk]
  dsimp only
  rw [if_neg hm, if_neg hp]
  simp only [scan_unsigned, hc, if_true, Option.map_some', hs, number_value]

theorem store_int_small (v : Int) (h0 : 0 ≤ v) (h1 : v < 2147483648) : store_int v = v := by
  simp only [store_int, int32]
  omega

theorem int32_small (v : Int) (h0 : -2147483648 ≤ v) (h1 : v < 2147483648) : int32 v = v := by
  simp only [int32]
  omega

theorem drop_length_sub (pre rest : List Char) :
    (pre ++ rest).drop ((pre ++ rest).length - rest.length) = rest := by
  simp

theorem match_char_self (c : Char) (cs : List Char) : match_char c (c :: cs) = some cs := by
  simp [match_char]

theorem colon_not_digit (x : List Char) :
    ∀ c rs, ':' :: x = c :: rs → c.isDigit = false := by
  intro c rs h
  cases h
  decide

theorem minus_not_digit (x : List Char) :
    ∀ c rs, '-' :: x = c :: rs → c.isDigit = false := by
  intro c rs h
  cases h
  decide

/-- The `sscanf` of `sched_parse_time` on `HH:MM` followed by text that
starts neither a number nor a range. -/
theorem sscanf_time_single (h m rest : List Char) (hh : is_number h = true)
    (hm : is_number m = true)
    (hr : ∀ c rs, rest = c :: rs → c.isDigit = false ∧ c ≠ '-') :
    sscanf_time (h ++ ':' :: (m ++ rest))
      = ⟨2, store_int (number_value h), store_int (number_value m), 0, 0,
          (h ++ ':' :: (m ++ rest)).length - rest.length, 0⟩ := by
  have hno : match_char '-' rest = none := by
    cases rest with
    | nil => rfl
    | cons c rs => simp [match_char, (hr c rs rfl).2]
  unfold sscanf_time
  rw [scan_d_number h _ hh (colon_not_digit _)]
  simp only [match_char_self]
  rw [scan_d_number m rest hm (fun c rs e => (hr c rs e).1)]
  simp only [hno]

/-- The `sscanf` of `sched_parse_time` on `HH:MM-HH:MM` followed by text that
does not start with a digit. -/
theorem sscanf_time_range (h1 m1 h2 m2 rest : List Char) (hh1 : is_number h1 = true)
    (hm1 : is_number m1 = true) (hh2 : is_number h2 = true) (hm2 : is_number m2 = true)
    (hr : ∀ c rs, rest = c :: rs → c.isDigit = false) :
    sscanf_time (h1 ++ ':' :: (m1 ++ '-' :: (h2 ++ ':' :: (m2 ++ rest))))
      = ⟨4, store_int (number_value h1), store_int (number_value m1),
          store_int (number_value h2), store_int (number_value m2),
          (h1 ++ ':' :: (m1 ++ '-' :: (h2 ++ ':' :: (m2 ++ rest)))).length
            - ('-' :: (h2 ++ ':' :: (m2 ++ rest))).length,
          (h1 ++ ':' :: (m1 ++ '-' :: (h2 ++ ':' :: (m2 ++ rest)))).length - rest.length⟩ := by
  unfold sscanf_time
  rw [scan_d_number h1 _ hh1 (colon_not_digit _)]
  simp only [match_char_self]
  rw [scan_d_number m1 _ hm1 (minus_not_digit _)]
  simp only [match_char_self]
  rw [scan_d_number h2 _ hh2 (colon_not_digit _)]
  simp only [match_char_self]
  rw [scan_d_number m2 rest hm2 hr]

theorem drop_single (h m rest : List Char) :
    (h ++ ':' :: (m ++ rest)).drop ((h ++ ':' :: (m ++ rest)).length - rest.length) = rest := by
  have e : h ++ ':' :: (m ++ rest) = (h ++ ':' :: m) ++ rest := by simp
  rw [e]
  exact drop_length_sub _ _

theorem drop_range (h1 m1 h2 m2 rest : List Char) :
    (h1 ++ ':' :: (m1 ++ '-' :: (h2 ++ ':' :: (m2 ++ rest)))).drop
      ((h1 ++ ':' :: (m1 ++ '-' :: (h2 ++ ':' :: (m2 ++ rest)))).length - rest.length)
      = rest := by
  have e : h1 ++ ':' :: (m1 ++ '-' :: (h2 ++ ':' :: (m2 ++ rest)))
      = (h1 ++ ':' :: (m1 ++ '-' :: (h2 ++ ':' :: m2))) ++ rest := by simp
  rw [e]
  exact drop_length_sub _ _

/-- What `sched_parse_time` computes for `HH:MM` plus an optional zone. -/
theorem parse_time_single (tz : List Char → Option Int) (h m rest : List Char) (mask : Nat)
    (hh : is_number h = true) (hm : is_number m = true)
    (hr : ∀ c rs, rest = c :: rs → c.isDigit = false ∧ c ≠ '-')
    (hb : (number_value h : Int) * 60 + number_value m + 60 < 2147483648)
    (hz : ∀ off, tz rest = some off →
      -2147483648 ≤ (number_value h : Int) * 60 + number_value m - off ∧
      (number_value h : Int) * 60 + number_value m + 60 - off < 2147483648) :
    sched_parse_time tz (h ++ ':' :: (m ++ rest)) mask
      = some ⟨(number_value h : Int) * 60 + number_value m - (tz rest).getD 0,
          (number_value h : Int) * 60 + number_value m + 60 - (tz rest).getD 0,
          adjust_day_mask ((number_value h : Int) * 60 + number_value m - (tz rest).getD 0) mask,
          false⟩ := by
  have hH : (0 : Int) ≤ number_value h := Int.ofNat_nonneg _
  have hM : (0 : Int) ≤ number_value m := Int.ofNat_nonneg _
  generalize hHv : (number_value h : Int) = H at hb hH hz ⊢
  generalize hMv : (number_value m : Int) = M at hb hM hz ⊢
  unfold sched_parse_time
  rw [sscanf_time_single h m rest hh hm hr, hHv, hMv]
  dsimp only
  rw [store_int_small H hH (by omega), store_int_small M hM (by omega)]
  rw [if_neg (by omega), if_neg (by omega)]
  simp only [if_true, true_or]
  have e0 : (2 : Nat) >>> 2 = 0 := by decide
  rw [e0]
  simp only [if_true, drop_single]
  rw [int32_small (H + 1) (by omega) (by omega), int32_small (H * 60) (by omega) (by omega),
    int32_small ((H + 1) * 60) (by omega) (by omega), int32_small (H * 60 + M) (by omega) (by omega),
    int32_small ((H + 1) * 60 + M) (by omega) (by omega)]
  rw [if_neg (by omega)]
  cases hto : tz rest with
  | none =>
    simp only [Option.getD_none, sub_zero]
    have e1 : (H + 1) * 60 + M = H * 60 + M + 60 := by ring
    simp [e1]
  | some off =>
    have hzb := hz off hto
    simp only [Option.getD_some]
    rw [int32_small (H * 60 + M - off) (by omega) (by omega),
      int32_small ((H + 1) * 60 + M - off) (by omega) (by omega)]
    have e1 : (H + 1) * 60 + M - off = H * 60 + M + 60 - off := by ring
    simp [e1]

/-- What `sched_parse_time` computes for `HH:MM-HH:MM` plus an optional zone. -/
theorem parse_time_range (tz : List Char → Option Int) (h1 m1 h2 m2 rest : List Char)
    (mask : Nat) (hh1 : is_number h1 = true) (hm1 : is_number m1 = true)
    (hh2 : is_number h2 = true) (hm2 : is_number m2 = true)
    (hr : ∀ c rs, rest = c :: rs → c.isDigit = false)
    (hb1 : (number_value h1 : Int) * 60 + number_value m1 < 1000000000)
    (hb2 : (number_value h2 : Int) * 60 + number_value m2 < 1000000000)
    (hz : ∀ off, tz rest = some off → -1000000000 ≤ off ∧ off ≤ 1000000000) :
    sched_parse_time tz (h1 ++ ':' :: (m1 ++ '-' :: (h2 ++ ':' :: (m2 ++ rest)))) mask
      = some ⟨(number_value h1 : Int) * 60 + number_value m1 - (tz rest).getD 0,
          (if (number_value h2 : Int) * 60 + number_value m2
                < (number_value h1 : Int) * 60 + number_value m1
            then (number_value h2 : Int) * 60 + number_value m2 + 1440
            else (number_value h2 : Int) * 60 + number_value m2) - (tz rest).getD 0,
          adjust_day_mask ((number_value h1 : Int) * 60 + number_value m1 - (tz rest).getD 0)
            mask,
          true⟩ := by
  have hH1 : (0 : Int) ≤ number_value h1 := Int.ofNat_nonneg _
  have hM1 : (0 : Int) ≤ number_value m1 := Int.ofNat_nonneg _
  have hH2 : (0 : Int) ≤ number_value h2 := Int.ofNat_nonneg _
  have hM2 : (0 : Int) ≤ number_value m2 := Int.ofNat_nonneg _
  generalize hH1v : (number_value h1 : Int) = H1 at hb1 hH1 ⊢
  generalize hM1v : (number_value m1 : Int) = M1 at hb1 hM1 ⊢
  generalize hH2v : (number_value h2 : Int) = H2 at hb2 hH2 ⊢
  generalize hM2v : (number_value m2 : Int) = M2 at hb2 hM2 ⊢
  unfold sched_parse_time
  rw [sscanf_time_range h1 m1 h2 m2 rest hh1 hm1 hh2 hm2 hr, hH1v, hM1v, hH2v, hM2v]
  dsimp only
  rw [store_int_small H1 hH1 (by omega), store_int_small M1 hM1 (by omega),
    store_int_small H2 hH2 (by omega), store_int_small M2 hM2 (by omega)]
  rw [if_neg (by omega), if_neg (by omega)]
  have e4 : ((4 : Nat) = 2) = False := by decide
  have e1 : (4 : Nat) >>> 2 = 1 := by decide
  simp only [e4, e1, if_false, or_true, if_true, drop_range, one_ne_zero, decide_False,
    Bool.not_false]
  rw [int32_small (H1 * 60) (by omega) (by omega), int32_small (H2 * 60) (by omega) (by omega),
    int32_small (H1 * 60 + M1) (by omega) (by omega),
    int32_small (H2 * 60 + M2) (by omega) (by omega)]
  have e60 : H2 * 60 + M2 + 24 * 60 = H2 * 60 + M2 + 1440 := by norm_num
  rw [int32_small (H2 * 60 + M2 + 24 * 60) (by omega) (by omega), e60]
  cases hto : tz rest with
  | none =>
    simp only [Option.getD_none, sub_zero]
  | some off =>
    have hzb := hz off hto
    simp only [Option.getD_some]
    rw [int32_small (H1 * 60 + M1 - off) (by omega) (by omega)]
    by_cases hlt : H2 * 60 + M2 < H1 * 60 + M1
    · simp only [hlt, if_true]
      rw [int32_small (H2 * 60 + M2 + 1440 - off) (by omega) (by omega)]
    · simp only [hlt, if_false]
      rw [int32_small (H2 * 60 + M2 - off) (by omega) (by omega)]

theorem nil_stops (P : Char → Prop) : ∀ c rs, ([] : List Char) = c :: rs → P c := by
  intro c rs h
  cases h

theorem zone_stops (zone : List Char) (hz : is_zone_text zone = true) :
    ∀ c rs, zone = c :: rs → c.isDigit = false ∧ c ≠ '-' := by
  intro c rs h
  subst h
  simp only [is_zone_text] at hz
  exact ⟨isAlpha_not_digit hz, isAlpha_ne_minus hz⟩

/-! ## Claims about `sched_parse_time` -/

/-- C6: a time spec `HH:MM` without time zone is accepted with
start = 60*H + M, end = start + 60 and no explicit duration; a time spec
`HH:MM-HH:MM` is accepted with the explicit-duration flag set. -/
theorem sched_parse_time_default_duration (tz : List Char → Option Int)
    (h m h1 m1 h2 m2 : List Char) (mask : Nat) (htz : tz [] = none)
    (hh : is_number h = true) (hm : is_number m = true)
    (hb : (number_value h : Int) * 60 + number_value m + 60 < 2147483648)
    (hh1 : is_number h1 = true) (hm1 : is_number m1 = true)
    (hh2 : is_number h2 = true) (hm2 : is_number m2 = true)
    (hb1 : (number_value h1 : Int) * 60 + number_value m1 < 1000000000)
    (hb2 : (number_value h2 : Int) * 60 + number_value m2 < 1000000000) :
    (∃ r, sched_parse_time tz (time_text h m) mask = some r
        ∧ r.mins_start = 60 * (number_value h : Int) + number_value m
        ∧ r.mins_end = r.mins_start + 60 ∧ r.got_duration = false)
    ∧ (∃ r, sched_parse_time tz (range_text h1 m1 h2 m2) mask = some r
        ∧ r.got_duration = true) := by
  constructor
  · have hp := parse_time_single tz h m [] mask hh hm (nil_stops _) hb
      (by intro off ho; rw [htz] at ho; cases ho)
    simp only [List.append_nil] at hp
    refine ⟨_, hp, ?_, ?_, rfl⟩
    · simp only [htz, Option.getD_none]; ring
    · simp only [htz, Option.getD_none]; ring
  · have hp := parse_time_range tz h1 m1 h2 m2 [] mask hh1 hm1 hh2 hm2 (nil_stops _) hb1 hb2
      (by intro off ho; rw [htz] at ho; cases ho)
    simp only [List.append_nil] at hp
    exact ⟨_, hp, rfl⟩

/-- Witness of C6: `09:00` gives start 540 and end 600, not explicit, and
`10:00-11:30` has an explicit duration. -/
theorem sched_parse_time_default_duration_witness :
    (∃ r, sched_parse_time (fun _ => none) ['0', '9', ':', '0', '0'] 0 = some r
        ∧ r.mins_start = 540 ∧ r.mins_end = 600 ∧ r.got_duration = false)
    ∧ (∃ r, sched_parse_time (fun _ => none)
          ['1', '0', ':', '0', '0', '-', '1', '1', ':', '3', '0'] 0 = some r
        ∧ r.got_duration = true) := by
  obtain ⟨⟨r, h1, h2, h3, h4⟩, r2, h5, h6⟩ :=
    sched_parse_time_default_duration (fun _ => none) ['0', '9'] ['0', '0'] ['1', '0']
      ['0', '0'] ['1', '1'] ['3', '0'] 0 rfl (by decide) (by decide) (by decide) (by decide)
      (by decide) (by decide) (by decide) (by decide) (by decide)
  refine ⟨⟨r, h1, ?_, ?_, h4⟩, r2, h5, h6⟩
  · rw [h2]; decide
  · rw [h3, h2]; decide

/-- C7: a time spec `H1:M1-H2:M2` without time zone whose two times are
times of day gives start = 60*H1 + M1 and end = 60*H2 + M2, plus 1440 when
that lies before the start, so that 0 <= end - start < 1440. -/
theorem sched_parse_time_midnight_crossing (tz : List Char → Option Int)
    (h1 m1 h2 m2 : List Char) (mask : Nat) (htz : tz [] = none)
    (hh1 : is_number h1 = true) (hm1 : is_number m1 = true)
    (hh2 : is_number h2 = true) (hm2 : is_number m2 = true)
    (hH1 : number_value h1 < 24) (hM1 : number_value m1 < 60)
    (hH2 : number_value h2 < 24) (hM2 : number_value m2 < 60) :
    ∃ r, sched_parse_time tz (range_text h1 m1 h2 m2) mask = some r
      ∧ r.mins_start = 60 * (number_value h1 : Int) + number_value m1
      ∧ r.mins_end =
          (if 60 * (number_value h2 : Int) + number_value m2 ≥ r.mins_start
            then 60 * (number_value h2 : Int) + number_value m2
            else 60 * (number_value h2 : Int) + number_value m2 + 1440)
      ∧ 0 ≤ r.mins_end - r.mins_start ∧ r.mins_end - r.mins_start < 1440 := by
  have hp := parse_time_range tz h1 m1 h2 m2 [] mask hh1 hm1 hh2 hm2 (nil_stops _)
    (by omega) (by omega) (by intro off ho; rw [htz] at ho; cases ho)
  simp only [List.append_nil, htz, Option.getD_none, sub_zero] at hp
  refine ⟨_, hp, ?_, ?_, ?_, ?_⟩
  · dsimp only; ring
  · dsimp only; split_ifs <;> omega
  · dsimp only; split_ifs <;> omega
  · dsimp only; split_ifs <;> omega

/-- Witness of C7: `23:30-00:30` gives end = start + 60 with end >= 1440. -/
theorem sched_parse_time_midnight_crossing_witness :
    ∃ r, sched_parse_time (fun _ => none)
        ['2', '3', ':', '3', '0', '-', '0', '0', ':', '3', '0'] 0 = some r
      ∧ r.mins_start = 1410 ∧ r.mins_end = r.mins_start + 60 ∧ 1440 ≤ r.mins_end := by
  obtain ⟨r, h1, h2, h3, _, _⟩ :=
    sched_parse_time_midnight_crossing (fun _ => none) ['2', '3'] ['3', '0'] ['0', '0']
      ['3', '0'] 0 rfl (by decide) (by decide) (by decide) (by decide) (by decide) (by decide)
      (by decide) (by decide)
  have e1 : r.mins_start = 1410 := by rw [h2]; decide
  have e2 : r.mins_end = 1470 := by rw [h3, e1]; decide
  exact ⟨r, h1, e1, by rw [e2, e1]; decide, by rw [e2]; decide⟩

/-- C8: when the zone abbreviation after `HH:MM` or `HH:MM-HH:MM` resolves to
an offset of `z` minutes, start and end are those of the same spec without
the zone, minus `z`; the duration is the same. -/
theorem sched_parse_time_zone_offset (tz : List Char → Option Int)
    (h m h1 m1 h2 m2 zone : List Char) (mask : Nat) (z : Int) (htz : tz [] = none)
    (hzone : is_zone_text zone = true) (hz : tz zone = some z)
    (hzb : -1000000000 ≤ z ∧ z ≤ 1000000000)
    (hh : is_number h = true) (hm : is_number m = true)
    (hb : (number_value h : Int) * 60 + number_value m < 1000000000)
    (hh1 : is_number h1 = true) (hm1 : is_number m1 = true)
    (hh2 : is_number h2 = true) (hm2 : is_number m2 = true)
    (hb1 : (number_value h1 : Int) * 60 + number_value m1 < 1000000000)
    (hb2 : (number_value h2 : Int) * 60 + number_value m2 < 1000000000) :
    (∃ r0 r, sched_parse_time tz (time_text h m) mask = some r0
        ∧ sched_parse_time tz (time_text h m ++ zone) mask = some r
        ∧ r.mins_start = r0.mins_start - z ∧ r.mins_end = r0.mins_end - z
        ∧ r.mins_end - r.mins_start = r0.mins_end - r0.mins_start)
    ∧ (∃ r0 r, sched_parse_time tz (range_text h1 m1 h2 m2) mask = some r0
        ∧ sched_parse_time tz (range_text h1 m1 h2 m2 ++ zone) mask = some r
        ∧ r.mins_start = r0.mins_start - z ∧ r.mins_end = r0.mins_end - z
        ∧ r.mins_end - r.mins_start = r0.mins_end - r0.mins_start) := by
  have hno : ∀ off, tz [] = some off → False := by
    intro off ho; rw [htz] at ho; cases ho
  constructor
  · have hp0 := parse_time_single tz h m [] mask hh hm (nil_stops _) (by omega)
      (fun off ho => (hno off ho).elim)
    have hp := parse_time_single tz h m zone mask hh hm (zone_stops zone hzone) (by omega)
      (by intro off ho; rw [hz] at ho; cases ho; omega)
    simp only [List.append_nil, htz, Option.getD_none, sub_zero] at hp0
    simp only [hz, Option.getD_some] at hp
    have e : time_text h m ++ zone = h ++ ':' :: (m ++ zone) := by simp [time_text]
    rw [e]
    exact ⟨_, _, hp0, hp, rfl, rfl, by dsimp only; ring⟩
  · have hp0 := parse_time_range tz h1 m1 h2 m2 [] mask hh1 hm1 hh2 hm2 (nil_stops _) hb1 hb2
      (fun off ho => (hno off ho).elim)
    have hp := parse_time_range tz h1 m1 h2 m2 zone mask hh1 hm1 hh2 hm2
      (fun c rs e => (zone_stops zone hzone c rs e).1) hb1 hb2
      (by intro off ho; rw [hz] at ho; cases ho; exact hzb)
    simp only [List.append_nil, htz, Option.getD_none, sub_zero] at hp0
    simp only [hz, Option.getD_some] at hp
    have e : range_text h1 m1 h2 m2 ++ zone
        = h1 ++ ':' :: (m1 ++ '-' :: (h2 ++ ':' :: (m2 ++ zone))) := by simp [range_text]
    rw [e]
    refine ⟨_, _, hp0, hp, rfl, rfl, ?_⟩
    dsimp only; ring

/-- Witness of C8: `03:30JST` and `23:30-00:30JST` against the same specs
without the zone. -/
theorem sched_parse_time_zone_offset_witness :
    (∃ r0 r, sched_parse_time sample_tz (time_text ['0', '3'] ['3', '0']) 1 = some r0
        ∧ sched_parse_time sample_tz (time_text ['0', '3'] ['3', '0'] ++ ['J', 'S', 'T']) 1
            = some r
        ∧ r.mins_start = r0.mins_start - 540 ∧ r.mins_end = r0.mins_end - 540
        ∧ r.mins_end - r.mins_start = r0.mins_end - r0.mins_start)
    ∧ (∃ r0 r, sched_parse_time sample_tz
            (range_text ['2', '3'] ['3', '0'] ['0', '0'] ['3', '0']) 1 = some r0
        ∧ sched_parse_time sample_tz
            (range_text ['2', '3'] ['3', '0'] ['0', '0'] ['3', '0'] ++ ['J', 'S', 'T']) 1
            = some r
        ∧ r.mins_start = r0.mins_start - 540 ∧ r.mins_end = r0.mins_end - 540
        ∧ r.mins_end - r.mins_start = r0.mins_end - r0.mins_start) :=
  sched_parse_time_zone_offset sample_tz ['0', '3'] ['3', '0'] ['2', '3'] ['3', '0']
    ['0', '0'] ['3', '0'] ['J', 'S', 'T'] 1 540 (by decide) (by decide) (by decide)
    (by decide) (by decide) (by decide) (by decide) (by decide) (by decide) (by decide)
    (by decide) (by decide) (by decide)

/-! ### Day mask rotation -/

set_option maxRecDepth 100000 in
theorem rotate_right_table : ∀ m < 128,
    (uint32 (m ||| uint32 ((m &&& 1) <<< 7)) >>> 1) = ((m ||| ((m &&& 1) <<< 7)) >>> 1)
    ∧ ((m ||| ((m &&& 1) <<< 7)) >>> 1) < 128
    ∧ day_count ((m ||| ((m &&& 1) <<< 7)) >>> 1) = day_count m
    ∧ ∀ k < 7, m.testBit k = ((m ||| ((m &&& 1) <<< 7)) >>> 1).testBit ((k + 6) % 7) := by
  decide

set_option maxRecDepth 100000 in
theorem rotate_left_table : ∀ m < 128,
    ((uint32 (m <<< 1) ||| (uint32 (m <<< 1) >>> 7)) &&& 0x7f) < 128
    ∧ day_count ((uint32 (m <<< 1) ||| (uint32 (m <<< 1) >>> 7)) &&& 0x7f) = day_count m
    ∧ ∀ k < 7, m.testBit k
        = ((uint32 (m <<< 1) ||| (uint32 (m <<< 1) >>> 7)) &&& 0x7f).testBit ((k + 1) % 7) := by
  decide

/-- The mask that `sched_parse_time` returns is the incoming one passed
through `adjust_day_mask` at the returned start. -/
theorem parse_time_mask (tz : List Char → Option Int) (inp : List Char) (mask : Nat)
    (r : ParseTime) (hp : sched_parse_time tz inp mask = some r) :
    r.day_mask = adjust_day_mask r.mins_start mask := by
  unfold sched_parse_time at hp
  dsimp only at hp
  split_ifs at hp
  all_goals
    simp only [Option.some.injEq] at hp
    subst hp
    rfl

/-- C9: with a 7-bit mask, a start before 0 rotates the mask right by one
day (bit k of the input is bit (k-1) mod 7 of the output), a start after
1440 rotates it left by one day, any other start leaves it unchanged; the
result is a 7-bit mask with as many days as the input. -/
theorem sched_parse_time_mask_rotation (tz : List Char → Option Int) (inp : List Char)
    (mask : Nat) (r : ParseTime) (hm : mask < 128)
    (hp : sched_parse_time tz inp mask = some r) :
    (r.mins_start < 0 → ∀ k < 7, mask.testBit k = r.day_mask.testBit ((k + 6) % 7))
    ∧ (r.mins_start > 1440 → ∀ k < 7, mask.testBit k = r.day_mask.testBit ((k + 1) % 7))
    ∧ (0 ≤ r.mins_start ∧ r.mins_start ≤ 1440 → r.day_mask = mask)
    ∧ r.day_mask < 128 ∧ day_count r.day_mask = day_count mask := by
  have hmask := parse_time_mask tz inp mask r hp
  have hR := rotate_right_table mask hm
  have hL := rotate_left_table mask hm
  rw [hmask]
  unfold adjust_day_mask
  by_cases h0 : r.mins_start < 0
  · rw [if_pos h0, hR.1]
    exact ⟨fun _ => hR.2.2.2, fun h => by omega, fun h => by omega, hR.2.1, hR.2.2.1⟩
  · rw [if_neg h0]
    by_cases h1 : r.mins_start > 24 * 60
    · rw [if_pos h1]
      exact ⟨fun h => absurd h h0, fun _ => hL.2.2, fun h => by omega, hL.1, hL.2.1⟩
    · rw [if_neg h1]
      exact ⟨fun h => absurd h h0, fun h => by omega, fun _ => rfl, hm, rfl⟩

/-- Witness of C9: Monday+Sunday at `03:30JST` becomes Saturday+Sunday
(start -330), and at `23:30PST` becomes Monday+Tuesday (start 1890). -/
theorem sched_parse_time_mask_rotation_witness :
    (sched_parse_time sample_tz ['0', '3', ':', '3', '0', 'J', 'S', 'T'] 0x41
        = some ⟨-330, -270, 0x60, false⟩
      ∧ ∀ k < 7, (0x41 : Nat).testBit k = (0x60 : Nat).testBit ((k + 6) % 7))
    ∧ (sched_parse_time sample_tz ['2', '3', ':', '3', '0', 'P', 'S', 'T'] 0x41
        = some ⟨1890, 1950, 0x03, false⟩
      ∧ ∀ k < 7, (0x41 : Nat).testBit k = (0x03 : Nat).testBit ((k + 1) % 7)) :=
  ⟨⟨by decide,
    (sched_parse_time_mask_rotation sample_tz ['0', '3', ':', '3', '0', 'J', 'S', 'T'] 0x41
      ⟨-330, -270, 0x60, false⟩ (by decide) (by decide)).1 (by decide)⟩,
   ⟨by decide,
    (sched_parse_time_mask_rotation sample_tz ['2', '3', ':', '3', '0', 'P', 'S', 'T'] 0x41
      ⟨1890, 1950, 0x03, false⟩ (by decide) (by decide)).2.1 (by decide)⟩⟩

/-- C10 as stated fails: for the mask 1 (Monday) and `03:30JST` the start is
-330 and the returned mask is 64 (Sunday), while
`(((mask & 1) << 7) | (mask >> 1)) & 0x7F` is 0. -/
theorem sched_parse_time_rotate_formula_counterexample :
    ¬ ∀ (tz : List Char → Option Int) (inp : List Char) (mask : Nat) (r : ParseTime),
        mask < 128 → sched_parse_time tz inp mask = some r → r.mins_start < 0 →
        r.day_mask = (((mask &&& 1) <<< 7) ||| (mask >>> 1)) &&& 0x7F := by
  intro h
  have h1 := h sample_tz ['0', '3', ':', '3', '0', 'J', 'S', 'T'] 1 ⟨-330, -270, 64, false⟩
    (by decide) (by decide) (by decide)
  revert h1
  decide

set_option maxRecDepth 100000 in
theorem rotate_right_formula : ∀ m < 128,
    ((m ||| ((m &&& 1) <<< 7)) >>> 1) = (((m &&& 1) <<< 6) ||| (m >>> 1)) := by
  decide

/-- C10, amended: for a 7-bit mask and a start before 0 the returned mask is
`(mask | ((mask & 1) << 7)) >> 1`, that is `((mask & 1) << 6) | (mask >> 1)`:
Monday moves to bit 6 (Sunday) instead of being masked away. -/
theorem sched_parse_time_rotate_right_formula (tz : List Char → Option Int)
    (inp : List Char) (mask : Nat) (r : ParseTime) (hm : mask < 128)
    (hp : sched_parse_time tz inp mask = some r) (hs : r.mins_start < 0) :
    r.day_mask = (mask ||| ((mask &&& 1) <<< 7)) >>> 1
    ∧ r.day_mask = ((mask &&& 1) <<< 6) ||| (mask >>> 1) := by
  have hmask := parse_time_mask tz inp mask r hp
  have hR := rotate_right_table mask hm
  have e : r.day_mask = (mask ||| ((mask &&& 1) <<< 7)) >>> 1 := by
    rw [hmask]
    unfold adjust_day_mask
    rw [if_pos hs, hR.1]
  exact ⟨e, by rw [e]; exact rotate_right_formula mask hm⟩

/-- Witness of the amended C10: mask 1 at `03:30JST` gives mask 64. -/
theorem sched_parse_time_rotate_right_formula_witness :
    sched_parse_time sample_tz ['0', '3', ':', '3', '0', 'J', 'S', 'T'] 1
        = some ⟨-330, -270, 64, false⟩
    ∧ (64 : Nat) = (1 ||| ((1 &&& 1) <<< 7)) >>> 1
    ∧ (64 : Nat) = ((1 &&& 1) <<< 6) ||| (1 >>> 1) :=
  ⟨by decide,
   sched_parse_time_rotate_right_formula sample_tz ['0', '3', ':', '3', '0', 'J', 'S', 'T'] 1
     ⟨-330, -270, 64, false⟩ (by decide) (by decide) (by decide)⟩

/-! ## Calendar lemmas about `gmtime_r` and `timegm` -/

/-- The value of `timegm` on a `gmtime_r` result whose day of month was moved
by `delta` days and whose time of day was overwritten. -/
theorem timegm_gmtime_shift (t delta hh mi ss : Int) :
    timegm { gmtime_r t with
              tm_mday := (gmtime_r t).tm_mday + delta
              tm_hour := hh
              tm_min := mi
              tm_sec := ss }
      = (t / 86400 + delta) * 86400 + hh * 3600 + mi * 60 + ss := by
  have hm := civil_month_range (t / 86400)
  have hr := days_from_civil_civil (t / 86400)
  simp only [timegm, gmtime_r]
  generalize (civil_from_days (t / 86400)).1 = y at hr ⊢
  generalize (civil_from_days (t / 86400)).2.1 = m at hm hr ⊢
  generalize (civil_from_days (t / 86400)).2.2 = d at hr ⊢
  have e1 : (m - 1) / 12 = 0 := by omega
  have e2 : (m - 1) % 12 + 1 = m := by omega
  have e3 : y - 1900 + 1900 + 0 = y := by omega
  rw [e1, e2, e3]
  have e4 : days_from_civil y m 1 + (d + delta - 1) = days_from_civil y m d + delta := by
    simp only [days_from_civil]
    ring
  rw [e4, hr]

/-- Calling `timegm` on the result of `gmtime_r` gives the time back. -/
theorem timegm_gmtime_r (t : Int) : timegm (gmtime_r t) = t := by
  have h := timegm_gmtime_shift t 0 (gmtime_r t).tm_hour (gmtime_r t).tm_min (gmtime_r t).tm_sec
  simp only [add_zero] at h
  rw [h]
  simp only [gmtime_r]
  omega

/-- The weekday `get_dow` of a `gmtime_r` result: days since the epoch plus 3,
modulo 7. -/
theorem get_dow_gmtime_r (t : Int) : get_dow (gmtime_r t) = (t / 86400 + 3) % 7 := by
  simp only [get_dow, gmtime_r]
  split_ifs <;> omega

/-- The fields of `gmtime_r` at midnight of day number `D`. -/
theorem gmtime_r_midnight (D : Int) :
    (gmtime_r (D * 86400)).tm_hour = 0 ∧ (gmtime_r (D * 86400)).tm_min = 0
    ∧ (gmtime_r (D * 86400)).tm_sec = 0 ∧ get_dow (gmtime_r (D * 86400)) = (D + 3) % 7 := by
  have e1 : D * 86400 % 86400 = 0 := by omega
  have e2 : D * 86400 / 86400 = D := by omega
  refine ⟨?_, ?_, ?_, ?_⟩
  · simp only [gmtime_r, e1]; rfl
  · simp only [gmtime_r, e1]; rfl
  · simp only [gmtime_r, e1]; rfl
  · rw [get_dow_gmtime_r, e2]

/-! ## Lemmas about `sched_parse_days` -/

set_option maxRecDepth 100000 in
theorem first_day_bit_table : ∀ m < 128, m ≠ 0 →
    ∃ i < 7, first_day_bit m 7 0 = some i ∧ m &&& (1 <<< i) ≠ 0
      ∧ ∀ j < i, m &&& (1 <<< j) = 0 := by
  decide

theorem one_shiftLeft_lt (i : Nat) (hi : i < 7) : 1 <<< i < 128 := by
  interval_cases i <;> decide

theorem day_index_range (tok : List Char) (l : List (List Char)) (k i : Nat)
    (h : day_index tok l k = some i) : k ≤ i ∧ i < k + l.length := by
  induction l generalizing k with
  | nil => simp [day_index] at h
  | cons d ds ih =>
    simp only [day_index] at h
    split_ifs at h
    · cases h
      simp
    · have := ih (k + 1) h
      simp only [List.length_cons]
      omega

theorem parse_day_list_mask_lt (toks : List (List Char)) (m : Nat) (f : Bool) (hm : m < 128) :
    (parse_day_list toks (m, f)).1 < 128 := by
  induction toks generalizing m f with
  | nil => exact hm
  | cons tok rest ih =>
    simp only [parse_day_list]
    split
    · rename_i i hi
      have hr := day_index_range tok days 0 i hi
      have h7 : i < 7 := by simpa [days] using hr.2
      exact ih _ _ (Nat.or_lt_two_pow (n := 7) hm (one_shiftLeft_lt i h7))
    · exact ih _ _ hm

theorem parse_day_list_found (toks : List (List Char)) (m : Nat) :
    (parse_day_list toks (m, true)).2 = true := by
  induction toks generalizing m with
  | nil => rfl
  | cons tok rest ih =>
    simp only [parse_day_list]
    split
    · exact ih _
    · exact ih _

theorem parse_day_list_not_found (toks : List (List Char)) (m : Nat)
    (h : (parse_day_list toks (m, false)).2 = false) :
    (parse_day_list toks (m, false)).1 = m := by
  induction toks generalizing m with
  | nil => rfl
  | cons tok rest ih =>
    simp only [parse_day_list] at h ⊢
    split at h
    · rw [parse_day_list_found] at h
      cases h
    · exact ih m h

theorem find_repeat_token_cases (inp : List Char) (dow : Int) (v : Nat)
    (h : find_repeat_token inp (repeat_tokens dow) = some v) :
    v = 0 ∨ v = 0x7F ∨ v = 0x1F ∨ v = 0x60 ∨ v = 1 <<< dow.toNat := by
  simp only [find_repeat_token, repeat_tokens] at h
  split_ifs at h <;> cases h <;> simp

/-- The mask of `sched_parse_days` has only the low 7 bits. -/
theorem parse_day_words_mask_lt (dow : Int) (inp : List Char) (hd : 0 ≤ dow ∧ dow ≤ 6) :
    (parse_day_words dow inp).1 < 128 := by
  unfold parse_day_words
  split
  · rename_i v hv
    have hlt : dow.toNat < 7 := by omega
    rcases find_repeat_token_cases inp dow v hv with h | h | h | h | h
    · subst h; decide
    · subst h; decide
    · subst h; decide
    · subst h; decide
    · subst h; exact one_shiftLeft_lt _ hlt
  · exact parse_day_list_mask_lt _ 0 false (by decide)

/-- When neither a keyword nor a day token was found the mask is 0. -/
theorem parse_day_words_not_found (dow : Int) (inp : List Char)
    (h : (parse_day_words dow inp).2 = false) : (parse_day_words dow inp).1 = 0 := by
  unfold parse_day_words at h ⊢
  split at h
  · cases h
  · exact parse_day_list_not_found _ 0 h

theorem get_dow_today_midnight (now : Int) :
    get_dow (today_midnight now) = (now / 86400 + 3) % 7 := by
  rw [← get_dow_gmtime_r]
  rfl

/-- What `adjust_start_date` does to today's date for a non-zero 7-bit mask:
nothing when today is a repeat day, otherwise the date becomes the day of
the lowest set bit in the week (Monday to Sunday) that contains today. -/
theorem adjust_start_date_spec (now : Int) (mask : Nat) (hm : mask < 128) (h0 : mask ≠ 0) :
    (mask &&& (1 <<< ((now / 86400 + 3) % 7).toNat) ≠ 0 →
        adjust_start_date (today_midnight now) mask = today_midnight now)
    ∧ (mask &&& (1 <<< ((now / 86400 + 3) % 7).toNat) = 0 →
        ∃ i < 7, mask &&& (1 <<< i) ≠ 0 ∧ (∀ j < i, mask &&& (1 <<< j) = 0)
          ∧ adjust_start_date (today_midnight now) mask
              = gmtime_r ((now / 86400 + ((i : Int) - (now / 86400 + 3) % 7)) * 86400)) := by
  unfold adjust_start_date
  rw [if_pos h0]
  dsimp only
  rw [get_dow_today_midnight]
  constructor
  · intro hb
    rw [if_neg hb]
  · intro hb
    rw [if_pos hb]
    obtain ⟨i, hi, hf, hset, hlow⟩ := first_day_bit_table mask hm h0
    refine ⟨i, hi, hset, hlow, ?_⟩
    rw [hf]
    dsimp only
    unfold timegm_norm
    have ht := timegm_gmtime_shift now ((i : Int) - (now / 86400 + 3) % 7) 0 0 0
    simp only [zero_mul, add_zero] at ht
    have e : { today_midnight now with
                tm_mday := (today_midnight now).tm_mday + ((i : Int) - (now / 86400 + 3) % 7) }
        = { gmtime_r now with
              tm_mday := (gmtime_r now).tm_mday + ((i : Int) - (now / 86400 + 3) % 7)
              tm_hour := 0
              tm_min := 0
              tm_sec := 0 } := rfl
    rw [e, ht]

theorem timegm_today_midnight (now : Int) :
    timegm (today_midnight now) = now / 86400 * 86400 := by
  have h0 := timegm_gmtime_shift now 0 0 0 0
  simpa [today_midnight] using h0

theorem sched_parse_days_mask (now : Int) (inp : List Char) :
    (sched_parse_days now inp).day_mask
      = (parse_day_words (get_dow (today_midnight now)) inp).1 := by
  unfold sched_parse_days
  dsimp only
  split_ifs
  · rfl
  · split <;> rfl

theorem sched_parse_days_found (now : Int) (inp : List Char)
    (h : (parse_day_words (get_dow (today_midnight now)) inp).2 = true) :
    sched_parse_days now inp
      = ⟨true, adjust_start_date (today_midnight now)
                (parse_day_words (get_dow (today_midnight now)) inp).1,
          (parse_day_words (get_dow (today_midnight now)) inp).1⟩ := by
  unfold sched_parse_days
  dsimp only
  rw [if_pos h]

theorem sched_parse_days_mask_lt (now : Int) (inp : List Char) :
    (sched_parse_days now inp).day_mask < 128 := by
  rw [sched_parse_days_mask]
  apply parse_day_words_mask_lt
  rw [get_dow_today_midnight]
  omega

/-- A non-zero mask comes from a keyword or the day list, so the date is the
adjusted date of today. -/
theorem sched_parse_days_nonzero (now : Int) (inp : List Char)
    (hm : (sched_parse_days now inp).day_mask ≠ 0) :
    (sched_parse_days now inp).ok = true
    ∧ (sched_parse_days now inp).date
        = adjust_start_date (today_midnight now) (sched_parse_days now inp).day_mask := by
  have hmask := sched_parse_days_mask now inp
  cases hf : (parse_day_words (get_dow (today_midnight now)) inp).2 with
  | false =>
    have := parse_day_words_not_found _ _ hf
    rw [← hmask] at this
    exact absurd this hm
  | true =>
    have e := sched_parse_days_found now inp hf
    rw [hmask]
    rw [e]
    exact ⟨rfl, rfl⟩

/-! ### The day list against the reference definition -/

theorem strcasecmp_eq_iff (a b : List Char) (hb : lower b = b) :
    strcasecmp_eq a b = true ↔ lower a = b := by
  simp [strcasecmp_eq, hb]

/-- The lookup `day_index` finds the day whose bit `spec_day_bit` gives. -/
theorem day_index_spec (tok : List Char) :
    (∀ i, day_index tok days 0 = some i → spec_day_bit tok = 1 <<< i)
    ∧ (day_index tok days 0 = none → spec_day_bit tok = 0) := by
  have e0 := strcasecmp_eq_iff tok ['m', 'o', 'n'] (by decide)
  have e1 := strcasecmp_eq_iff tok ['t', 'u', 'e'] (by decide)
  have e2 := strcasecmp_eq_iff tok ['w', 'e', 'd'] (by decide)
  have e3 := strcasecmp_eq_iff tok ['t', 'h', 'u'] (by decide)
  have e4 := strcasecmp_eq_iff tok ['f', 'r', 'i'] (by decide)
  have e5 := strcasecmp_eq_iff tok ['s', 'a', 't'] (by decide)
  have e6 := strcasecmp_eq_iff tok ['s', 'u', 'n'] (by decide)
  simp only [day_index, days, spec_day_bit, e0, e1, e2, e3, e4, e5, e6]
  constructor
  · intro i h
    split_ifs at h ⊢ <;> (cases h; rfl)
  · intro h
    split_ifs at h ⊢
    rfl

theorem spec_day_bit_ne_zero (tok : List Char) (i : Nat) (h : day_index tok days 0 = some i) :
    (spec_day_bit tok != 0) = true := by
  have hr := day_index_range tok days 0 i h
  have h7 : i < 7 := by simpa [days] using hr.2
  rw [(day_index_spec tok).1 i h]
  interval_cases i <;> decide

/-- The `strtok_r` loop as a fold of the reference token bits. -/
theorem parse_day_list_spec (toks : List (List Char)) (m : Nat) (f : Bool) :
    parse_day_list toks (m, f)
      = (toks.foldl (fun a t => a ||| spec_day_bit t) m,
          f || toks.any (fun t => spec_day_bit t != 0)) := by
  induction toks generalizing m f with
  | nil => simp [parse_day_list]
  | cons tok rest ih =>
    simp only [parse_day_list, List.foldl_cons, List.any_cons]
    split
    · rename_i i hi
      rw [ih, spec_day_bit_ne_zero tok i hi, (day_index_spec tok).1 i hi]
      simp
    · rename_i hn
      rw [ih, (day_index_spec tok).2 hn]
      simp

/-- The tokens of `strtok_r` are the non-empty pieces of a split at the
delimiters. -/
theorem strtok_loop_split (p : Char → Bool) (s cur : List Char) :
    strtok_loop p s cur
      = ((s.splitOnP p).modifyHead (fun x => cur.reverse ++ x)).filter (fun t => !t.isEmpty) := by
  induction s generalizing cur with
  | nil =>
    cases cur with
    | nil => simp [strtok_loop, List.splitOnP_nil]
    | cons c cs => simp [strtok_loop, List.splitOnP_nil]
  | cons c cs ih =>
    simp only [strtok_loop, List.splitOnP_cons]
    by_cases hp : p c = true
    · simp only [hp, if_true, List.modifyHead_cons, List.append_nil]
      have e : strtok_loop p cs [] = (cs.splitOnP p).filter (fun t => !t.isEmpty) := by
        rw [ih []]
        congr 1
        obtain ⟨hd, tl, hs⟩ := List.exists_cons_of_ne_nil (List.splitOnP_ne_nil p cs)
        rw [hs]
        simp
      rw [e]
      cases cur with
      | nil => simp
      | cons d ds => simp
    · simp only [hp, if_false, Bool.false_eq_true]
      rw [ih (c :: cur), List.modifyHead_modifyHead]
      congr 2
      funext x
      simp

theorem strtok_all_split (s : List Char) :
    strtok_all (fun c => c == ',') s
      = (s.splitOn ',').filter (fun t => !t.isEmpty) := by
  unfold strtok_all
  rw [strtok_loop_split]
  have e : s.splitOn ',' = s.splitOnP (fun c => c == ',') := rfl
  rw [e]
  congr 1
  obtain ⟨hd, tl, hs⟩ := List.exists_cons_of_ne_nil (List.splitOnP_ne_nil (fun c => c == ',') s)
  rw [hs]
  simp

theorem foldl_day_bits_filter (l : List (List Char)) (m : Nat) :
    (l.filter (fun t => !t.isEmpty)).foldl (fun a t => a ||| spec_day_bit t) m
      = l.foldl (fun a t => a ||| spec_day_bit t) m := by
  induction l generalizing m with
  | nil => rfl
  | cons t ts ih =>
    cases t with
    | nil =>
      have e : spec_day_bit [] = 0 := by decide
      simp [List.filter, e, ih]
    | cons c cs => simp [List.filter, ih]

theorem any_day_bits_filter (l : List (List Char)) :
    (l.filter (fun t => !t.isEmpty)).any (fun t => spec_day_bit t != 0)
      = l.any (fun t => spec_day_bit t != 0) := by
  induction l with
  | nil => rfl
  | cons t ts ih =>
    cases t with
    | nil =>
      have e : spec_day_bit [] = 0 := by decide
      simp [List.filter, e, ih]
    | cons c cs => simp [List.filter, ih]

/-- The keyword table against the reference keyword definition. -/
theorem find_repeat_token_spec (inp : List Char) (dow : Int) :
    find_repeat_token inp (repeat_tokens dow) = spec_keyword_mask dow.toNat inp := by
  have e0 := strcasecmp_eq_iff inp ['t', 'o', 'd', 'a', 'y'] (by decide)
  have e1 := strcasecmp_eq_iff inp ['d', 'a', 'i', 'l', 'y'] (by decide)
  have e2 := strcasecmp_eq_iff inp ['w', 'e', 'e', 'k', 'd', 'a', 'y', 's'] (by decide)
  have e3 := strcasecmp_eq_iff inp ['w', 'e', 'e', 'k', 'e', 'n', 'd', 's'] (by decide)
  have e4 := strcasecmp_eq_iff inp ['w', 'e', 'e', 'k', 'l', 'y'] (by decide)
  simp only [find_repeat_token, repeat_tokens, spec_keyword_mask, e0, e1, e2, e3, e4]

/-- Both outputs of the word stage of `sched_parse_days` against the
reference definitions. -/
theorem parse_day_words_spec (dow : Int) (inp : List Char) :
    (parse_day_words dow inp).1 = spec_day_mask dow.toNat inp
    ∧ (parse_day_words dow inp).2
        = ((spec_keyword_mask dow.toNat inp).isSome || spec_day_list_ok inp) := by
  unfold parse_day_words spec_day_mask spec_day_list_ok
  rw [find_repeat_token_spec]
  cases spec_keyword_mask dow.toNat inp with
  | some v => simp
  | none =>
    simp only [Option.isSome_none, Bool.false_or]
    rw [parse_day_list_spec, strtok_all_split, foldl_day_bits_filter, any_day_bits_filter,
      List.foldl_map]
    simp

/-! ## Claims about `sched_parse_days` -/

/-- C4: whenever `sched_parse_days` returns a non-zero mask it has accepted
the day spec, the weekday of the returned reference date (by `get_dow`,
Monday = bit 0) has its bit set in the returned mask, and the date is at
00:00:00. -/
theorem sched_parse_days_reference_is_repeat_day (now : Int) (inp : List Char)
    (hm : (sched_parse_days now inp).day_mask ≠ 0) :
    (sched_parse_days now inp).ok = true
    ∧ (sched_parse_days now inp).day_mask
        &&& (1 <<< (get_dow (sched_parse_days now inp).date).toNat) ≠ 0
    ∧ 0 ≤ get_dow (sched_parse_days now inp).date
    ∧ get_dow (sched_parse_days now inp).date ≤ 6
    ∧ (sched_parse_days now inp).date.tm_hour = 0
    ∧ (sched_parse_days now inp).date.tm_min = 0
    ∧ (sched_parse_days now inp).date.tm_sec = 0 := by
  have hlt := sched_parse_days_mask_lt now inp
  obtain ⟨hok, hdate⟩ := sched_parse_days_nonzero now inp hm
  obtain ⟨hsame, hmove⟩ := adjust_start_date_spec now _ hlt hm
  refine ⟨hok, ?_⟩
  rw [hdate]
  by_cases hb : (sched_parse_days now inp).day_mask
      &&& (1 <<< ((now / 86400 + 3) % 7).toNat) = 0
  · obtain ⟨i, hi, hset, _, hd⟩ := hmove hb
    rw [hd]
    obtain ⟨g1, g2, g3, g4⟩ :=
      gmtime_r_midnight (now / 86400 + ((i : Int) - (now / 86400 + 3) % 7))
    have e : (now / 86400 + ((i : Int) - (now / 86400 + 3) % 7) + 3) % 7 = (i : Int) := by
      omega
    rw [g4, e]
    refine ⟨?_, by omega, by omega, g1, g2, g3⟩
    simpa using hset
  · rw [hsame hb, get_dow_today_midnight]
    exact ⟨hb, by omega, by omega, rfl, rfl, rfl⟩

/-- Witness of C4: on Wednesday 2016-11-02 12:00 UTC the spec `mon,foo` is
accepted with mask 1 and a reference date that is a Monday at 00:00:00. -/
theorem sched_parse_days_reference_is_repeat_day_witness :
    (sched_parse_days 1478088000 ['m', 'o', 'n', ',', 'f', 'o', 'o']).ok = true
    ∧ (sched_parse_days 1478088000 ['m', 'o', 'n', ',', 'f', 'o', 'o']).day_mask = 1
    ∧ get_dow (sched_parse_days 1478088000 ['m', 'o', 'n', ',', 'f', 'o', 'o']).date = 0
    ∧ (sched_parse_days 1478088000 ['m', 'o', 'n', ',', 'f', 'o', 'o']).day_mask
        &&& (1 <<< (get_dow
              (sched_parse_days 1478088000 ['m', 'o', 'n', ',', 'f', 'o', 'o']).date).toNat)
        ≠ 0 :=
  ⟨by decide, by decide, by decide,
   (sched_parse_days_reference_is_repeat_day 1478088000 ['m', 'o', 'n', ',', 'f', 'o', 'o']
      (by decide)).2.1⟩

/-- C3 as stated fails: on Wednesday 2016-11-02 (12:00 UTC) the spec `mon`
gives mask 1, whose Wednesday bit is unset, and the reference date is moved
to Monday 2016-10-31, two days before today, not 0 to 6 days after it. -/
theorem sched_parse_days_forward_counterexample :
    ¬ ∀ (now : Int) (inp : List Char),
        (sched_parse_days now inp).day_mask ≤ 0x7F →
        (sched_parse_days now inp).day_mask
            &&& (1 <<< (get_dow (gmtime_r now)).toNat) = 0 →
        ∃ k : Int, 0 ≤ k ∧ k ≤ 6
          ∧ timegm (sched_parse_days now inp).date = timegm (today_midnight now) + k * 86400
          ∧ (sched_parse_days now inp).day_mask
              &&& (1 <<< (get_dow (sched_parse_days now inp).date).toNat) ≠ 0 := by
  intro h
  obtain ⟨k, h0, _, h2, _⟩ := h 1478088000 ['m', 'o', 'n'] (by decide) (by decide)
  have e1 : timegm (sched_parse_days 1478088000 ['m', 'o', 'n']).date = 1477872000 := by
    decide
  have e2 : timegm (today_midnight 1478088000) = 1478044800 := by decide
  rw [e1, e2] at h2
  omega

/-- C3, amended: for every non-zero mask that `sched_parse_days` returns and
every current weekday whose bit is unset in it, the reference date is the
day of the lowest set bit `i` of the mask within the Monday-to-Sunday week
that contains today: today moved by `i - d` days (between -6 and 6, so
possibly before today), at 00:00:00, and its weekday bit is set in the mask. -/
theorem sched_parse_days_moves_to_first_day (now : Int) (inp : List Char)
    (hm : (sched_parse_days now inp).day_mask ≠ 0)
    (hb : (sched_parse_days now inp).day_mask
            &&& (1 <<< (get_dow (gmtime_r now)).toNat) = 0) :
    ∃ i : Nat, i < 7
      ∧ (sched_parse_days now inp).day_mask &&& (1 <<< i) ≠ 0
      ∧ (∀ j < i, (sched_parse_days now inp).day_mask &&& (1 <<< j) = 0)
      ∧ timegm (sched_parse_days now inp).date
          = timegm (today_midnight now) + ((i : Int) - get_dow (gmtime_r now)) * 86400
      ∧ get_dow (sched_parse_days now inp).date = i
      ∧ -6 ≤ (i : Int) - get_dow (gmtime_r now) ∧ (i : Int) - get_dow (gmtime_r now) ≤ 6
      ∧ (i : Int) ≠ get_dow (gmtime_r now) := by
  have hlt := sched_parse_days_mask_lt now inp
  obtain ⟨_, hdate⟩ := sched_parse_days_nonzero now inp hm
  obtain ⟨_, hmove⟩ := adjust_start_date_spec now _ hlt hm
  rw [get_dow_gmtime_r] at hb ⊢
  obtain ⟨i, hi, hset, hlow, hd⟩ := hmove hb
  have hne : (i : Int) ≠ (now / 86400 + 3) % 7 := by
    intro e
    rw [← e] at hb
    simp only [Int.toNat_ofNat] at hb
    exact hset hb
  refine ⟨i, hi, hset, hlow, ?_, ?_, by omega, by omega, hne⟩
  · rw [hdate, hd, timegm_gmtime_r, timegm_today_midnight]
    ring
  · rw [hdate, hd]
    rw [(gmtime_r_midnight _).2.2.2]
    omega

/-- Witness of the amended C3: Wednesday 2016-11-02 with the spec `mon`
gives the Monday two days earlier. -/
theorem sched_parse_days_moves_to_first_day_witness :
    ∃ i : Nat, i < 7
      ∧ (sched_parse_days 1478088000 ['m', 'o', 'n']).day_mask &&& (1 <<< i) ≠ 0
      ∧ timegm (sched_parse_days 1478088000 ['m', 'o', 'n']).date
          = timegm (today_midnight 1478088000)
            + ((i : Int) - get_dow (gmtime_r 1478088000)) * 86400
      ∧ get_dow (sched_parse_days 1478088000 ['m', 'o', 'n']).date = i := by
  obtain ⟨i, h1, h2, _, h4, h5, _⟩ :=
    sched_parse_days_moves_to_first_day 1478088000 ['m', 'o', 'n'] (by decide) (by decide)
  exact ⟨i, h1, h2, h4, h5⟩

/-- C5: the mask returned by `sched_parse_days` is the reference mask
(keywords `today`, `daily`, `weekdays`, `weekends`, `weekly`, otherwise the
OR of the day bits of the comma separated tokens, all compared ignoring
case); the word stage reports success exactly for a keyword or a text with
at least one recognised token, and then the whole parse succeeds. -/
theorem sched_parse_days_mask_refines_spec (now : Int) (inp : List Char) :
    (sched_parse_days now inp).day_mask = spec_day_mask (utc_weekday now) inp
    ∧ (parse_day_words (get_dow (today_midnight now)) inp).2
        = ((spec_keyword_mask (utc_weekday now) inp).isSome || spec_day_list_ok inp)
    ∧ (spec_keyword_mask (utc_weekday now) inp = none →
        ((parse_day_words (get_dow (today_midnight now)) inp).2 = true
          ↔ ∃ tok ∈ inp.splitOn ',', spec_day_bit tok ≠ 0))
    ∧ ((parse_day_words (get_dow (today_midnight now)) inp).2 = true →
        (sched_parse_days now inp).ok = true) := by
  have hs := parse_day_words_spec (get_dow (today_midnight now)) inp
  have hw : (get_dow (today_midnight now)).toNat = utc_weekday now := by
    rw [get_dow_today_midnight]
    rfl
  rw [hw] at hs
  refine ⟨?_, hs.2, ?_, ?_⟩
  · rw [sched_parse_days_mask, hs.1]
  · intro hk
    rw [hs.2, hk]
    simp [spec_day_list_ok]
  · intro hf
    rw [sched_parse_days_found now inp hf]

/-! ## Lemmas about the store -/

theorem sched_vals_of_get (sched : Store) (name : List Char) (i : Nat)
    (h : sched_get sched name = some i) : sched_vals sched i = entries_of sched name := by
  induction sched generalizing i with
  | nil => simp [sched_get] at h
  | cons kv rest ih =>
    obtain ⟨k, v⟩ := kv
    simp only [sched_get] at h
    by_cases hk : k = name
    · simp only [hk, if_true, Option.some.injEq] at h
      subst h
      simp [sched_vals, entries_of, hk]
    · simp only [hk, if_false, Option.map_eq_some'] at h
      obtain ⟨j, hj, rfl⟩ := h
      simp [sched_vals, entries_of, hk, ih j hj]

theorem entries_of_unknown (sched : Store) (name : List Char)
    (h : sched_get sched name = none) : entries_of sched name = [] := by
  induction sched with
  | nil => rfl
  | cons kv rest ih =>
    obtain ⟨k, v⟩ := kv
    simp only [sched_get] at h
    by_cases hk : k = name
    · simp [hk] at h
    · simp only [hk, if_false, Option.map_eq_none'] at h
      simp [entries_of, hk, ih h]

theorem set_vals_of_get (sched : Store) (name : List Char) (i : Nat) (es : List SchedEntry)
    (h : sched_get sched name = some i) :
    entries_of (set_vals sched i es) name = es
    ∧ sched_get (set_vals sched i es) name = some i := by
  induction sched generalizing i with
  | nil => simp [sched_get] at h
  | cons kv rest ih =>
    obtain ⟨k, v⟩ := kv
    simp only [sched_get] at h
    by_cases hk : k = name
    · simp only [hk, if_true, Option.some.injEq] at h
      subst h
      simp [set_vals, entries_of, sched_get, hk]
    · simp only [hk, if_false, Option.map_eq_some'] at h
      obtain ⟨j, hj, rfl⟩ := h
      have := ih j hj
      simp [set_vals, entries_of, sched_get, hk, this]

theorem sched_vals_append_new (sched : Store) (name : List Char) (es : List SchedEntry) :
    sched_vals (sched ++ [(name, es)]) sched.length = es
    ∧ ∀ es1, set_vals (sched ++ [(name, es)]) sched.length es1 = sched ++ [(name, es1)] := by
  induction sched with
  | nil => simp [sched_vals, set_vals]
  | cons kv rest ih =>
    obtain ⟨k, v⟩ := kv
    simp [sched_vals, set_vals, ih]

theorem entries_of_append_new (sched : Store) (name : List Char) (es : List SchedEntry)
    (h : sched_get sched name = none) :
    entries_of (sched ++ [(name, es)]) name = es
    ∧ sched_get (sched ++ [(name, es)]) name = some sched.length := by
  induction sched with
  | nil => simp [entries_of, sched_get]
  | cons kv rest ih =>
    obtain ⟨k, v⟩ := kv
    simp only [sched_get] at h
    by_cases hk : k = name
    · simp [hk] at h
    · simp only [hk, if_false, Option.map_eq_none'] at h
      have := ih h
      simp [entries_of, sched_get, hk, this]

/-- Pushing a schedule appends it to the owner's list, creating the owner
when needed; the owner is known afterwards. -/
theorem sched_push_entries (sched : Store) (name : List Char) (e : SchedEntry) :
    entries_of (sched_push sched name e) name = entries_of sched name ++ [e]
    ∧ ∃ i, sched_get (sched_push sched name e) name = some i := by
  unfold sched_push sched_get_add
  cases hg : sched_get sched name with
  | some i =>
    dsimp only
    have h1 := sched_vals_of_get sched name i hg
    have h2 := set_vals_of_get sched name i (sched_vals sched i ++ [e]) hg
    rw [h2.1]
    exact ⟨by rw [h1], i, h2.2⟩
  | none =>
    dsimp only
    have h1 := sched_vals_append_new sched name []
    have h2 := entries_of_unknown sched name hg
    rw [h1.1, h1.2, h2]
    have h3 := entries_of_append_new sched name ([] ++ [e]) hg
    exact ⟨h3.1, _, h3.2⟩

theorem merge_into_none (es : List SchedEntry) (title : List Char) (start end_ : Int)
    (h : ∀ e ∈ es, merge_match title start end_ e = false) :
    merge_into es title start end_ = none := by
  induction es with
  | nil => rfl
  | cons e rest ih =>
    have he := h e (List.mem_cons_self _ _)
    simp only [merge_into, he, Bool.false_eq_true, if_false, Option.map_eq_none']
    exact ih (fun x hx => h x (List.mem_cons_of_mem _ hx))

theorem merge_into_last (es : List SchedEntry) (e : SchedEntry) (title : List Char)
    (start end_ : Int) (h : ∀ x ∈ es, merge_match title start end_ x = false)
    (he : merge_match title start end_ e = true) :
    merge_into (es ++ [e]) title start end_
      = some (es ++ [{ e with repeat_ :=
          (e.repeat_ ||| (1 <<< (get_dow (gmtime_r start)).toNat)) % 256 }]) := by
  induction es with
  | nil => simp [merge_into, he]
  | cons x rest ih =>
    have hx := h x (List.mem_cons_self _ _)
    have ih1 := ih (fun y hy => h y (List.mem_cons_of_mem _ hy))
    simp only [List.cons_append, merge_into, hx, Bool.false_eq_true, if_false]
    change Option.map (fun r => x :: r) (merge_into (rest ++ [e]) title start end_) = _
    rw [ih1]
    rfl

theorem strcasecmp_eq_self (a : List Char) : strcasecmp_eq a a = true := by
  simp [strcasecmp_eq]

set_option maxRecDepth 100000 in
theorem day_bit_or_table : ∀ i < 7, ∀ d < 7,
    (1 <<< i) &&& 0x7f = 1 <<< i ∧ (1 <<< i) ≠ 0
    ∧ ((1 <<< i) ||| (1 <<< d)) % 256 = (1 <<< i) ||| (1 <<< d) := by
  decide

/-! ## Claims about the `sched_add` message -/

/-- C1 as stated fails: from the empty store, two `sched_add` requests for
`Bob` starting Monday 2016-10-31 20:00 UTC, one hour long, with the repeat
values 2 (Tuesday) and 4 (Wednesday), leave one entry whose mask is 3
(Tuesday and the Monday of the start), not 2 | 4 = 6. -/
theorem sched_add_msg_mask_counterexample :
    ¬ ∀ (sched : Store) (u : List Char) (start end_ : Int) (title : Option (List Char))
        (b1 b2 : Nat),
        start ≠ 0 → end_ ≠ 0 → start ≤ end_ →
        (∃ i < 7, b1 = 1 <<< i) → (∃ i < 7, b2 = 1 <<< i) → b1 ≠ b2 →
        (∀ e ∈ entries_of sched (lower u),
          merge_match (title.getD untitled) start end_ e = false) →
        ∃ e, entries_of
              (sched_mod_msg_add
                (sched_mod_msg_add sched ⟨some u, 0, start, end_, title, b1⟩ false).1
                ⟨some u, 0, start, end_, title, b2⟩ false).1 (lower u) = [e]
          ∧ e.repeat_ = b1 ||| b2 := by
  intro h
  obtain ⟨e, h1, h2⟩ := h [] ['B', 'o', 'b'] 1477944000 1477947600 none 2 4
    (by decide) (by decide) (by decide) ⟨1, by decide, by decide⟩ ⟨2, by decide, by decide⟩
    (by decide) (by intro e he; cases he)
  have h3 : entries_of
      (sched_mod_msg_add
        (sched_mod_msg_add [] ⟨some ['B', 'o', 'b'], 0, 1477944000, 1477947600, none, 2⟩
          false).1
        ⟨some ['B', 'o', 'b'], 0, 1477944000, 1477947600, none, 4⟩ false).1
      (lower ['B', 'o', 'b'])
      = [⟨1477944000, 1477947600, untitled, 3⟩] := by decide
  rw [h3] at h1
  simp only [List.cons.injEq, and_true] at h1
  rw [← h1] at h2
  revert h2
  decide

/-- C1, amended: two valid `sched_add` requests with identical owner, start,
end and title, the first with a single-bit repeat value `b1` (the second with
any repeat value), starting from a store where the owner has no matching
entry, add exactly one entry to that owner, and its mask is `b1` ORed with
the bit of the UTC weekday of `start`: the merge takes the bit from the
start time, not from the repeat value of the request. -/
theorem sched_add_msg_twice_merges (sched : Store) (u : List Char) (id1 id2 start end_ : Int)
    (title : Option (List Char)) (b1 b2 : Nat) (cb1 cb2 : Bool)
    (hs : start ≠ 0) (he : end_ ≠ 0) (hle : start ≤ end_)
    (hb1 : ∃ i < 7, b1 = 1 <<< i)
    (hno : ∀ e ∈ entries_of sched (lower u),
      merge_match (title.getD untitled) start end_ e = false) :
    entries_of
        (sched_mod_msg_add
          (sched_mod_msg_add sched ⟨some u, id1, start, end_, title, b1⟩ cb1).1
          ⟨some u, id2, start, end_, title, b2⟩ cb2).1 (lower u)
      = entries_of sched (lower u)
        ++ [⟨start, end_, title.getD untitled,
              b1 ||| (1 <<< (get_dow (gmtime_r start)).toNat)⟩] := by
  obtain ⟨i, hi, rfl⟩ := hb1
  have hd : (get_dow (gmtime_r start)).toNat < 7 := by
    rw [get_dow_gmtime_r]
    omega
  obtain ⟨t1, t2, t3⟩ := day_bit_or_table i hi _ hd
  have hvalid : ¬ (start = 0 ∨ end_ = 0 ∨ start > end_) := by omega
  -- first request: nothing matches, the entry is appended
  have first : (sched_mod_msg_add sched ⟨some u, id1, start, end_, title, 1 <<< i⟩ cb1).1
      = sched_push sched (lower u) ⟨start, end_, title.getD untitled, 1 <<< i⟩ := by
    simp only [sched_mod_msg_add, hvalid, if_false]
    cases hg : sched_get sched (lower u) with
    | none => simp [t1]
    | some idx =>
      have hv := sched_vals_of_get sched (lower u) idx hg
      simp only [hv, merge_into_none _ _ _ _ hno, Option.map_none', t1]
  rw [first]
  obtain ⟨hpush, idx, hidx⟩ := sched_push_entries sched (lower u)
    ⟨start, end_, title.getD untitled, 1 <<< i⟩
  have hv := sched_vals_of_get _ (lower u) idx hidx
  -- second request: the new entry is the first match
  have hmatch : merge_match (title.getD untitled) start end_
      ⟨start, end_, title.getD untitled, 1 <<< i⟩ = true := by
    simp [merge_match, strcasecmp_eq_self, t2]
  have hm := merge_into_last (entries_of sched (lower u))
    ⟨start, end_, title.getD untitled, 1 <<< i⟩ (title.getD untitled) start end_ hno hmatch
  simp only [sched_mod_msg_add, hvalid, if_false, hidx, hv, hpush, hm, Option.map_some']
  rw [(set_vals_of_get _ (lower u) idx _ hidx).1, t3]

/-- Witness of the amended C1: the two requests of the counterexample leave
`bob` with one entry whose mask is 2 | 1. -/
theorem sched_add_msg_twice_merges_witness :
    entries_of
        (sched_mod_msg_add
          (sched_mod_msg_add [] ⟨some ['B', 'o', 'b'], 0, 1477944000, 1477947600, none, 2⟩
            false).1
          ⟨some ['B', 'o', 'b'], 0, 1477944000, 1477947600, none, 4⟩ false).1
        (lower ['B', 'o', 'b'])
      = entries_of [] (lower ['B', 'o', 'b'])
        ++ [⟨1477944000, 1477947600, (none : Option (List Char)).getD untitled,
              2 ||| (1 <<< (get_dow (gmtime_r 1477944000)).toNat)⟩] :=
  sched_add_msg_twice_merges [] ['B', 'o', 'b'] 0 0 1477944000 1477947600 none 2 4 false false
    (by decide) (by decide) (by decide) ⟨1, by decide, by decide⟩ (by intro e he; cases he)

/-! ## Lemmas about the commands -/

theorem continues_send (w : World) (r : Reply) : continues w (send_msg w r) :=
  ⟨[Event.send_msg r], rfl, by simp, by simp⟩

theorem continues_upload_send (now : Int) (w : World) (sched : Store) (r : Reply) :
    continues w (send_msg (sched_upload now { w with sched := sched }) r) :=
  ⟨[Event.save (sched_document sched), Event.send_msg r],
    by simp [send_msg, emit, sched_upload, sched_offsets_update], by simp, by simp⟩

theorem continues_send_upload (now : Int) (w : World) (sched : Store) (r : Reply) :
    continues w (sched_upload now (send_msg { w with sched := sched } r)) :=
  ⟨[Event.send_msg r, Event.save (sched_document sched)],
    by simp [send_msg, emit, sched_upload, sched_offsets_update], by simp, by simp⟩

theorem sched_add_continues (tz : List Char → Option Int) (now : Int) (w w1 : World)
    (name arg : List Char) (h : sched_add tz now w name arg = some w1) : continues w w1 := by
  unfold sched_add at h
  repeat' (first | split at h | dsimp only at h)
  all_goals first
    | (simp only [Option.some.injEq] at h
       subst h
       first
         | exact continues_send _ _
         | exact continues_send_upload _ _ _ _)
    | cases h

theorem sched_del_continues (now : Int) (w w1 : World) (name arg : List Char)
    (h : sched_del now w name arg = some w1) : continues w w1 := by
  unfold sched_del at h
  repeat' (first | split at h | dsimp only at h)
  all_goals first
    | (simp only [Option.some.injEq] at h
       subst h
       first
         | exact continues_send _ _
         | exact continues_upload_send _ _ _ _)
    | cases h

theorem sched_edit_continues (tz : List Char → Option Int) (now : Int) (w w1 : World)
    (name arg : List Char) (h : sched_edit tz now w name arg = some w1) : continues w w1 := by
  unfold sched_edit at h
  repeat' (first | split at h | dsimp only at h)
  all_goals first
    | (simp only [Option.some.injEq] at h
       subst h
       first
         | exact continues_send _ _
         | exact continues_upload_send _ _ _ _)
    | cases h

theorem sched_run_continues (tz : List Char → Option Int) (now : Int) (w w1 : World)
    (name arg : List Char) (cmd : Cmd) (h : sched_run tz now w name arg cmd = some w1) :
    continues w w1 := by
  cases cmd with
  | SCHED_ADD => exact sched_add_continues tz now w w1 name arg h
  | SCHED_DEL => exact sched_del_continues now w w1 name arg h
  | SCHED_EDIT => exact sched_edit_continues tz now w w1 name arg h

/-! ## Claims about `sched_cmd` -/

/-- C2 as stated fails: with the gist load failing, the command `sched- 0`
of the whitelisted `Bob` still deletes the only schedule of `bob` and
uploads the (now empty) document. -/
theorem sched_cmd_reload_error_counterexample :
    ¬ ∀ (tz : List Char → Option Int) (is_wlist : List Char → Bool) (now : Int) (w w1 : World)
        (name arg : List Char) (cmd : Cmd),
        is_wlist name = true →
        sched_cmd tz is_wlist now GistLoad.failed w name arg cmd = some w1 →
        w1.sched = w.sched
        ∧ (∀ doc, Event.save doc ∉ w1.trace.drop w.trace.length)
        ∧ w1.trace.getLast? = some Event.unlock := by
  intro h
  have h1 := h sample_tz (fun _ => true) 1478088000 sample_world
    ⟨[], some ([], 1478088000),
      [Event.lock, Event.load, Event.save [],
        Event.send_msg (Reply.deleted ['b', 'o', 'b'] 0), Event.unlock]⟩
    ['B', 'o', 'b'] [' ', '0'] Cmd.SCHED_DEL rfl (by decide)
  exact absurd h1.1 (by decide)

/-- C2, amended: for each mutating command of a permitted user, a failing
load makes `sched_reload` return `false` with the store untouched, but
`sched_cmd` does not look at that result: the command runs exactly as after
"not modified" (so it mutates the store and uploads whenever its own checks
pass), and `unlock` is still called, as the last call, after `lock`. -/
theorem sched_cmd_reload_error_ignored (tz : List Char → Option Int)
    (is_wlist : List Char → Bool) (now : Int) (w : World) (name arg : List Char) (cmd : Cmd)
    (hw : is_wlist name = true) :
    sched_reload now GistLoad.failed (emit w Event.lock)
        = some (false, { w with trace := w.trace ++ [Event.lock, Event.load] })
    ∧ sched_cmd tz is_wlist now GistLoad.failed w name arg cmd
        = sched_cmd tz is_wlist now GistLoad.not_modified w name arg cmd
    ∧ sched_cmd tz is_wlist now GistLoad.failed w name arg cmd
        = (sched_run tz now { w with trace := w.trace ++ [Event.lock, Event.load] }
            name arg cmd).map (fun w2 => emit w2 Event.unlock)
    ∧ ∀ w1, sched_cmd tz is_wlist now GistLoad.failed w name arg cmd = some w1 →
        ∃ evs, w1.trace = w.trace ++ [Event.lock, Event.load] ++ evs ++ [Event.unlock]
          ∧ Event.lock ∉ evs ∧ Event.unlock ∉ evs := by
  have hr : sched_reload now GistLoad.failed (emit w Event.lock)
      = some (false, { w with trace := w.trace ++ [Event.lock, Event.load] }) := by
    simp [sched_reload, emit]
  have hn : sched_reload now GistLoad.not_modified (emit w Event.lock)
      = some (true, { w with trace := w.trace ++ [Event.lock, Event.load] }) := by
    simp [sched_reload, emit]
  have hc : sched_cmd tz is_wlist now GistLoad.failed w name arg cmd
      = (sched_run tz now { w with trace := w.trace ++ [Event.lock, Event.load] }
          name arg cmd).map (fun w2 => emit w2 Event.unlock) := by
    unfold sched_cmd
    rw [if_pos hw, hr]
    dsimp only
    cases sched_run tz now { w with trace := w.trace ++ [Event.lock, Event.load] }
      name arg cmd <;> rfl
  refine ⟨hr, ?_, hc, ?_⟩
  · rw [hc]
    unfold sched_cmd
    rw [if_pos hw, hn]
    dsimp only
    cases sched_run tz now { w with trace := w.trace ++ [Event.lock, Event.load] }
      name arg cmd <;> rfl
  · intro w1 h1
    rw [hc] at h1
    cases hrun : sched_run tz now { w with trace := w.trace ++ [Event.lock, Event.load] }
        name arg cmd with
    | none => rw [hrun] at h1; cases h1
    | some w2 =>
      rw [hrun] at h1
      simp only [Option.map_some', Option.some.injEq] at h1
      subst h1
      obtain ⟨evs, he, hl, hu⟩ := sched_run_continues tz now _ w2 name arg cmd hrun
      exact ⟨evs, by simp [emit, he], hl, hu⟩

/-- Witness of the amended C2: `sched- 0` with a failing load ends with an
empty store, one upload, and `unlock` last. -/
theorem sched_cmd_reload_error_ignored_witness :
    sched_cmd sample_tz (fun _ => true) 1478088000 GistLoad.failed sample_world
        ['B', 'o', 'b'] [' ', '0'] Cmd.SCHED_DEL
      = some ⟨[], some ([], 1478088000),
          [Event.lock, Event.load, Event.save [],
            Event.send_msg (Reply.deleted ['b', 'o', 'b'] 0), Event.unlock]⟩
    ∧ sched_cmd sample_tz (fun _ => true) 1478088000 GistLoad.failed sample_world
        ['B', 'o', 'b'] [' ', '0'] Cmd.SCHED_DEL
      = sched_cmd sample_tz (fun _ => true) 1478088000 GistLoad.not_modified sample_world
        ['B', 'o', 'b'] [' ', '0'] Cmd.SCHED_DEL :=
  ⟨by decide,
   (sched_cmd_reload_error_ignored sample_tz (fun _ => true) 1478088000 sample_world
      ['B', 'o', 'b'] [' ', '0'] Cmd.SCHED_DEL rfl).2.1⟩

/-! ## Deleting a schedule -/

theorem set_vals_keys (sched : Store) (i : Nat) (es : List SchedEntry) :
    (set_vals sched i es).map Prod.fst = sched.map Prod.fst := by
  induction sched generalizing i with
  | nil => rfl
  | cons kv rest ih =>
    obtain ⟨k, v⟩ := kv
    cases i with
    | zero => rfl
    | succ j => simp [set_vals, ih]

theorem sched_vals_set_vals_same (sched : Store) (i : Nat) (es : List SchedEntry)
    (hi : i < sched.length) : sched_vals (set_vals sched i es) i = es := by
  induction sched generalizing i with
  | nil => simp at hi
  | cons kv rest ih =>
    obtain ⟨k, v⟩ := kv
    cases i with
    | zero => rfl
    | succ j =>
      simp only [set_vals, sched_vals]
      exact ih j (by simpa using hi)

theorem sched_vals_set_vals_other (sched : Store) (i j : Nat) (es : List SchedEntry)
    (hij : j ≠ i) : sched_vals (set_vals sched i es) j = sched_vals sched j := by
  induction sched generalizing i j with
  | nil => rfl
  | cons kv rest ih =>
    obtain ⟨k, v⟩ := kv
    cases i with
    | zero =>
      cases j with
      | zero => exact absurd rfl hij
      | succ j' => rfl
    | succ i' =>
      cases j with
      | zero => rfl
      | succ j' =>
        simp only [set_vals, sched_vals]
        exact ih i' j' (by omega)

/-- C12: deleting schedule `id` of the owner at `index` who has `n` schedules
leaves that owner with `n - 1` schedules, those before `id` in place and
those after it moved down by one, and leaves all other owners as they were;
the owner is removed, and the result is `true`, exactly when `n = 1`. -/
theorem sched_del_i_removes_entry (sched : Store) (index id : Nat)
    (hi : index < sched.length) (hid : id < (sched_vals sched index).length) :
    ((sched_del_i sched index id).2 = true ↔ (sched_vals sched index).length = 1)
    ∧ ((sched_vals sched index).length = 1 →
        (sched_del_i sched index id).1 = sched.eraseIdx index)
    ∧ ((sched_vals sched index).length ≠ 1 →
        (sched_del_i sched index id).1.map Prod.fst = sched.map Prod.fst
        ∧ (sched_vals (sched_del_i sched index id).1 index).length
            = (sched_vals sched index).length - 1
        ∧ (∀ j, j < id →
            (sched_vals (sched_del_i sched index id).1 index)[j]?
              = (sched_vals sched index)[j]?)
        ∧ (∀ j, id ≤ j →
            (sched_vals (sched_del_i sched index id).1 index)[j]?
              = (sched_vals sched index)[j + 1]?)
        ∧ ∀ i, i ≠ index →
            sched_vals (sched_del_i sched index id).1 i = sched_vals sched i) := by
  have hlen := List.length_eraseIdx (sched_vals sched index) id
  rw [if_pos hid] at hlen
  have hempty : ((sched_vals sched index).eraseIdx id).isEmpty = true
      ↔ (sched_vals sched index).length = 1 := by
    rw [List.isEmpty_iff_length_eq_zero, hlen]
    omega
  unfold sched_del_i
  dsimp only
  by_cases h1 : (sched_vals sched index).length = 1
  · rw [if_pos (hempty.2 h1)]
    exact ⟨⟨fun _ => h1, fun _ => rfl⟩, fun _ => rfl, fun h => absurd h1 h⟩
  · rw [if_neg (fun h => h1 (hempty.1 h))]
    refine ⟨⟨fun h => (by cases h), fun h => absurd h h1⟩, fun h => absurd h h1, fun _ => ?_⟩
    rw [sched_vals_set_vals_same sched index _ hi]
    refine ⟨set_vals_keys _ _ _, hlen, ?_, ?_, ?_⟩
    · intro j hj
      rw [List.getElem?_eraseIdx, if_pos hj]
    · intro j hj
      rw [List.getElem?_eraseIdx, if_neg (by omega)]
    · intro i hne
      exact sched_vals_set_vals_other sched index i _ hne

/-- Witness of C12: deleting ID 0 of an owner with three schedules leaves
the former schedules 1 and 2 as IDs 0 and 1. -/
theorem sched_del_i_removes_entry_witness :
    sched_del_i [(['b', 'o', 'b'], [⟨1, 2, ['a'], 1⟩, ⟨3, 4, ['b'], 2⟩, ⟨5, 6, ['c'], 4⟩])] 0 0
        = ([(['b', 'o', 'b'], [⟨3, 4, ['b'], 2⟩, ⟨5, 6, ['c'], 4⟩])], false)
    ∧ ((sched_del_i
          [(['b', 'o', 'b'], [⟨1, 2, ['a'], 1⟩, ⟨3, 4, ['b'], 2⟩, ⟨5, 6, ['c'], 4⟩])] 0 0).2
          = true
        ↔ (sched_vals
            [(['b', 'o', 'b'], [⟨1, 2, ['a'], 1⟩, ⟨3, 4, ['b'], 2⟩, ⟨5, 6, ['c'], 4⟩])]
            0).length = 1) :=
  ⟨by decide,
   (sched_del_i_removes_entry
      [(['b', 'o', 'b'], [⟨1, 2, ['a'], 1⟩, ⟨3, 4, ['b'], 2⟩, ⟨5, 6, ['c'], 4⟩])] 0 0
      (by decide) (by decide)).1⟩

/-! ## Lemmas about merging -/

theorem or_bit_mod_idem (x d : Nat) :
    ((x ||| (1 <<< d)) % 256 ||| (1 <<< d)) % 256 = (x ||| (1 <<< d)) % 256 := by
  have e : (256 : Nat) = 2 ^ 8 := by norm_num
  rw [e]
  apply Nat.eq_of_testBit_eq
  intro i
  simp only [Nat.testBit_mod_two_pow, Nat.testBit_or]
  cases decide (i < 8) <;> simp

theorem or_bit_mod_ne_zero (x d : Nat) (hd : d < 7) : (x ||| (1 <<< d)) % 256 ≠ 0 := by
  have e : (256 : Nat) = 2 ^ 8 := by norm_num
  rw [e]
  intro h
  have h1 : ((x ||| (1 <<< d)) % 2 ^ 8).testBit d = true := by
    simp only [Nat.testBit_mod_two_pow, Nat.testBit_or, Nat.testBit_shiftLeft]
    simp
    omega
  rw [h] at h1
  simp at h1

theorem or_bit_mod_lt (x d : Nat) (hx : x < 128) (hd : d < 7) :
    (x ||| (1 <<< d)) % 256 < 128 := by
  have h1 : x ||| (1 <<< d) < 2 ^ 7 := Nat.or_lt_two_pow hx (one_shiftLeft_lt d hd)
  omega

theorem get_dow_toNat_lt (t : Int) : (get_dow (gmtime_r t)).toNat < 7 := by
  rw [get_dow_gmtime_r]
  omega

theorem merged_entry_idem (start : Int) (s : SchedEntry) :
    merged_entry start (merged_entry start s) = merged_entry start s := by
  simp only [merged_entry, or_bit_mod_idem]

theorem merged_entry_match (title : List Char) (start end_ : Int) (s : SchedEntry)
    (h : merge_match title start end_ s = true) :
    merge_match title start end_ (merged_entry start s) = true := by
  simp only [merge_match, Bool.and_eq_true, decide_eq_true_eq] at h ⊢
  obtain ⟨⟨⟨⟨h1, h2⟩, h3⟩, h4⟩, _⟩ := h
  exact ⟨⟨⟨⟨h1, h2⟩, h3⟩, h4⟩, or_bit_mod_ne_zero _ _ (get_dow_toNat_lt start)⟩

/-- The merge loop changes the first matching schedule and nothing else. -/
theorem merge_into_first (pre post : List SchedEntry) (x : SchedEntry) (title : List Char)
    (start end_ : Int) (hpre : ∀ y ∈ pre, merge_match title start end_ y = false)
    (hx : merge_match title start end_ x = true) :
    merge_into (pre ++ x :: post) title start end_
      = some (pre ++ merged_entry start x :: post) := by
  induction pre with
  | nil => simp [merge_into, hx, merged_entry]
  | cons y rest ih =>
    have hy := hpre y (List.mem_cons_self _ _)
    have ih1 := ih (fun z hz => hpre z (List.mem_cons_of_mem _ hz))
    simp only [List.cons_append, merge_into, hy, Bool.false_eq_true, if_false]
    change Option.map (fun r => y :: r) (merge_into (rest ++ x :: post) title start end_) = _
    rw [ih1]
    rfl

/-- A list with a matching schedule splits at the first match. -/
theorem first_match_split (es : List SchedEntry) (title : List Char) (start end_ : Int)
    (h : ∃ x ∈ es, merge_match title start end_ x = true) :
    ∃ pre x post, es = pre ++ x :: post
      ∧ (∀ y ∈ pre, merge_match title start end_ y = false)
      ∧ merge_match title start end_ x = true := by
  induction es with
  | nil =>
    obtain ⟨x, hx, _⟩ := h
    cases hx
  | cons e rest ih =>
    by_cases he : merge_match title start end_ e = true
    · exact ⟨[], e, rest, rfl, fun y hy => (by cases hy), he⟩
    · have hrest : ∃ x ∈ rest, merge_match title start end_ x = true := by
        obtain ⟨x, hx, hm⟩ := h
        rcases List.mem_cons.1 hx with rfl | hx'
        · exact absurd hm he
        · exact ⟨x, hx', hm⟩
      obtain ⟨pre, x, post, hs, hp, hm⟩ := ih hrest
      refine ⟨e :: pre, x, post, by rw [hs]; rfl, ?_, hm⟩
      intro y hy
      rcases List.mem_cons.1 hy with rfl | hy'
      · simpa using he
      · exact hp y hy'

theorem entries_of_set_vals_other (sched : Store) (name k : List Char) (i : Nat)
    (es : List SchedEntry) (h : sched_get sched name = some i) (hk : k ≠ name) :
    entries_of (set_vals sched i es) k = entries_of sched k := by
  induction sched generalizing i with
  | nil => rfl
  | cons kv rest ih =>
    obtain ⟨k0, v⟩ := kv
    simp only [sched_get] at h
    by_cases hk0 : k0 = name
    · simp only [hk0, if_true, Option.some.injEq] at h
      subst h
      subst hk0
      simp [set_vals, entries_of, Ne.symm hk]
    · simp only [hk0, if_false, Option.map_eq_some'] at h
      obtain ⟨j, hj, rfl⟩ := h
      simp only [set_vals, entries_of]
      rw [ih j hj]

theorem entries_of_append_other (sched : Store) (name k : List Char) (es : List SchedEntry)
    (hk : k ≠ name) : entries_of (sched ++ [(name, es)]) k = entries_of sched k := by
  induction sched with
  | nil => simp [entries_of, Ne.symm hk]
  | cons kv rest ih =>
    obtain ⟨k0, v⟩ := kv
    have ih1 : entries_of (rest.append [(name, es)]) k = entries_of rest k := ih
    simp only [List.cons_append, entries_of, ih1]

/-- Pushing a schedule for one owner leaves the schedules of all others. -/
theorem sched_push_other (sched : Store) (name k : List Char) (e : SchedEntry)
    (hk : k ≠ name) : entries_of (sched_push sched name e) k = entries_of sched k := by
  unfold sched_push sched_get_add
  cases hg : sched_get sched name with
  | some i =>
    dsimp only
    exact entries_of_set_vals_other sched name k i _ hg hk
  | none =>
    dsimp only
    rw [(sched_vals_append_new sched name []).2]
    exact entries_of_append_other sched name k _ hk

/-- What the `sched_add` message does when no schedule of the owner matches. -/
theorem sched_mod_msg_add_appends (sched : Store) (u : List Char) (sid start end_ : Int)
    (title : Option (List Char)) (rep : Nat) (cb : Bool)
    (hs : start ≠ 0) (he : end_ ≠ 0) (hle : start ≤ end_)
    (hno : ∀ x ∈ entries_of sched (lower u),
      merge_match (title.getD untitled) start end_ x = false) :
    sched_mod_msg_add sched ⟨some u, sid, start, end_, title, rep⟩ cb
      = (sched_push sched (lower u) ⟨start, end_, title.getD untitled, rep &&& 0x7f⟩, none) := by
  have hvalid : ¬ (start = 0 ∨ end_ = 0 ∨ start > end_) := by omega
  simp only [sched_mod_msg_add, hvalid, if_false]
  cases hg : sched_get sched (lower u) with
  | none => rfl
  | some idx =>
    have hv := sched_vals_of_get sched (lower u) idx hg
    simp only [hv, merge_into_none _ _ _ _ hno, Option.map_none']

/-- What the `sched_add` message does when the first matching schedule of the
owner is `x`. -/
theorem sched_mod_msg_add_merges (sched : Store) (u : List Char) (sid start end_ : Int)
    (title : Option (List Char)) (rep : Nat) (cb : Bool) (idx : Nat)
    (pre post : List SchedEntry) (x : SchedEntry)
    (hs : start ≠ 0) (he : end_ ≠ 0) (hle : start ≤ end_)
    (hg : sched_get sched (lower u) = some idx)
    (hsplit : entries_of sched (lower u) = pre ++ x :: post)
    (hpre : ∀ y ∈ pre, merge_match (title.getD untitled) start end_ y = false)
    (hx : merge_match (title.getD untitled) start end_ x = true) :
    sched_mod_msg_add sched ⟨some u, sid, start, end_, title, rep⟩ cb
      = (set_vals sched idx (pre ++ merged_entry start x :: post), none) := by
  have hvalid : ¬ (start = 0 ∨ end_ = 0 ∨ start > end_) := by omega
  have hv := sched_vals_of_get sched (lower u) idx hg
  simp only [sched_mod_msg_add, hvalid, if_false, hg, hv, hsplit,
    merge_into_first pre post x _ start end_ hpre hx, Option.map_some']

theorem set_vals_set_vals (sched : Store) (i : Nat) (a b : List SchedEntry) :
    set_vals (set_vals sched i a) i b = set_vals sched i b := by
  induction sched generalizing i with
  | nil => rfl
  | cons kv rest ih =>
    obtain ⟨k, v⟩ := kv
    cases i with
    | zero => rfl
    | succ j => simp only [set_vals, ih]

theorem sched_get_of_entries (sched : Store) (name : List Char) (x : SchedEntry)
    (h : x ∈ entries_of sched name) : ∃ i, sched_get sched name = some i := by
  cases hg : sched_get sched name with
  | some i => exact ⟨i, rfl⟩
  | none =>
    rw [entries_of_unknown sched name hg] at h
    cases h

/-! ## Claims about merge-or-add -/

/-- C17: for a valid request the `sched_add` message appends a new entry if
and only if the lower-cased owner has no entry with the same title ignoring
case, the same duration, the same UTC hour and minute of start and a
non-zero repeat mask. The appended entry is last in the owner's list (the
owner is created when absent) and has the requested start and end, the
repeat value masked with 0x7F and the requested title or `Untitled Stream`;
otherwise only the repeat mask of the first matching entry changes. All
other entries stay as they are. -/
theorem sched_mod_msg_add_merge_or_append (sched : Store) (u : List Char)
    (sid start end_ : Int) (title : Option (List Char)) (rep : Nat) (cb : Bool)
    (hs : start ≠ 0) (he : end_ ≠ 0) (hle : start ≤ end_) :
    ((∀ x ∈ entries_of sched (lower u),
        merge_match (title.getD untitled) start end_ x = false) →
      entries_of (sched_mod_msg_add sched ⟨some u, sid, start, end_, title, rep⟩ cb).1 (lower u)
          = entries_of sched (lower u)
            ++ [⟨start, end_, title.getD untitled, rep &&& 0x7f⟩]
      ∧ (∃ i, sched_get (sched_mod_msg_add sched ⟨some u, sid, start, end_, title, rep⟩ cb).1
            (lower u) = some i)
      ∧ ∀ k, k ≠ lower u →
          entries_of (sched_mod_msg_add sched ⟨some u, sid, start, end_, title, rep⟩ cb).1 k
            = entries_of sched k)
    ∧ ((∃ x ∈ entries_of sched (lower u),
        merge_match (title.getD untitled) start end_ x = true) →
      ∃ pre x post, entries_of sched (lower u) = pre ++ x :: post
        ∧ (∀ y ∈ pre, merge_match (title.getD untitled) start end_ y = false)
        ∧ merge_match (title.getD untitled) start end_ x = true
        ∧ entries_of (sched_mod_msg_add sched ⟨some u, sid, start, end_, title, rep⟩ cb).1
            (lower u)
          = pre ++ { x with repeat_ :=
              (x.repeat_ ||| (1 <<< (get_dow (gmtime_r start)).toNat)) % 256 } :: post
        ∧ (sched_mod_msg_add sched ⟨some u, sid, start, end_, title, rep⟩ cb).1.map Prod.fst
            = sched.map Prod.fst
        ∧ ∀ k, k ≠ lower u →
            entries_of (sched_mod_msg_add sched ⟨some u, sid, start, end_, title, rep⟩ cb).1 k
              = entries_of sched k)
    ∧ ((entries_of (sched_mod_msg_add sched ⟨some u, sid, start, end_, title, rep⟩ cb).1
          (lower u)).length = (entries_of sched (lower u)).length + 1
        ↔ ∀ x ∈ entries_of sched (lower u),
            merge_match (title.getD untitled) start end_ x = false) := by
  have happ : (∀ x ∈ entries_of sched (lower u),
        merge_match (title.getD untitled) start end_ x = false) →
      entries_of (sched_mod_msg_add sched ⟨some u, sid, start, end_, title, rep⟩ cb).1 (lower u)
          = entries_of sched (lower u)
            ++ [⟨start, end_, title.getD untitled, rep &&& 0x7f⟩]
      ∧ (∃ i, sched_get (sched_mod_msg_add sched ⟨some u, sid, start, end_, title, rep⟩ cb).1
            (lower u) = some i)
      ∧ ∀ k, k ≠ lower u →
          entries_of (sched_mod_msg_add sched ⟨some u, sid, start, end_, title, rep⟩ cb).1 k
            = entries_of sched k := by
    intro hno
    rw [sched_mod_msg_add_appends sched u sid start end_ title rep cb hs he hle hno]
    have hp := sched_push_entries sched (lower u)
      ⟨start, end_, title.getD untitled, rep &&& 0x7f⟩
    exact ⟨hp.1, hp.2, fun k hk => sched_push_other sched (lower u) k _ hk⟩
  have hmer : (∃ x ∈ entries_of sched (lower u),
        merge_match (title.getD untitled) start end_ x = true) →
      ∃ pre x post, entries_of sched (lower u) = pre ++ x :: post
        ∧ (∀ y ∈ pre, merge_match (title.getD untitled) start end_ y = false)
        ∧ merge_match (title.getD untitled) start end_ x = true
        ∧ entries_of (sched_mod_msg_add sched ⟨some u, sid, start, end_, title, rep⟩ cb).1
            (lower u)
          = pre ++ { x with repeat_ :=
              (x.repeat_ ||| (1 <<< (get_dow (gmtime_r start)).toNat)) % 256 } :: post
        ∧ (sched_mod_msg_add sched ⟨some u, sid, start, end_, title, rep⟩ cb).1.map Prod.fst
            = sched.map Prod.fst
        ∧ ∀ k, k ≠ lower u →
            entries_of (sched_mod_msg_add sched ⟨some u, sid, start, end_, title, rep⟩ cb).1 k
              = entries_of sched k := by
    intro hex
    obtain ⟨x0, hx0, _⟩ := id hex
    obtain ⟨idx, hg⟩ := sched_get_of_entries sched (lower u) x0 hx0
    obtain ⟨pre, x, post, hsplit, hpre, hx⟩ :=
      first_match_split _ _ _ _ hex
    rw [sched_mod_msg_add_merges sched u sid start end_ title rep cb idx pre post x hs he hle
      hg hsplit hpre hx]
    exact ⟨pre, x, post, hsplit, hpre, hx, (set_vals_of_get sched (lower u) idx _ hg).1,
      set_vals_keys _ _ _, fun k hk => entries_of_set_vals_other sched (lower u) k idx _ hg hk⟩
  refine ⟨happ, hmer, ?_⟩
  constructor
  · intro hlen
    by_contra hcon
    have hex : ∃ x ∈ entries_of sched (lower u),
        merge_match (title.getD untitled) start end_ x = true := by
      by_contra hne
      apply hcon
      intro x hx
      cases hm : merge_match (title.getD untitled) start end_ x with
      | false => rfl
      | true => exact absurd ⟨x, hx, hm⟩ hne
    obtain ⟨pre, x, post, hsplit, _, _, hres, _, _⟩ := hmer hex
    rw [hres, hsplit] at hlen
    simp at hlen
  · intro hno
    rw [(happ hno).1]
    simp

/-- Witness of C17: a request for `Bob` titled `show`, Wednesday 20:00 UTC
for an hour, merges into the schedule `Show` of `bob` (mask 3 becomes 7). -/
theorem sched_mod_msg_add_merge_or_append_witness :
    (sched_mod_msg_add sample_world.sched
        ⟨some ['B', 'o', 'b'], 0, 1478116800, 1478120400, some ['s', 'h', 'o', 'w'], 4⟩
        false).1
      = [(['b', 'o', 'b'], [⟨1477944000, 1477947600, ['S', 'h', 'o', 'w'], 7⟩])]
    ∧ ((entries_of (sched_mod_msg_add sample_world.sched
          ⟨some ['B', 'o', 'b'], 0, 1478116800, 1478120400, some ['s', 'h', 'o', 'w'], 4⟩
          false).1 (lower ['B', 'o', 'b'])).length
          = (entries_of sample_world.sched (lower ['B', 'o', 'b'])).length + 1
        ↔ ∀ x ∈ entries_of sample_world.sched (lower ['B', 'o', 'b']),
            merge_match ((some ['s', 'h', 'o', 'w']).getD untitled) 1478116800 1478120400 x
              = false) :=
  ⟨by decide,
   (sched_mod_msg_add_merge_or_append sample_world.sched ['B', 'o', 'b'] 0 1478116800
      1478120400 (some ['s', 'h', 'o', 'w']) 4 false (by decide) (by decide) (by decide)).2.2⟩

/-- C16 as stated fails: a valid request with the repeat value 0 sent twice
to the empty store leaves the owner with two entries, one more than after
the first call. -/
theorem sched_mod_msg_add_repeat_counterexample :
    ¬ ∀ (sched : Store) (u : List Char) (sid start end_ : Int) (title : Option (List Char))
        (rep : Nat) (cb : Bool),
        start ≠ 0 → end_ ≠ 0 → start ≤ end_ →
        (entries_of
            (sched_mod_msg_add
              (sched_mod_msg_add sched ⟨some u, sid, start, end_, title, rep⟩ cb).1
              ⟨some u, sid, start, end_, title, rep⟩ cb).1 (lower u)).length
          = (entries_of (sched_mod_msg_add sched ⟨some u, sid, start, end_, title, rep⟩ cb).1
              (lower u)).length := by
  intro h
  have h1 := h [] ['B', 'o', 'b'] 0 1478116800 1478120400 none 0 false
    (by decide) (by decide) (by decide)
  revert h1
  decide

/-- C16, amended: for every valid request whose repeat value has one of the
low 7 bits set, sending the identical request a second time does not change
the number of entries of any owner, and a third identical call leaves the
store exactly as the second did. A request whose masked repeat value is 0
is never merged (the merge needs a non-zero mask), so it is appended each
time it finds no repeating match. -/
theorem sched_mod_msg_add_idempotent (sched : Store) (u : List Char) (sid start end_ : Int)
    (title : Option (List Char)) (rep : Nat) (cb : Bool)
    (hs : start ≠ 0) (he : end_ ≠ 0) (hle : start ≤ end_) (hrep : rep &&& 0x7f ≠ 0) :
    (∀ k, (entries_of
            (sched_mod_msg_add
              (sched_mod_msg_add sched ⟨some u, sid, start, end_, title, rep⟩ cb).1
              ⟨some u, sid, start, end_, title, rep⟩ cb).1 k).length
          = (entries_of (sched_mod_msg_add sched ⟨some u, sid, start, end_, title, rep⟩ cb).1
              k).length)
    ∧ (sched_mod_msg_add
          (sched_mod_msg_add
            (sched_mod_msg_add sched ⟨some u, sid, start, end_, title, rep⟩ cb).1
            ⟨some u, sid, start, end_, title, rep⟩ cb).1
          ⟨some u, sid, start, end_, title, rep⟩ cb).1
        = (sched_mod_msg_add
            (sched_mod_msg_add sched ⟨some u, sid, start, end_, title, rep⟩ cb).1
            ⟨some u, sid, start, end_, title, rep⟩ cb).1 := by
  -- after the first call the owner has a matching entry
  have hfirst : ∃ idx pre x post,
      sched_get (sched_mod_msg_add sched ⟨some u, sid, start, end_, title, rep⟩ cb).1 (lower u)
        = some idx
      ∧ entries_of (sched_mod_msg_add sched ⟨some u, sid, start, end_, title, rep⟩ cb).1
          (lower u) = pre ++ x :: post
      ∧ (∀ y ∈ pre, merge_match (title.getD untitled) start end_ y = false)
      ∧ merge_match (title.getD untitled) start end_ x = true := by
    by_cases hex : ∃ x ∈ entries_of sched (lower u),
        merge_match (title.getD untitled) start end_ x = true
    · obtain ⟨x0, hx0, _⟩ := id hex
      obtain ⟨idx, hg⟩ := sched_get_of_entries sched (lower u) x0 hx0
      obtain ⟨pre, x, post, hsplit, hpre, hx⟩ := first_match_split _ _ _ _ hex
      rw [sched_mod_msg_add_merges sched u sid start end_ title rep cb idx pre post x hs he hle
        hg hsplit hpre hx]
      have hset := set_vals_of_get sched (lower u) idx (pre ++ merged_entry start x :: post) hg
      exact ⟨idx, pre, merged_entry start x, post, hset.2, hset.1, hpre,
        merged_entry_match _ _ _ _ hx⟩
    · have hno : ∀ x ∈ entries_of sched (lower u),
          merge_match (title.getD untitled) start end_ x = false := by
        intro x hx
        cases hm : merge_match (title.getD untitled) start end_ x with
        | false => rfl
        | true => exact absurd ⟨x, hx, hm⟩ hex
      rw [sched_mod_msg_add_appends sched u sid start end_ title rep cb hs he hle hno]
      obtain ⟨hp, idx, hidx⟩ := sched_push_entries sched (lower u)
        ⟨start, end_, title.getD untitled, rep &&& 0x7f⟩
      refine ⟨idx, entries_of sched (lower u), _, [], hidx, hp, hno, ?_⟩
      simp [merge_match, strcasecmp_eq_self, hrep]
  obtain ⟨idx, pre, x, post, hg, hsplit, hpre, hx⟩ := hfirst
  generalize (sched_mod_msg_add sched ⟨some u, sid, start, end_, title, rep⟩ cb).1 = s1
    at hg hsplit ⊢
  have h2 := sched_mod_msg_add_merges s1 u sid start end_ title rep cb idx pre post x hs he hle
    hg hsplit hpre hx
  have hset := set_vals_of_get s1 (lower u) idx (pre ++ merged_entry start x :: post) hg
  have h3 := sched_mod_msg_add_merges (set_vals s1 idx (pre ++ merged_entry start x :: post))
    u sid start end_ title rep cb idx pre post (merged_entry start x) hs he hle hset.2 hset.1
    hpre (merged_entry_match _ _ _ _ hx)
  rw [h2]
  dsimp only
  rw [h3]
  dsimp only
  rw [merged_entry_idem, set_vals_set_vals]
  refine ⟨?_, rfl⟩
  intro k
  by_cases hk : k = lower u
  · subst hk
    rw [hset.1, hsplit]
    simp
  · rw [entries_of_set_vals_other s1 (lower u) k idx _ hg hk]

/-- Witness of the amended C16: three identical requests with the repeat
value 2 (Tuesday) for a Monday start; the second and third call give the
same store. -/
theorem sched_mod_msg_add_idempotent_witness :
    (sched_mod_msg_add
        (sched_mod_msg_add
          (sched_mod_msg_add [] ⟨some ['B', 'o', 'b'], 0, 1477944000, 1477947600, none, 2⟩
            false).1
          ⟨some ['B', 'o', 'b'], 0, 1477944000, 1477947600, none, 2⟩ false).1
        ⟨some ['B', 'o', 'b'], 0, 1477944000, 1477947600, none, 2⟩ false).1
      = (sched_mod_msg_add
          (sched_mod_msg_add [] ⟨some ['B', 'o', 'b'], 0, 1477944000, 1477947600, none, 2⟩
            false).1
          ⟨some ['B', 'o', 'b'], 0, 1477944000, 1477947600, none, 2⟩ false).1 :=
  (sched_mod_msg_add_idempotent [] ['B', 'o', 'b'] 0 1477944000 1477947600 none 2 false
    (by decide) (by decide) (by decide) (by decide)).2

/-! ## Claims about rejected commands -/

theorem mem_rest_args (b : Bool) (a x : List Char) (toks : List (List Char))
    (h : x ∈ rest_args b a toks) : x ∈ a :: toks := by
  unfold rest_args at h
  split_ifs at h
  · exact List.mem_cons_of_mem _ h
  · exact h

/-- Whether `sched_parse_time` accepts a text does not depend on the mask. -/
theorem parse_time_none_any_mask (tz : List Char → Option Int) (inp : List Char) (m : Nat)
    (h : sched_parse_time tz inp 0 = none) : sched_parse_time tz inp m = none := by
  unfold sched_parse_time at h ⊢
  dsimp only at h ⊢
  split_ifs at h ⊢ <;> rfl

/-- What `sched_add` does when no token is a time spec. -/
theorem sched_add_no_time (tz : List Char → Option Int) (now : Int) (w : World)
    (name arg : List Char)
    (hno : ∀ tok ∈ strtok_all is_blank arg.tail, sched_parse_time tz tok 0 = none) :
    sched_add tz now w name arg = some (send_msg w Reply.add_usage)
    ∨ sched_add tz now w name arg = some (send_msg w Reply.unable_to_parse_time) := by
  cases arg with
  | nil => exact Or.inl rfl
  | cons c arg1 =>
    right
    simp only [List.tail_cons] at hno
    simp only [sched_add]
    cases ht : strtok_all is_blank arg1 with
    | nil => rfl
    | cons a0 toks0 =>
      rw [ht] at hno
      dsimp only
      cases h1 : rest_args (sched_parse_user a0 name 128).1 a0 toks0 with
      | nil => rfl
      | cons a1 toks1 =>
        dsimp only
        have m1 : ∀ x ∈ a1 :: toks1, x ∈ a0 :: toks0 := by
          intro x hx
          rw [← h1] at hx
          exact mem_rest_args _ _ _ _ hx
        cases h2 : rest_args (sched_parse_days now a1).ok a1 toks1 with
        | nil => rfl
        | cons a2 toks2 =>
          dsimp only
          have m2 : a2 ∈ a1 :: toks1 := by
            apply mem_rest_args (sched_parse_days now a1).ok
            rw [h2]
            exact List.mem_cons_self _ _
          rw [parse_time_none_any_mask tz a2 _ (hno a2 (m1 a2 m2))]

/-- What `sched_edit` does for an unknown owner or an id that is too large,
once the id has been read and something to edit follows. -/
theorem sched_edit_rejects (tz : List Char → Option Int) (now : Int) (w : World)
    (name arg1 a0 idtok a2 user : List Char) (c : Char) (toks0 toks2 : List (List Char))
    (id : Int) (day_id : Option Nat)
    (htok : strtok_all is_blank arg1 = a0 :: toks0)
    (hrest : rest_args (sched_parse_user a0 name 128).1 a0 toks0 = idtok :: a2 :: toks2)
    (huser : (sched_parse_user a0 name 128).2 = some user)
    (hid : sched_parse_id idtok = ParseId.accepted id day_id) :
    (sched_get w.sched user = none →
      sched_edit tz now w name (c :: arg1) = some (send_msg w Reply.no_schedules_by_user))
    ∧ ∀ index, sched_get w.sched user = some index →
        (sched_vals w.sched index).length ≤ id.toNat →
        sched_edit tz now w name (c :: arg1)
          = some (send_msg w (Reply.no_schedule_with_id user id)) := by
  constructor
  · intro hg
    simp only [sched_edit, htok, hrest, hid, huser, hg]
  · intro index hg hle
    simp only [sched_edit, htok, hrest, hid, huser, hg, hle, if_true]

/-- What `sched_del` does for an unknown owner or an id that is too large. -/
theorem sched_del_rejects (now : Int) (w : World) (name arg a0 user : List Char)
    (toks0 : List (List Char))
    (htok : strtok_all (fun c => c == ' ') arg = a0 :: toks0)
    (huser : (sched_parse_user a0 name 64).2 = some user) :
    (sched_get w.sched user = none →
      sched_del now w name arg = some (send_msg w (Reply.no_schedule_info user)))
    ∧ ∀ index a1 rest id, sched_get w.sched user = some index →
        rest_args (sched_parse_user a0 name 64).1 a0 toks0 = a1 :: rest →
        sched_parse_id a1 = ParseId.accepted id none →
        id.toNat ≥ (sched_vals w.sched index).length →
        sched_del now w name arg
          = some (send_msg w
              (Reply.cannot_delete user (sched_vals w.sched index).length id)) := by
  constructor
  · intro hg
    simp only [sched_del, htok, huser, hg]
  · intro index a1 rest id hg hrest hid hge
    simp only [sched_del, htok, huser, hg, hrest, hid, Option.isSome_none,
      Bool.false_eq_true, if_false, hge, if_true]

/-- C15: a command that fails with a user input error only reports a message.
This holds for `sched_edit` and `sched_del` with an unknown owner or with an
id that is not below the owner's entry count, and for `sched_add` when no
argument token is a time spec: the result is the old state with one
`send_msg` call added, so the store is the same and nothing is uploaded. -/
theorem sched_input_errors_only_report (tz : List Char → Option Int) (now : Int) (w : World)
    (name arg arg1 a0 idtok a2 user : List Char) (c : Char) (toks0 toks2 : List (List Char))
    (id : Int) (day_id : Option Nat) :
    (strtok_all is_blank arg1 = a0 :: toks0 →
      rest_args (sched_parse_user a0 name 128).1 a0 toks0 = idtok :: a2 :: toks2 →
      (sched_parse_user a0 name 128).2 = some user →
      sched_parse_id idtok = ParseId.accepted id day_id →
      (sched_get w.sched user = none ∨
        ∃ index, sched_get w.sched user = some index
          ∧ (sched_vals w.sched index).length ≤ id.toNat) →
      ∃ r, sched_edit tz now w name (c :: arg1) = some (send_msg w r))
    ∧ (strtok_all (fun c => c == ' ') arg = a0 :: toks0 →
        (sched_parse_user a0 name 64).2 = some user →
        (sched_get w.sched user = none ∨
          ∃ index rest, sched_get w.sched user = some index
            ∧ rest_args (sched_parse_user a0 name 64).1 a0 toks0 = idtok :: rest
            ∧ sched_parse_id idtok = ParseId.accepted id none
            ∧ id.toNat ≥ (sched_vals w.sched index).length) →
        ∃ r, sched_del now w name arg = some (send_msg w r))
    ∧ ((∀ tok ∈ strtok_all is_blank arg.tail, sched_parse_time tz tok 0 = none) →
        ∃ r, sched_add tz now w name arg = some (send_msg w r))
    ∧ ∀ r, (send_msg w r).sched = w.sched
        ∧ (send_msg w r).offsets_src = w.offsets_src
        ∧ (send_msg w r).trace = w.trace ++ [Event.send_msg r] := by
  refine ⟨?_, ?_, ?_, fun r => ⟨rfl, rfl, rfl⟩⟩
  · intro htok hrest huser hid hcase
    have h := sched_edit_rejects tz now w name arg1 a0 idtok a2 user c toks0 toks2 id day_id
      htok hrest huser hid
    rcases hcase with hg | ⟨index, hg, hle⟩
    · exact ⟨_, h.1 hg⟩
    · exact ⟨_, h.2 index hg hle⟩
  · intro htok huser hcase
    have h := sched_del_rejects now w name arg a0 user toks0 htok huser
    rcases hcase with hg | ⟨index, rest, hg, hrest, hid, hge⟩
    · exact ⟨_, h.1 hg⟩
    · exact ⟨_, h.2 index idtok rest id hg hrest hid hge⟩
  · intro hno
    rcases sched_add_no_time tz now w name arg hno with h | h
    · exact ⟨_, h⟩
    · exact ⟨_, h⟩

/-- Witness of C15: `schedit 5 21:00` and `sched- 5` of `Bob`, who has one
schedule, and `sched+ mon soon` are all answered with a message only. -/
theorem sched_input_errors_only_report_witness :
    sched_edit sample_tz 1478088000 sample_world ['B', 'o', 'b']
        [' ', '5', ' ', '2', '1', ':', '0', '0']
      = some (send_msg sample_world (Reply.no_schedule_with_id ['b', 'o', 'b'] 5))
    ∧ sched_del 1478088000 sample_world ['B', 'o', 'b'] [' ', '5']
      = some (send_msg sample_world (Reply.cannot_delete ['b', 'o', 'b'] 1 5))
    ∧ sched_add sample_tz 1478088000 sample_world ['B', 'o', 'b']
        [' ', 'm', 'o', 'n', ' ', 's', 'o', 'o', 'n']
      = some (send_msg sample_world Reply.unable_to_parse_time)
    ∧ (∃ r, sched_edit sample_tz 1478088000 sample_world ['B', 'o', 'b']
        [' ', '5', ' ', '2', '1', ':', '0', '0'] = some (send_msg sample_world r))
    ∧ (∃ r, sched_del 1478088000 sample_world ['B', 'o', 'b'] [' ', '5']
        = some (send_msg sample_world r))
    ∧ ∃ r, sched_add sample_tz 1478088000 sample_world ['B', 'o', 'b']
        [' ', 'm', 'o', 'n', ' ', 's', 'o', 'o', 'n'] = some (send_msg sample_world r) :=
  ⟨by decide, by decide, by decide,
   (sched_input_errors_only_report sample_tz 1478088000 sample_world ['B', 'o', 'b']
      [' ', '5'] ['5', ' ', '2', '1', ':', '0', '0'] ['5'] ['5'] ['2', '1', ':', '0', '0']
      ['b', 'o', 'b'] ' ' [['2', '1', ':', '0', '0']] [] 5 none).1
      (by decide) (by decide) (by decide) (by decide) (Or.inr ⟨0, by decide, by decide⟩),
   (sched_input_errors_only_report sample_tz 1478088000 sample_world ['B', 'o', 'b']
      [' ', '5'] [] ['5'] ['5'] [] ['b', 'o', 'b'] ' ' [] [] 5 none).2.1
      (by decide) (by decide) (Or.inr ⟨0, [], by decide, by decide, by decide, by decide⟩),
   (sched_input_errors_only_report sample_tz 1478088000 sample_world ['B', 'o', 'b']
      [' ', 'm', 'o', 'n', ' ', 's', 'o', 'o', 'n'] [] [] [] [] [] ' ' [] [] 0 none).2.2.1
      (by decide)⟩

/-! ## Invariants of the store -/

theorem all_entries_sched_vals (P : SchedEntry → Prop) (sched : Store) (i : Nat)
    (h : all_entries P sched) : ∀ e ∈ sched_vals sched i, P e := by
  induction sched generalizing i with
  | nil => intro e he; cases he
  | cons kv rest ih =>
    obtain ⟨k, v⟩ := kv
    have hrest : all_entries P rest := fun x hx => h x (List.mem_cons_of_mem _ hx)
    cases i with
    | zero => exact h (k, v) (List.mem_cons_self _ _)
    | succ j => exact ih j hrest

theorem all_entries_set_vals (P : SchedEntry → Prop) (sched : Store) (i : Nat)
    (es : List SchedEntry) (h : all_entries P sched) (hes : ∀ e ∈ es, P e) :
    all_entries P (set_vals sched i es) := by
  induction sched generalizing i with
  | nil => intro kv hkv; cases hkv
  | cons kv rest ih =>
    obtain ⟨k, v⟩ := kv
    have hrest : all_entries P rest := fun x hx => h x (List.mem_cons_of_mem _ hx)
    cases i with
    | zero =>
      intro x hx
      rcases List.mem_cons.1 hx with rfl | hx'
      · exact hes
      · exact hrest x hx'
    | succ j =>
      intro x hx
      rcases List.mem_cons.1 hx with rfl | hx'
      · exact h (k, v) (List.mem_cons_self _ _)
      · exact ih j hrest x hx'

theorem all_entries_append (P : SchedEntry → Prop) (sched : Store) (k : List Char)
    (es : List SchedEntry) (h : all_entries P sched) (hes : ∀ e ∈ es, P e) :
    all_entries P (sched ++ [(k, es)]) := by
  intro x hx
  rcases List.mem_append.1 hx with hx' | hx'
  · exact h x hx'
  · simp only [List.mem_singleton] at hx'
    subst hx'
    exact hes

theorem all_entries_push (P : SchedEntry → Prop) (sched : Store) (k : List Char)
    (e : SchedEntry) (h : all_entries P sched) (he : P e) :
    all_entries P (sched_push sched k e) := by
  unfold sched_push sched_get_add
  have hadd : ∀ es : List SchedEntry, (∀ x ∈ es, P x) → ∀ x ∈ es ++ [e], P x := by
    intro es hes x hx
    rcases List.mem_append.1 hx with hx' | hx'
    · exact hes x hx'
    · simp only [List.mem_singleton] at hx'
      subst hx'
      exact he
  cases hg : sched_get sched k with
  | some i =>
    dsimp only
    exact all_entries_set_vals P sched i _ h (hadd _ (all_entries_sched_vals P sched i h))
  | none =>
    dsimp only
    have h1 : all_entries P (sched ++ [(k, [])]) :=
      all_entries_append P sched k [] h (fun x hx => by cases hx)
    exact all_entries_set_vals P _ _ _ h1 (hadd _ (all_entries_sched_vals P _ _ h1))

theorem all_entries_del_i (P : SchedEntry → Prop) (sched : Store) (index id : Nat)
    (h : all_entries P sched) : all_entries P (sched_del_i sched index id).1 := by
  unfold sched_del_i
  dsimp only
  split_ifs
  · intro x hx
    exact h x (List.mem_of_mem_eraseIdx hx)
  · apply all_entries_set_vals P sched index _ h
    intro e he
    exact all_entries_sched_vals P sched index h e (List.mem_of_mem_eraseIdx he)

theorem merge_into_all (P : SchedEntry → Prop) (es es1 : List SchedEntry) (title : List Char)
    (start end_ : Int) (hes : ∀ e ∈ es, P e) (hP : ∀ e, P e → P (merged_entry start e))
    (h : merge_into es title start end_ = some es1) : ∀ e ∈ es1, P e := by
  induction es generalizing es1 with
  | nil => simp [merge_into] at h
  | cons x rest ih =>
    simp only [merge_into] at h
    split_ifs at h
    · simp only [Option.some.injEq] at h
      subst h
      intro e he
      rcases List.mem_cons.1 he with rfl | he'
      · exact hP x (hes x (List.mem_cons_self _ _))
      · exact hes e (List.mem_cons_of_mem _ he')
    · simp only [Option.map_eq_some'] at h
      obtain ⟨r, hr, rfl⟩ := h
      intro e he
      rcases List.mem_cons.1 he with rfl | he'
      · exact hes e (List.mem_cons_self _ _)
      · exact ih r (fun y hy => hes y (List.mem_cons_of_mem _ hy)) hr e he'

/-- The `sched_add` message keeps an invariant that the new entry satisfies
and that a merge preserves. -/
theorem sched_mod_msg_add_all (P : SchedEntry → Prop) (sched : Store) (request : SchedMsg)
    (cb : Bool) (h : all_entries P sched)
    (hnew : ∀ u, request.user = some u → request.start ≠ 0 → request.end_ ≠ 0 →
      request.start ≤ request.end_ →
      P ⟨request.start, request.end_, request.title.getD untitled, request.repeat_ &&& 0x7f⟩)
    (hP : ∀ e, P e → P (merged_entry request.start e)) :
    all_entries P (sched_mod_msg_add sched request cb).1 := by
  unfold sched_mod_msg_add
  split
  · exact h
  · rename_i ruser hu
    by_cases hv : request.start = 0 ∨ request.end_ = 0 ∨ request.start > request.end_
    · rw [if_pos hv]
      exact h
    · rw [if_neg hv]
      dsimp only
      have hn := hnew ruser hu (by omega) (by omega) (by omega)
      split
      · rename_i sched1 hm
        split at hm
        · rename_i index hg
          simp only [Option.map_eq_some'] at hm
          obtain ⟨es1, hes1, rfl⟩ := hm
          exact all_entries_set_vals P sched index es1 h
            (merge_into_all P _ es1 _ _ _ (all_entries_sched_vals P sched index h) hP hes1)
        · cases hm
      · exact all_entries_push P sched _ _ h hn

theorem adjust_day_mask_lt (s : Int) (m : Nat) (hm : m < 128) : adjust_day_mask s m < 128 := by
  have hR := rotate_right_table m hm
  have hL := rotate_left_table m hm
  unfold adjust_day_mask
  split_ifs
  · rw [hR.1]
    exact hR.2.1
  · exact hL.1
  · exact hm

theorem parse_time_mask_lt (tz : List Char → Option Int) (inp : List Char) (m : Nat)
    (r : ParseTime) (hm : m < 128) (h : sched_parse_time tz inp m = some r) :
    r.day_mask < 128 := by
  rw [parse_time_mask tz inp m r h]
  exact adjust_day_mask_lt _ _ hm

/-- The repeat mask after `apply_edit`. -/
theorem apply_edit_repeat (entry : SchedEntry) (date_edit : Option (tm × Nat))
    (time_edit : Option ParseTime) (title_edit : Option (List Char)) :
    (apply_edit entry date_edit time_edit title_edit).repeat_
      = match date_edit with
        | some (_, day_mask) => if day_mask ≠ 0 then day_mask % 256 else entry.repeat_
        | none => entry.repeat_ := by
  unfold apply_edit
  cases date_edit with
  | none => cases time_edit <;> cases title_edit <;> rfl
  | some d =>
    obtain ⟨date, dm⟩ := d
    cases time_edit <;> cases title_edit <;> rfl

/-! ## Claims about the repeat mask -/

theorem sched_add_repeat_lt (tz : List Char → Option Int) (now : Int) (w w1 : World)
    (name arg : List Char) (hw : all_entries (fun e => e.repeat_ < 128) w.sched)
    (h : sched_add tz now w name arg = some w1) :
    all_entries (fun e => e.repeat_ < 128) w1.sched := by
  unfold sched_add at h
  repeat' (first | split at h | dsimp only at h)
  all_goals first
    | (simp only [Option.some.injEq] at h
       subst h
       first
         | exact hw
         | (have hpt := parse_time_mask_lt _ _ _ _ (sched_parse_days_mask_lt _ _)
              ‹sched_parse_time _ _ _ = some _›
            apply all_entries_push _ _ _ _ hw
            show _ % 256 < 128
            omega))
    | cases h

theorem sched_del_repeat_lt (now : Int) (w w1 : World)
    (name arg : List Char) (hw : all_entries (fun e => e.repeat_ < 128) w.sched)
    (h : sched_del now w name arg = some w1) :
    all_entries (fun e => e.repeat_ < 128) w1.sched := by
  unfold sched_del at h
  repeat' (first | split at h | dsimp only at h)
  all_goals first
    | (simp only [Option.some.injEq] at h
       subst h
       first
         | exact hw
         | exact all_entries_del_i _ _ _ _ hw)
    | cases h

theorem edit_mask_lt (tz : List Char → Option Int) (now : Int) (a2 : List Char)
    (toks3 : List (List Char)) :
    (match (match toks3 with
        | [] => none
        | a3 :: _ => sched_parse_time tz a3 (sched_parse_days now a2).day_mask) with
      | some r => r.day_mask
      | none => (sched_parse_days now a2).day_mask) < 128 := by
  have hd := sched_parse_days_mask_lt now a2
  cases toks3 with
  | nil => exact hd
  | cons a3 rest =>
    dsimp only
    cases hp : sched_parse_time tz a3 (sched_parse_days now a2).day_mask with
    | none => exact hd
    | some r => exact parse_time_mask_lt tz a3 _ r hd hp

/-- Every result of `sched_edit` is either a message only, or the edit of
schedule `id` of a known owner from the tokens after the id, uploaded and
reported. -/
theorem sched_edit_result (tz : List Char → Option Int) (now : Int) (w w1 : World)
    (name arg : List Char) (h : sched_edit tz now w name arg = some w1) :
    (∃ r, w1 = send_msg w r)
    ∨ ∃ user index id a2 toks2, sched_get w.sched user = some index
        ∧ id.toNat < (sched_vals w.sched index).length
        ∧ w1 = send_msg
            (sched_upload now { w with
              sched := set_vals w.sched index
                ((sched_vals w.sched index).set id.toNat
                  (edit_entry tz now
                    ((sched_vals w.sched index).getD id.toNat ⟨0, 0, [], 0⟩) a2 toks2)) })
            (Reply.updated user
              (edit_entry tz now
                ((sched_vals w.sched index).getD id.toNat ⟨0, 0, [], 0⟩) a2 toks2).title id) := by
  unfold sched_edit at h
  split at h
  · exact Or.inl ⟨_, (Option.some.inj h).symm⟩
  · split at h
    · exact Or.inl ⟨_, (Option.some.inj h).symm⟩
    · dsimp only at h
      split at h
      · exact Or.inl ⟨_, (Option.some.inj h).symm⟩
      · split at h
        · cases h
        · exact Or.inl ⟨_, (Option.some.inj h).symm⟩
        · split at h
          · exact Or.inl ⟨_, (Option.some.inj h).symm⟩
          · split at h
            · cases h
            · split at h
              · exact Or.inl ⟨_, (Option.some.inj h).symm⟩
              · rename_i user _ _ index hg
                split at h
                · exact Or.inl ⟨_, (Option.some.inj h).symm⟩
                · rename_i hlen
                  split at h
                  · exact Or.inl ⟨_, (Option.some.inj h).symm⟩
                  · right
                    exact ⟨user, index, _, _, _, hg, Nat.lt_of_not_le hlen,
                      (Option.some.inj h).symm⟩

theorem edit_entry_repeat_lt (tz : List Char → Option Int) (now : Int) (old : SchedEntry)
    (a2 : List Char) (toks2 : List (List Char)) (h : old.repeat_ < 128) :
    (edit_entry tz now old a2 toks2).repeat_ < 128 := by
  unfold edit_entry
  dsimp only
  rw [apply_edit_repeat]
  split
  · rename_i date dm hde
    split_ifs at hde
    simp only [Option.some.injEq, Prod.mk.injEq] at hde
    obtain ⟨_, rfl⟩ := hde
    have hm := edit_mask_lt tz now a2 (rest_args (sched_parse_days now a2).ok a2 toks2)
    split_ifs
    · omega
    · exact h
  · exact h

theorem sched_edit_repeat_lt (tz : List Char → Option Int) (now : Int) (w w1 : World)
    (name arg : List Char) (hw : all_entries (fun e => e.repeat_ < 128) w.sched)
    (h : sched_edit tz now w name arg = some w1) :
    all_entries (fun e => e.repeat_ < 128) w1.sched := by
  rcases sched_edit_result tz now w w1 name arg h with ⟨r, rfl⟩ | ⟨user, index, id, a2, toks2,
    _, hlt, rfl⟩
  · exact hw
  · apply all_entries_set_vals _ _ _ _ hw
    intro e he
    rcases List.mem_or_eq_of_mem_set he with he' | rfl
    · exact all_entries_sched_vals _ _ _ hw e he'
    · apply edit_entry_repeat_lt
      rw [List.getD_eq_getElem _ _ hlt]
      exact all_entries_sched_vals _ _ _ hw _ (List.getElem_mem _)

/-- C19: the repeat mask uses only the low 7 bits. If every entry of the
store has `repeat < 128`, then so has every entry after a `sched_add`,
`sched_edit` or `sched_del` command and after a `sched_add` message,
whatever day mask rotation the time zone conversion makes. -/
theorem repeat_stays_in_seven_bits (tz : List Char → Option Int) (now : Int) (w : World)
    (name arg : List Char) (cmd : Cmd) (request : SchedMsg) (cb : Bool)
    (hw : all_entries (fun e => e.repeat_ < 128) w.sched) :
    (∀ w1, sched_run tz now w name arg cmd = some w1 →
      all_entries (fun e => e.repeat_ < 128) w1.sched)
    ∧ all_entries (fun e => e.repeat_ < 128) (sched_mod_msg_add w.sched request cb).1 := by
  constructor
  · intro w1 h
    cases cmd with
    | SCHED_ADD => exact sched_add_repeat_lt tz now w w1 name arg hw h
    | SCHED_DEL => exact sched_del_repeat_lt now w w1 name arg hw h
    | SCHED_EDIT => exact sched_edit_repeat_lt tz now w w1 name arg hw h
  · apply sched_mod_msg_add_all _ _ _ _ hw
    · intro u _ _ _ _
      show request.repeat_ &&& 0x7f < 128
      exact Nat.lt_of_le_of_lt Nat.and_le_right (by decide)
    · intro e he
      exact or_bit_mod_lt _ _ he (get_dow_toNat_lt _)

/-- Witness of C19: `sched+ sun 03:30JST` by `Bob` rotates Sunday to Saturday
and stores the mask 32; the store keeps all masks below 128. -/
theorem repeat_stays_in_seven_bits_witness :
    all_entries (fun e => e.repeat_ < 128) sample_world.sched
    ∧ (sched_run sample_tz 1478088000 sample_world ['B', 'o', 'b']
        [' ', 's', 'u', 'n', ' ', '0', '3', ':', '3', '0', 'J', 'S', 'T']
        Cmd.SCHED_ADD).isSome = true
    ∧ (∀ w1, sched_run sample_tz 1478088000 sample_world ['B', 'o', 'b']
        [' ', 's', 'u', 'n', ' ', '0', '3', ':', '3', '0', 'J', 'S', 'T']
        Cmd.SCHED_ADD = some w1 →
        all_entries (fun e => e.repeat_ < 128) w1.sched) :=
  ⟨by unfold all_entries; decide, by decide,
   (repeat_stays_in_seven_bits sample_tz 1478088000 sample_world ['B', 'o', 'b']
      [' ', 's', 'u', 'n', ' ', '0', '3', ':', '3', '0', 'J', 'S', 'T'] Cmd.SCHED_ADD
      ⟨none, 0, 0, 0, none, 0⟩ false (by unfold all_entries; decide)).1⟩

/-! ## Lemmas about `sched_edit` -/

theorem sched_get_lt (sched : Store) (name : List Char) (i : Nat)
    (h : sched_get sched name = some i) : i < sched.length := by
  induction sched generalizing i with
  | nil => simp [sched_get] at h
  | cons kv rest ih =>
    obtain ⟨k, v⟩ := kv
    simp only [sched_get] at h
    by_cases hk : k = name
    · simp only [hk, if_true, Option.some.injEq] at h
      subst h
      simp
    · simp only [hk, if_false, Option.map_eq_some'] at h
      obtain ⟨j, hj, rfl⟩ := h
      have := ih j hj
      simp only [List.length_cons]
      omega

/-- What `sched_edit` does once the owner is known and the id is valid. -/
theorem sched_edit_applies (tz : List Char → Option Int) (now : Int) (w : World)
    (name arg1 a0 idtok a2 user : List Char) (c : Char) (toks0 toks2 : List (List Char))
    (id : Int) (index : Nat)
    (htok : strtok_all is_blank arg1 = a0 :: toks0)
    (hrest : rest_args (sched_parse_user a0 name 128).1 a0 toks0 = idtok :: a2 :: toks2)
    (huser : (sched_parse_user a0 name 128).2 = some user)
    (hid : sched_parse_id idtok = ParseId.accepted id none)
    (hg : sched_get w.sched user = some index)
    (hlt : id.toNat < (sched_vals w.sched index).length) :
    sched_edit tz now w name (c :: arg1)
      = some (send_msg
          (sched_upload now { w with
            sched := set_vals w.sched index
              ((sched_vals w.sched index).set id.toNat
                (edit_entry tz now
                  ((sched_vals w.sched index).getD id.toNat ⟨0, 0, [], 0⟩) a2 toks2)) })
          (Reply.updated user
            (edit_entry tz now
              ((sched_vals w.sched index).getD id.toNat ⟨0, 0, [], 0⟩) a2 toks2).title id)) := by
  have hnl : ¬ (sched_vals w.sched index).length ≤ id.toNat := by omega
  simp only [sched_edit, htok, hrest, hid, huser, hg, hnl, if_false, Option.isSome_none,
    Bool.false_eq_true]
  rfl

/-- The store after `sched_edit` replaced schedule `id` of owner `index`. -/
theorem edit_store_frame (sched : Store) (user : List Char) (index n : Nat) (e : SchedEntry)
    (hg : sched_get sched user = some index) :
    sched_vals (set_vals sched index ((sched_vals sched index).set n e)) index
        = (sched_vals sched index).set n e
    ∧ (∀ i, i ≠ index →
        sched_vals (set_vals sched index ((sched_vals sched index).set n e)) i
          = sched_vals sched i)
    ∧ (set_vals sched index ((sched_vals sched index).set n e)).map Prod.fst
        = sched.map Prod.fst :=
  ⟨sched_vals_set_vals_same sched index _ (sched_get_lt sched user index hg),
   fun i hi => sched_vals_set_vals_other sched index i _ hi, set_vals_keys _ _ _⟩

theorem gmtime_r_ranges (t : Int) :
    0 ≤ (gmtime_r t).tm_hour ∧ (gmtime_r t).tm_hour < 24
    ∧ 0 ≤ (gmtime_r t).tm_min ∧ (gmtime_r t).tm_min < 60
    ∧ 0 ≤ (gmtime_r t).tm_sec ∧ (gmtime_r t).tm_sec < 60 := by
  simp only [gmtime_r]
  omega

/-- Overwriting hour and minute changes `timegm` linearly. -/
theorem timegm_set_hour_min (x : tm) (h m : Int) :
    timegm { x with tm_hour := h, tm_min := m }
      = timegm x + (h - x.tm_hour) * 3600 + (m - x.tm_min) * 60 := by
  simp only [timegm]
  ring

/-- Clearing hour and minute of a `gmtime_r` result gives midnight of that
day plus the seconds. -/
theorem timegm_clear_hour_min (t : Int) :
    timegm { gmtime_r t with tm_hour := 0, tm_min := 0 } = t / 86400 * 86400 + t % 60 := by
  rw [timegm_set_hour_min, timegm_gmtime_r]
  simp only [gmtime_r]
  omega

theorem sched_parse_days_rejected_mask (now : Int) (inp : List Char)
    (h : (sched_parse_days now inp).ok = false) : (sched_parse_days now inp).day_mask = 0 := by
  rw [sched_parse_days_mask]
  apply parse_day_words_not_found
  cases hf : (parse_day_words (get_dow (today_midnight now)) inp).2 with
  | false => rfl
  | true =>
    rw [sched_parse_days_found now inp hf] at h
    cases h

/-- An accepted day spec gives a date at 00:00:00 of some day. -/
theorem sched_parse_days_midnight (now : Int) (inp : List Char)
    (h : (sched_parse_days now inp).ok = true) :
    (sched_parse_days now inp).date.tm_hour = 0
    ∧ (sched_parse_days now inp).date.tm_min = 0
    ∧ ∃ D : Int, timegm (sched_parse_days now inp).date = D * 86400 := by
  cases hf : (parse_day_words (get_dow (today_midnight now)) inp).2 with
  | true =>
    by_cases hm : (sched_parse_days now inp).day_mask = 0
    · have e := sched_parse_days_found now inp hf
      rw [sched_parse_days_mask] at hm
      rw [e, hm]
      exact ⟨rfl, rfl, now / 86400, timegm_today_midnight now⟩
    · have hlt := sched_parse_days_mask_lt now inp
      obtain ⟨_, hdate⟩ := sched_parse_days_nonzero now inp hm
      obtain ⟨hsame, hmove⟩ := adjust_start_date_spec now _ hlt hm
      rw [hdate]
      by_cases hb : (sched_parse_days now inp).day_mask
          &&& (1 <<< ((now / 86400 + 3) % 7).toNat) = 0
      · obtain ⟨i, _, _, _, hd⟩ := hmove hb
        rw [hd]
        obtain ⟨g1, g2, _, _⟩ :=
          gmtime_r_midnight (now / 86400 + ((i : Int) - (now / 86400 + 3) % 7))
        exact ⟨g1, g2, _, timegm_gmtime_r _⟩
      · rw [hsame hb]
        exact ⟨rfl, rfl, now / 86400, timegm_today_midnight now⟩
  | false =>
    unfold sched_parse_days at h ⊢
    dsimp only at h ⊢
    rw [hf] at h ⊢
    simp only [Bool.false_eq_true, if_false] at h ⊢
    split at h
    · rename_i d heq
      dsimp only
      unfold timegm_norm
      have hD : timegm { d with tm_hour := 0, tm_min := 0, tm_sec := 0 }
          = (days_from_civil (d.tm_year + 1900 + d.tm_mon / 12) (d.tm_mon % 12 + 1) 1
              + (d.tm_mday - 1)) * 86400 := by
        simp only [timegm]
        ring
      rw [hD]
      obtain ⟨g1, g2, _, _⟩ := gmtime_r_midnight
        (days_from_civil (d.tm_year + 1900 + d.tm_mon / 12) (d.tm_mon % 12 + 1) 1
          + (d.tm_mday - 1))
      exact ⟨g1, g2, _, timegm_gmtime_r _⟩
    · cases h
    · cases h

theorem edit_entry_time_only (tz : List Char → Option Int) (now : Int) (old : SchedEntry)
    (a2 : List Char) (pt : ParseTime)
    (hpd : (sched_parse_days now a2).ok = false)
    (hpt : sched_parse_time tz a2 0 = some pt) :
    edit_entry tz now old a2 [] = apply_edit old none (some pt) none := by
  unfold edit_entry
  simp only [hpd, sched_parse_days_rejected_mask now a2 hpd, rest_args, Bool.false_eq_true,
    if_false, hpt, Option.isSome_some, if_true, List.tail_cons, join_title]

theorem edit_entry_day_only (tz : List Char → Option Int) (now : Int) (old : SchedEntry)
    (a2 : List Char)
    (hpd : (sched_parse_days now a2).ok = true) :
    edit_entry tz now old a2 []
      = apply_edit old (some ((sched_parse_days now a2).date, (sched_parse_days now a2).day_mask))
          none none := by
  unfold edit_entry
  simp only [hpd, rest_args, if_true, Option.isSome_none, Bool.false_eq_true, if_false,
    join_title]

theorem getD_of_getElem? (l : List SchedEntry) (n : Nat) (old d : SchedEntry)
    (h : l[n]? = some old) : l.getD n d = old ∧ n < l.length := by
  obtain ⟨hn, _⟩ := List.getElem?_eq_some.1 h
  refine ⟨?_, hn⟩
  rw [List.getD_eq_getElem?_getD, h]
  rfl

/-- C13 (counterexample): in the sample world, where bob's schedule 0 starts on
Monday 2016-10-31 at 20:00 UTC, the accepted time-only edit
"sched~ 0 03:30JST" moves the start to Sunday 2016-10-30 at 18:30 UTC: the
UTC calendar date of the start is not kept. -/
theorem sched_edit_time_only_date_counterexample :
    sched_parse_time sample_tz "03:30JST".toList 0 = some ⟨-330, -270, 0, false⟩
    ∧ (sched_edit sample_tz 1478088000 sample_world "Bob".toList " 0 03:30JST".toList).map
        (fun w => w.sched)
      = some [("bob".toList, [⟨1477852200, 1477855800, "Show".toList, 3⟩])]
    ∧ (1477852200 : Int) / 86400 ≠ 1477944000 / 86400 := by
  decide

/-- C13 (amended): a time-only edit of a valid id replaces that schedule by
an entry with the same repeat mask and title whose start is 00:00 of the old
start's UTC date plus the old seconds plus the parsed start minutes; the UTC
date is kept, and the minute of day is the parsed start, when the parsed
start lies in [0, 1440); the duration is the old one, or parsed end minus
parsed start when an end time was given. -/
theorem sched_edit_time_only (tz : List Char → Option Int) (now : Int) (w : World)
    (name arg1 a0 idtok a2 user : List Char) (c : Char) (toks0 : List (List Char))
    (id : Int) (index : Nat) (old : SchedEntry) (pt : ParseTime)
    (htok : strtok_all is_blank arg1 = a0 :: toks0)
    (hrest : rest_args (sched_parse_user a0 name 128).1 a0 toks0 = [idtok, a2])
    (huser : (sched_parse_user a0 name 128).2 = some user)
    (hid : sched_parse_id idtok = ParseId.accepted id none)
    (hg : sched_get w.sched user = some index)
    (hold : (sched_vals w.sched index)[id.toNat]? = some old)
    (hpd : (sched_parse_days now a2).ok = false)
    (hpt : sched_parse_time tz a2 0 = some pt)
    (hs : -35791394 ≤ pt.mins_start ∧ pt.mins_start ≤ 35791394)
    (hd : -35791394 ≤ pt.mins_end - pt.mins_start ∧ pt.mins_end - pt.mins_start ≤ 35791394)
    (ho : -2147483648 ≤ old.end_ - old.start ∧ old.end_ - old.start < 2147483648) :
    ∃ w1 e, sched_edit tz now w name (c :: arg1) = some w1
      ∧ sched_vals w1.sched index = (sched_vals w.sched index).set id.toNat e
      ∧ (∀ i, i ≠ index → sched_vals w1.sched i = sched_vals w.sched i)
      ∧ e.repeat_ = old.repeat_
      ∧ e.title = old.title
      ∧ e.start = old.start / 86400 * 86400 + old.start % 60 + pt.mins_start * 60
      ∧ (0 ≤ pt.mins_start → pt.mins_start < 1440 →
          e.start / 86400 = old.start / 86400 ∧ e.start % 86400 / 60 = pt.mins_start)
      ∧ e.end_ - e.start
          = (if pt.got_duration then (pt.mins_end - pt.mins_start) * 60
             else old.end_ - old.start) := by
  obtain ⟨hgd, hlt⟩ := getD_of_getElem? _ _ old ⟨0, 0, [], 0⟩ hold
  have happ := sched_edit_applies tz now w name arg1 a0 idtok a2 user c toks0 [] id index
    htok hrest huser hid hg hlt
  rw [hgd, edit_entry_time_only tz now old a2 pt hpd hpt] at happ
  obtain ⟨f1, f2, _⟩ := edit_store_frame w.sched user index id.toNat
    (apply_edit old none (some pt) none) hg
  have hstart : (apply_edit old none (some pt) none).start
      = old.start / 86400 * 86400 + old.start % 60 + pt.mins_start * 60 := by
    simp only [apply_edit]
    rw [timegm_clear_hour_min, int32_small _ (by omega) (by omega)]
  have hend : (apply_edit old none (some pt) none).end_
        - (apply_edit old none (some pt) none).start
      = (if pt.got_duration then (pt.mins_end - pt.mins_start) * 60
         else old.end_ - old.start) := by
    simp only [apply_edit]
    cases pt.got_duration with
    | true =>
      simp only [if_true]
      rw [int32_small (pt.mins_end - pt.mins_start) (by omega) (by omega),
        int32_small ((pt.mins_end - pt.mins_start) * 60) (by omega) (by omega)]
      omega
    | false =>
      simp only [Bool.false_eq_true, if_false]
      rw [int32_small (old.end_ - old.start) (by omega) (by omega)]
      omega
  refine ⟨_, _, happ, f1, f2, rfl, rfl, hstart, ?_, hend⟩
  intro h0 h1
  rw [hstart]
  omega

/-- C13 (witness): "sched~ 0 21:15" in the sample world. -/
theorem sched_edit_time_only_witness :
    ∃ w1 e, sched_edit sample_tz 1478088000 sample_world "Bob".toList " 0 21:15".toList = some w1
      ∧ sched_vals w1.sched 0 = (sched_vals sample_world.sched 0).set (0 : Int).toNat e
      ∧ (∀ i, i ≠ 0 → sched_vals w1.sched i = sched_vals sample_world.sched i)
      ∧ e.repeat_ = 3
      ∧ e.title = "Show".toList
      ∧ e.start = 1477944000 / 86400 * 86400 + 1477944000 % 60 + 1275 * 60
      ∧ ((0 : Int) ≤ 1275 → (1275 : Int) < 1440 →
          e.start / 86400 = 1477944000 / 86400 ∧ e.start % 86400 / 60 = 1275)
      ∧ e.end_ - e.start
          = (if false = true then ((1335 : Int) - 1275) * 60
             else 1477947600 - 1477944000) :=
  sched_edit_time_only sample_tz 1478088000 sample_world "Bob".toList "0 21:15".toList
    "0".toList "0".toList "21:15".toList "bob".toList ' ' ["21:15".toList] 0 0
    ⟨1477944000, 1477947600, "Show".toList, 3⟩ ⟨1275, 1335, 0, false⟩
    (by decide) (by decide) (by decide) (by decide) (by decide) (by decide) (by decide)
    (by decide) (by decide) (by decide) (by decide)

/-- A day-only edit of a valid id, for an old duration that fits the `int`
variable `diff`: it replaces that schedule by an entry that starts on the
parsed reference date at the old UTC hour and minute, with the old duration
and title, and with the parsed mask when it is non-zero, else the old mask;
all other schedules and the owners stay as they were. -/
theorem sched_edit_day_only (tz : List Char → Option Int) (now : Int) (w : World)
    (name arg1 a0 idtok a2 user : List Char) (c : Char) (toks0 : List (List Char))
    (id : Int) (index : Nat) (old : SchedEntry)
    (htok : strtok_all is_blank arg1 = a0 :: toks0)
    (hrest : rest_args (sched_parse_user a0 name 128).1 a0 toks0 = [idtok, a2])
    (huser : (sched_parse_user a0 name 128).2 = some user)
    (hid : sched_parse_id idtok = ParseId.accepted id none)
    (hg : sched_get w.sched user = some index)
    (hold : (sched_vals w.sched index)[id.toNat]? = some old)
    (hpd : (sched_parse_days now a2).ok = true)
    (ho : -2147483648 ≤ old.end_ - old.start ∧ old.end_ - old.start < 2147483648) :
    ∃ w1 e, sched_edit tz now w name (c :: arg1) = some w1
      ∧ sched_vals w1.sched index = (sched_vals w.sched index).set id.toNat e
      ∧ (∀ i, i ≠ index → sched_vals w1.sched i = sched_vals w.sched i)
      ∧ w1.sched.map Prod.fst = w.sched.map Prod.fst
      ∧ e.start / 86400 * 86400 = timegm (sched_parse_days now a2).date
      ∧ (gmtime_r e.start).tm_hour = (gmtime_r old.start).tm_hour
      ∧ (gmtime_r e.start).tm_min = (gmtime_r old.start).tm_min
      ∧ e.end_ - e.start = old.end_ - old.start
      ∧ e.title = old.title
      ∧ e.repeat_ = (if (sched_parse_days now a2).day_mask ≠ 0
                     then (sched_parse_days now a2).day_mask else old.repeat_) := by
  obtain ⟨hgd, hlt⟩ := getD_of_getElem? _ _ old ⟨0, 0, [], 0⟩ hold
  have happ := sched_edit_applies tz now w name arg1 a0 idtok a2 user c toks0 [] id index
    htok hrest huser hid hg hlt
  rw [hgd, edit_entry_day_only tz now old a2 hpd] at happ
  obtain ⟨f1, f2, f3⟩ := edit_store_frame w.sched user index id.toNat
    (apply_edit old (some ((sched_parse_days now a2).date, (sched_parse_days now a2).day_mask))
      none none) hg
  obtain ⟨d1, d2, D, hD⟩ := sched_parse_days_midnight now a2 hpd
  obtain ⟨r1, r2, r3, r4, _, _⟩ := gmtime_r_ranges old.start
  have hstart : (apply_edit old
        (some ((sched_parse_days now a2).date, (sched_parse_days now a2).day_mask))
        none none).start
      = D * 86400 + (gmtime_r old.start).tm_hour * 3600 + (gmtime_r old.start).tm_min * 60 := by
    simp only [apply_edit]
    rw [timegm_set_hour_min, hD, d1, d2]
    ring
  have hmask := sched_parse_days_mask_lt now a2
  refine ⟨_, _, happ, f1, f2, f3, ?_, ?_, ?_, ?_, rfl, ?_⟩
  · rw [hstart, hD]
    omega
  · rw [hstart]
    simp only [gmtime_r]
    omega
  · rw [hstart]
    simp only [gmtime_r]
    omega
  · simp only [apply_edit]
    rw [int32_small (old.end_ - old.start) (by omega) (by omega)]
    omega
  · simp only [apply_edit]
    by_cases hm : (sched_parse_days now a2).day_mask = 0
    · simp only [hm, ne_eq, not_true_eq_false, if_false]
    · simp only [ne_eq, hm, not_false_eq_true, if_true]
      exact Nat.mod_eq_of_lt (by omega)

/-- An instance of the day-only edit: "sched~ 0 wed,fri" in the sample world
on Wednesday 2016-11-02. -/
theorem sched_edit_day_only_witness :
    ∃ w1 e, sched_edit sample_tz 1478088000 sample_world "Bob".toList " 0 wed,fri".toList
        = some w1
      ∧ sched_vals w1.sched 0 = (sched_vals sample_world.sched 0).set (0 : Int).toNat e
      ∧ (∀ i, i ≠ 0 → sched_vals w1.sched i = sched_vals sample_world.sched i)
      ∧ w1.sched.map Prod.fst = sample_world.sched.map Prod.fst
      ∧ e.start / 86400 * 86400 = timegm (sched_parse_days 1478088000 "wed,fri".toList).date
      ∧ (gmtime_r e.start).tm_hour = (gmtime_r 1477944000).tm_hour
      ∧ (gmtime_r e.start).tm_min = (gmtime_r 1477944000).tm_min
      ∧ e.end_ - e.start = 1477947600 - 1477944000
      ∧ e.title = "Show".toList
      ∧ e.repeat_ = (if (sched_parse_days 1478088000 "wed,fri".toList).day_mask ≠ 0
                     then (sched_parse_days 1478088000 "wed,fri".toList).day_mask else 3) :=
  sched_edit_day_only sample_tz 1478088000 sample_world "Bob".toList "0 wed,fri".toList
    "0".toList "0".toList "wed,fri".toList "bob".toList ' ' ["wed,fri".toList] 0 0
    ⟨1477944000, 1477947600, "Show".toList, 3⟩
    (by decide) (by decide) (by decide) (by decide) (by decide) (by decide) (by decide)
    (by decide)

/-- C11 (failing input): on Wednesday 2016-11-02, "sched+ mon 16:00PST" with
PST eight hours behind UTC stores an entry that starts on Tuesday 2016-11-01
at 00:00 UTC (weekday 1) with the repeat mask 1, Monday only: the converted
start is exactly 1440 minutes, which the test "mins_start > 24*60" does not
count as the next day, so the mask is not rotated and the weekday bit of the
stored start is not set. -/
theorem sched_add_midnight_not_rotated :
    (sched_parse_days 1478088000 "mon".toList).day_mask = 1
    ∧ sched_parse_time sample_tz "16:00PST".toList 1 = some ⟨1440, 1500, 1, false⟩
    ∧ (sched_add sample_tz 1478088000 ⟨[], none, []⟩ "Bob".toList " mon 16:00PST".toList).map
        (fun w => w.sched)
      = some [("bob".toList, [⟨1477958400, 1477962000, untitled, 1⟩])]
    ∧ get_dow (gmtime_r 1477958400) = 1
    ∧ 1 &&& (1 <<< (get_dow (gmtime_r 1477958400)).toNat) = 0 := by
  decide

/-- C18 (failing input): "sched+ 50:00-01:00" is accepted, because the hour
is not range checked and an end before the start is moved by one day only;
starting from the empty store it stores an entry whose end is 25 hours before
its start. -/
theorem sched_add_end_before_start :
    sched_parse_time sample_tz "50:00-01:00".toList 0 = some ⟨3000, 1500, 0, true⟩
    ∧ (sched_add sample_tz 1478088000 ⟨[], none, []⟩ "Bob".toList " 50:00-01:00".toList).map
        (fun w => w.sched)
      = some [("bob".toList, [⟨1478224800, 1478134800, untitled, 0⟩])]
    ∧ ¬ ((1478224800 : Int) ≤ 1478134800) := by
  decide

/-! ## Lemmas about the date text -/

theorem digitChar_facts : ∀ d < 10, (Nat.digitChar d).isDigit = true
    ∧ (Nat.digitChar d).toNat - 48 = d ∧ isspace (Nat.digitChar d) = false := by
  decide

theorem toDigitsCore_step (f n : Nat) (ds : List Char) :
    Nat.toDigitsCore 10 (f + 1) n ds
      = if n / 10 = 0 then Nat.digitChar (n % 10) :: ds
        else Nat.toDigitsCore 10 f (n / 10) (Nat.digitChar (n % 10) :: ds) := by
  simp only [Nat.toDigitsCore]

theorem toDigits_one (n : Nat) (h : n < 10) : Nat.toDigits 10 n = [Nat.digitChar n] := by
  unfold Nat.toDigits
  rw [toDigitsCore_step, if_pos (by omega), Nat.mod_eq_of_lt h]

theorem toDigits_two (n : Nat) (h0 : 10 ≤ n) (h : n < 100) :
    Nat.toDigits 10 n = [Nat.digitChar (n / 10), Nat.digitChar (n % 10)] := by
  unfold Nat.toDigits
  obtain ⟨m, rfl⟩ : ∃ m, n = m + 1 := ⟨n - 1, by omega⟩
  rw [toDigitsCore_step, if_neg (by omega), toDigitsCore_step, if_pos (by omega),
    Nat.mod_eq_of_lt (by omega : (m + 1) / 10 < 10)]

theorem toDigits_three (n : Nat) (h0 : 100 ≤ n) (h : n < 1000) :
    Nat.toDigits 10 n
      = [Nat.digitChar (n / 100), Nat.digitChar (n / 10 % 10), Nat.digitChar (n % 10)] := by
  unfold Nat.toDigits
  obtain ⟨m, rfl⟩ : ∃ m, n = m + 2 := ⟨n - 2, by omega⟩
  rw [toDigitsCore_step, if_neg (by omega), toDigitsCore_step, if_neg (by omega),
    toDigitsCore_step, if_pos (by omega),
    Nat.mod_eq_of_lt (by omega : (m + 2) / 10 / 10 < 10),
    (by omega : (m + 2) / 10 / 10 = (m + 2) / 100)]

theorem toDigits_four (n : Nat) (h0 : 1000 ≤ n) (h : n < 10000) :
    Nat.toDigits 10 n
      = [Nat.digitChar (n / 1000), Nat.digitChar (n / 100 % 10), Nat.digitChar (n / 10 % 10),
         Nat.digitChar (n % 10)] := by
  unfold Nat.toDigits
  obtain ⟨m, rfl⟩ : ∃ m, n = m + 3 := ⟨n - 3, by omega⟩
  rw [toDigitsCore_step, if_neg (by omega), toDigitsCore_step, if_neg (by omega),
    toDigitsCore_step, if_neg (by omega), toDigitsCore_step, if_pos (by omega),
    Nat.mod_eq_of_lt (by omega : (m + 3) / 10 / 10 / 10 < 10),
    (by omega : (m + 3) / 10 / 10 / 10 = (m + 3) / 1000),
    (by omega : (m + 3) / 10 / 10 = (m + 3) / 100)]

theorem two_digits_eq (v : Int) (h0 : 0 ≤ v) (h : v < 100) :
    two_digits v = [Nat.digitChar (v.toNat / 10), Nat.digitChar (v.toNat % 10)] := by
  unfold two_digits
  by_cases h10 : v < 10
  · rw [if_pos h10, toDigits_one _ (by omega), (by omega : v.toNat / 10 = 0),
      Nat.mod_eq_of_lt (by omega : v.toNat < 10)]
    rfl
  · rw [if_neg h10, toDigits_two _ (by omega) (by omega)]

theorem skip_space_digit (d : Nat) (hd : d < 10) (cs : List Char) :
    skip_space (Nat.digitChar d :: cs) = Nat.digitChar d :: cs := by
  simp only [skip_space, (digitChar_facts d hd).2.2, Bool.false_eq_true, if_false]

/-- A two-digit field is read back by `get_number`. -/
theorem get_number_two (lo hi n : Nat) (rest : List Char) (h1 : lo ≤ n) (h2 : n ≤ hi)
    (h3 : n < 100) :
    get_number lo hi 2 (Nat.digitChar (n / 10) :: Nat.digitChar (n % 10) :: rest)
      = some (n, rest) := by
  have a := digitChar_facts (n / 10) (by omega)
  have b := digitChar_facts (n % 10) (by omega)
  unfold get_number
  rw [skip_space_digit _ (by omega)]
  simp only [a.1, if_true, get_number_loop, a.2.1, b.1, b.2.1, and_true]
  rw [if_pos (by omega : n / 10 * 10 ≤ hi)]
  have e : n / 10 * 10 + n % 10 = n := by omega
  simp only [e]
  rw [if_neg (by omega)]

/-- The digits of a year up to 9999, followed by a character that is no
digit, are read back by `get_number`. -/
theorem get_number_year (n : Nat) (x : Char) (rest : List Char) (h : n ≤ 9999)
    (hx : x.isDigit = false) :
    get_number 0 9999 4 (Nat.toDigits 10 n ++ x :: rest) = some (n, x :: rest) := by
  have f0 := digitChar_facts (n % 10) (by omega)
  by_cases c1 : n < 10
  · rw [toDigits_one n c1]
    have a := digitChar_facts n c1
    unfold get_number
    rw [List.singleton_append, skip_space_digit _ c1]
    simp only [a.1, if_true, get_number_loop, a.2.1, hx, Bool.false_eq_true, and_false,
      if_false]
    rw [if_neg (by omega)]
  · by_cases c2 : n < 100
    · rw [toDigits_two n (by omega) c2]
      have a := digitChar_facts (n / 10) (by omega)
      unfold get_number
      simp only [List.cons_append, List.nil_append]
      rw [skip_space_digit _ (by omega)]
      simp only [a.1, if_true, get_number_loop, a.2.1, f0.1, f0.2.1, and_true, hx,
        Bool.false_eq_true, and_false, if_false]
      rw [if_pos (by omega : n / 10 * 10 ≤ 9999)]
      have e : n / 10 * 10 + n % 10 = n := by omega
      simp only [e]
      rw [if_neg (by omega)]
    · by_cases c3 : n < 1000
      · rw [toDigits_three n (by omega) c3]
        have a := digitChar_facts (n / 100) (by omega)
        have b := digitChar_facts (n / 10 % 10) (by omega)
        unfold get_number
        simp only [List.cons_append, List.nil_append]
        rw [skip_space_digit _ (by omega)]
        simp only [a.1, if_true, get_number_loop, a.2.1, b.1, b.2.1, f0.1, f0.2.1, and_true,
          hx, Bool.false_eq_true, and_false, if_false]
        rw [if_pos (by omega : n / 100 * 10 ≤ 9999),
          if_pos (by omega : (n / 100 * 10 + n / 10 % 10) * 10 ≤ 9999)]
        have e : (n / 100 * 10 + n / 10 % 10) * 10 + n % 10 = n := by omega
        simp only [e]
        rw [if_neg (by omega)]
      · rw [toDigits_four n (by omega) (by omega)]
        have a := digitChar_facts (n / 1000) (by omega)
        have b := digitChar_facts (n / 100 % 10) (by omega)
        have c := digitChar_facts (n / 10 % 10) (by omega)
        unfold get_number
        simp only [List.cons_append, List.nil_append]
        rw [skip_space_digit _ (by omega)]
        simp only [a.1, if_true, get_number_loop, a.2.1, b.1, b.2.1, c.1, c.2.1, f0.1, f0.2.1,
          and_true]
        rw [if_pos (by omega : n / 1000 * 10 ≤ 9999),
          if_pos (by omega : (n / 1000 * 10 + n / 100 % 10) * 10 ≤ 9999),
          if_pos (by omega : ((n / 1000 * 10 + n / 100 % 10) * 10 + n / 10 % 10) * 10 ≤ 9999)]
        have e : ((n / 1000 * 10 + n / 100 % 10) * 10 + n / 10 % 10) * 10 + n % 10 = n := by
          omega
        simp only [e]
        rw [if_neg (by omega)]

/-- Day of the month of `civil_from_days` lies in `1..31`. -/
theorem civil_day_range (z : Int) :
    1 ≤ (civil_from_days z).2.2 ∧ (civil_from_days z).2.2 ≤ 31 := by
  simp only [civil_from_days]
  generalize hdoe : z + 719468 - (z + 719468) / 146097 * 146097 = doe
  have h0 : 0 ≤ doe := by omega
  have h1 : doe < 146097 := by omega
  generalize hy : (doe - doe / 1460 + doe / 36524 - doe / 146096) / 365 = yoe
  have hb := doy_bounds doe yoe h0 h1 hy
  generalize doe - (365 * yoe + yoe / 4 - yoe / 100) = doy at hb ⊢
  omega

theorem gmtime_r_date_ranges (t : Int) :
    0 ≤ (gmtime_r t).tm_mon ∧ (gmtime_r t).tm_mon ≤ 11
    ∧ 1 ≤ (gmtime_r t).tm_mday ∧ (gmtime_r t).tm_mday ≤ 31 := by
  have a := civil_month_range (t / 86400)
  have b := civil_day_range (t / 86400)
  simp only [gmtime_r]
  omega

/-- Reading the text of `strftime_FTZ` back with `strptime_FTZ` sets the six
date and time fields to the ones written. -/
theorem strptime_strftime (g x0 : tm)
    (hy : 0 ≤ g.tm_year + 1900 ∧ g.tm_year + 1900 ≤ 9999)
    (hm : 0 ≤ g.tm_mon ∧ g.tm_mon ≤ 11)
    (hd : 1 ≤ g.tm_mday ∧ g.tm_mday ≤ 31)
    (hh : 0 ≤ g.tm_hour ∧ g.tm_hour < 24)
    (hi : 0 ≤ g.tm_min ∧ g.tm_min < 60)
    (hs : 0 ≤ g.tm_sec ∧ g.tm_sec < 60) :
    strptime_FTZ (strftime_FTZ g) x0
      = strptime_xday { x0 with
          tm_year := g.tm_year, tm_mon := g.tm_mon, tm_mday := g.tm_mday,
          tm_hour := g.tm_hour, tm_min := g.tm_min, tm_sec := g.tm_sec } := by
  unfold strftime_FTZ year_digits
  rw [if_neg (by omega), two_digits_eq _ (by omega) (by omega),
    two_digits_eq _ (by omega) (by omega), two_digits_eq _ (by omega) (by omega),
    two_digits_eq _ (by omega) (by omega), two_digits_eq _ (by omega) (by omega)]
  simp only [List.append_assoc, List.cons_append, List.nil_append]
  unfold strptime_FTZ strptime_ymd
  rw [get_number_year _ _ _ (by omega) (by decide)]
  simp only [match_char_self]
  rw [get_number_two 1 12 _ _ (by omega) (by omega) (by omega)]
  simp only [match_char_self]
  rw [get_number_two 1 31 _ _ (by omega) (by omega) (by omega)]
  simp only [match_char_self]
  unfold strptime_hms
  rw [get_number_two 0 23 _ _ (by omega) (by omega) (by omega)]
  simp only [match_char_self]
  rw [get_number_two 0 59 _ _ (by omega) (by omega) (by omega)]
  simp only [match_char_self]
  rw [get_number_two 0 61 _ _ (by omega) (by omega) (by omega)]
  simp only [match_char_self]
  rw [Int.toNat_of_nonneg (by omega : 0 ≤ g.tm_year + 1900),
    Int.toNat_of_nonneg (by omega : 0 ≤ g.tm_mon + 1),
    Int.toNat_of_nonneg (by omega : 0 ≤ g.tm_mday),
    Int.toNat_of_nonneg (by omega : 0 ≤ g.tm_hour),
    Int.toNat_of_nonneg (by omega : 0 ≤ g.tm_min),
    Int.toNat_of_nonneg (by omega : 0 ≤ g.tm_sec)]
  simp only [add_sub_cancel_right]

/-- An instant that fits the format is read back from its text. -/
theorem timegm_strptime_strftime (t : Int) (x0 : tm) (h : fits_format t = true) :
    timegm (strptime_FTZ (strftime_FTZ (gmtime_r t)) x0) = t := by
  simp only [fits_format, Bool.and_eq_true, decide_eq_true_eq] at h
  obtain ⟨r1, r2, r3, r4, r5, r6⟩ := gmtime_r_ranges t
  obtain ⟨q1, q2, q3, q4⟩ := gmtime_r_date_ranges t
  rw [strptime_strftime (gmtime_r t) x0 h ⟨q1, q2⟩ ⟨q3, q4⟩ ⟨r1, r2⟩ ⟨r3, r4⟩ ⟨r5, r6⟩]
  exact timegm_gmtime_r t

/-! ## Lemmas about saving and loading -/

theorem reload_entry_record (k : List Char) (e : SchedEntry)
    (hs : fits_format e.start = true) (he : fits_format e.end_ = true)
    (hr : e.repeat_ < 256) :
    reload_entry (record_json ⟨k, strftime_FTZ (gmtime_r e.start),
        strftime_FTZ (gmtime_r e.end_), e.title, e.repeat_⟩) = some (k, e) := by
  have h1 : ∀ a b c d r, reload_entry (record_json ⟨a, b, c, d, r⟩)
      = some (a, ⟨timegm (strptime_FTZ b tm_zero),
          timegm (strptime_FTZ c (timegm_norm (strptime_FTZ b tm_zero))), d,
          ((r : Int) % 256).toNat⟩) := by
    intro a b c d r
    rfl
  rw [h1, timegm_strptime_strftime _ _ hs, timegm_strptime_strftime _ _ he]
  have h2 : ((e.repeat_ : Int) % 256).toNat = e.repeat_ := by omega
  rw [h2]

theorem sched_get_not_mem (acc : Store) (k : List Char) (h : k ∉ acc.map Prod.fst) :
    sched_get acc k = none := by
  induction acc with
  | nil => rfl
  | cons kv rest ih =>
    obtain ⟨k1, v1⟩ := kv
    simp only [List.map_cons, List.mem_cons, not_or] at h
    simp only [sched_get, if_neg (Ne.symm h.1), ih h.2, Option.map_none']

theorem sched_get_append_last (acc : Store) (k : List Char) (pre : List SchedEntry)
    (h : k ∉ acc.map Prod.fst) : sched_get (acc ++ [(k, pre)]) k = some acc.length := by
  induction acc with
  | nil => simp [sched_get]
  | cons kv rest ih =>
    obtain ⟨k1, v1⟩ := kv
    simp only [List.map_cons, List.mem_cons, not_or] at h
    simp only [List.cons_append, sched_get, if_neg (Ne.symm h.1), List.append_eq, ih h.2,
      Option.map_some', List.length_cons]

theorem sched_vals_append_last (acc : Store) (k : List Char) (pre : List SchedEntry) :
    sched_vals (acc ++ [(k, pre)]) acc.length = pre := by
  induction acc with
  | nil => rfl
  | cons kv rest ih =>
    simp only [List.cons_append, List.length_cons, sched_vals]
    exact ih

theorem set_vals_append_last (acc : Store) (k : List Char) (pre es : List SchedEntry) :
    set_vals (acc ++ [(k, pre)]) acc.length es = acc ++ [(k, es)] := by
  induction acc with
  | nil => rfl
  | cons kv rest ih =>
    simp only [List.cons_append, List.length_cons, set_vals, List.append_eq]
    rw [ih]

theorem sched_push_last (acc : Store) (k : List Char) (pre : List SchedEntry) (e : SchedEntry)
    (h : k ∉ acc.map Prod.fst) :
    sched_push (acc ++ [(k, pre)]) k e = acc ++ [(k, pre ++ [e])] := by
  simp only [sched_push, sched_get_add, sched_get_append_last acc k pre h,
    sched_vals_append_last, set_vals_append_last]

theorem sched_push_new (acc : Store) (k : List Char) (e : SchedEntry)
    (h : k ∉ acc.map Prod.fst) : sched_push acc k e = acc ++ [(k, [e])] := by
  simp only [sched_push, sched_get_add, sched_get_not_mem acc k h, sched_vals_append_last,
    set_vals_append_last, List.nil_append]

/-- Loading the records of one owner appends them to the last owner. -/
theorem reload_records_owner (k : List Char) (es : List SchedEntry) (tail : List JElem)
    (acc : Store) (pre : List SchedEntry) (h : k ∉ acc.map Prod.fst)
    (hfit : ∀ e ∈ es, fits_format e.start = true ∧ fits_format e.end_ = true
      ∧ e.repeat_ < 256) :
    reload_records
        (document_json (es.map (fun e => ⟨k, strftime_FTZ (gmtime_r e.start),
          strftime_FTZ (gmtime_r e.end_), e.title, e.repeat_⟩)) ++ tail)
        (acc ++ [(k, pre)])
      = reload_records tail (acc ++ [(k, pre ++ es)]) := by
  induction es generalizing pre with
  | nil => simp [document_json]
  | cons e rest ih =>
    obtain ⟨f1, f2, f3⟩ := hfit e (List.mem_cons_self _ _)
    simp only [document_json, List.map_cons, List.cons_append, reload_records]
    rw [reload_entry_record k e f1 f2 f3]
    simp only []
    rw [sched_push_last acc k pre e h]
    have := ih (pre ++ [e]) (fun x hx => hfit x (List.mem_cons_of_mem _ hx))
    simp only [document_json, List.append_assoc, List.singleton_append] at this
    exact this

/-- Loading a saved document on top of `acc`, whose owners are not in the
saved store, appends the owners that have a schedule. -/
theorem reload_records_document (sched acc : Store)
    (hk : (sched.map Prod.fst).Nodup)
    (hacc : ∀ k ∈ sched.map Prod.fst, k ∉ acc.map Prod.fst)
    (hfit : all_entries (fun e => fits_format e.start = true ∧ fits_format e.end_ = true
      ∧ e.repeat_ < 256) sched) :
    reload_records (document_json (sched_document sched)) acc
      = some (acc ++ with_schedules sched) := by
  induction sched generalizing acc with
  | nil => simp [sched_document, document_json, reload_records, with_schedules]
  | cons kv rest ih =>
    obtain ⟨k, v⟩ := kv
    simp only [List.map_cons, List.nodup_cons] at hk
    have hfr : all_entries (fun e => fits_format e.start = true ∧ fits_format e.end_ = true
        ∧ e.repeat_ < 256) rest := fun kv hkv => hfit kv (List.mem_cons_of_mem _ hkv)
    have hfv := hfit (k, v) (List.mem_cons_self _ _)
    have hka : k ∉ acc.map Prod.fst := hacc k (by simp)
    cases v with
    | nil =>
      simp only [sched_document, List.map_nil, List.nil_append, with_schedules,
        List.filter_cons, List.isEmpty_nil, Bool.not_true, Bool.false_eq_true, if_false]
      exact ih acc hk.2 (fun x hx => hacc x (by simp [hx])) hfr
    | cons e es =>
      obtain ⟨f1, f2, f3⟩ := hfv e (List.mem_cons_self _ _)
      simp only [sched_document, List.map_cons, List.cons_append, document_json,
        reload_records, List.append_eq]
      rw [reload_entry_record k e f1 f2 f3]
      simp only []
      rw [sched_push_new acc k e hka]
      have h1 := reload_records_owner k es (document_json (sched_document rest)) acc [e] hka
        (fun x hx => hfv x (List.mem_cons_of_mem _ hx))
      simp only [document_json, List.map_append, List.singleton_append] at h1 ⊢
      rw [h1]
      have h2 := ih (acc ++ [(k, e :: es)]) hk.2 (by
        intro x hx
        simp only [List.map_append, List.map_cons, List.map_nil, List.mem_append,
          List.mem_singleton, not_or]
        exact ⟨hacc x (by simp [hx]), fun hxk => hk.1 (hxk ▸ hx)⟩) hfr
      simp only [document_json] at h2
      rw [h2]
      simp [with_schedules, List.filter_cons]

theorem tuples_with_schedules (sched : Store) : tuples (with_schedules sched) = tuples sched := by
  induction sched with
  | nil => rfl
  | cons kv rest ih =>
    obtain ⟨k, v⟩ := kv
    cases v with
    | nil =>
      simp only [with_schedules, List.filter_cons, List.isEmpty_nil, Bool.not_true,
        Bool.false_eq_true, if_false, tuples, List.map_nil, List.nil_append]
      exact ih
    | cons e es =>
      simp only [with_schedules, List.filter_cons, List.isEmpty_cons, Bool.not_false, if_true,
        tuples]
      rw [← ih]
      rfl

theorem with_schedules_self (sched : Store) (h : ∀ kv ∈ sched, kv.2 ≠ []) :
    with_schedules sched = sched := by
  unfold with_schedules
  rw [List.filter_eq_self]
  intro kv hkv
  have := h kv hkv
  cases hv : kv.2 with
  | nil => exact absurd hv this
  | cons e es => rfl

/-- C20: the document that `sched_upload` saves, loaded again by
`sched_reload`, is accepted and rebuilds the store: the owners that have a
schedule in their order, each with its schedules in their order, hence the
same list of (owner, start, end, title, repeat) tuples; a store without empty
owners is rebuilt exactly. The owners are distinct, the instants fit the date
format and the masks fit their byte. -/
theorem sched_upload_reload_roundtrip (now now1 : Int) (w w0 : World)
    (hk : (w.sched.map Prod.fst).Nodup)
    (hfit : all_entries (fun e => fits_format e.start = true ∧ fits_format e.end_ = true
      ∧ e.repeat_ < 256) w.sched) :
    ∃ doc w1, (sched_upload now w).trace = w.trace ++ [Event.save doc]
      ∧ sched_reload now1 (saved_gist doc) w0 = some (true, w1)
      ∧ w1.sched = with_schedules w.sched
      ∧ tuples w1.sched = tuples w.sched
      ∧ ((∀ kv ∈ w.sched, kv.2 ≠ []) → w1.sched = w.sched) := by
  have h := reload_records_document w.sched [] hk (fun _ _ hx => by cases hx) hfit
  rw [List.nil_append] at h
  refine ⟨sched_document w.sched,
    sched_offsets_update now1 { emit w0 Event.load with sched := with_schedules w.sched },
    rfl, ?_, rfl, tuples_with_schedules w.sched, fun hne => with_schedules_self w.sched hne⟩
  simp only [sched_reload, saved_gist, List.find?, beq_self_eq_true, h]

/-- C20 (witness): the sample store, saved and loaded into an empty state. -/
theorem sched_upload_reload_roundtrip_witness :
    (sample_world.sched.map Prod.fst).Nodup
    ∧ ∃ doc w1, (sched_upload 1478088000 sample_world).trace
          = sample_world.trace ++ [Event.save doc]
      ∧ sched_reload 1478088060 (saved_gist doc) ⟨[], none, []⟩ = some (true, w1)
      ∧ w1.sched = with_schedules sample_world.sched
      ∧ tuples w1.sched = tuples sample_world.sched
      ∧ ((∀ kv ∈ sample_world.sched, kv.2 ≠ []) → w1.sched = sample_world.sched) :=
  ⟨by decide, sched_upload_reload_roundtrip 1478088000 1478088060 sample_world ⟨[], none, []⟩
    (by decide) (by unfold all_entries; decide)⟩

/-! ## Claims about the offset index, `sched_next` and `sched_iter`: failing inputs -/

/-- C21 (failing input): a document whose first record has no `title` (the
second record is well formed) is not loaded at all: `sched_reload` reads
`vals[K_TITLE]->u.string` through the NULL pointer that `yajl_tree_get`
returned, which is undefined behaviour (`none`); the same happens for a
`repeat` that is a string. -/
theorem sched_reload_malformed_record :
    sched_reload 1478088000
      (GistLoad.ok [(schedule_json, some
        [ JElem.obj
            [ ("user".toList, JVal.str "bob".toList),
              ("start".toList, JVal.str "2016-10-31T20:00:00Z".toList),
              ("end".toList, JVal.str "2016-10-31T21:00:00Z".toList),
              ("repeat".toList, JVal.num 3) ],
          record_json ⟨"bob".toList, "2016-11-01T20:00:00Z".toList,
            "2016-11-01T21:00:00Z".toList, "Show".toList, 2⟩ ])])
      ⟨[], none, []⟩ = none
    ∧ sched_reload 1478088000
      (GistLoad.ok [(schedule_json, some
        [ JElem.obj
            [ ("user".toList, JVal.str "bob".toList),
              ("start".toList, JVal.str "2016-10-31T20:00:00Z".toList),
              ("end".toList, JVal.str "2016-10-31T21:00:00Z".toList),
              ("title".toList, JVal.str "Show".toList),
              ("repeat".toList, JVal.str "3".toList) ] ])])
      ⟨[], none, []⟩ = none
    ∧ (sched_reload 1478088000
      (GistLoad.ok [(schedule_json, some
        [ record_json ⟨"bob".toList, "2016-11-01T20:00:00Z".toList,
            "2016-11-01T21:00:00Z".toList, "Show".toList, 2⟩ ])])
      ⟨[], none, []⟩).map (fun r => (r.1, r.2.sched))
      = some (true, [("bob".toList, [⟨1478030400, 1478034000, "Show".toList, 2⟩])]) := by
  decide

/-- C24 (failing input): with two owners that have one schedule each and a
callback that always answers delete and stop, `sched_iter` without a filter
invokes the callback twice: the delete of the first owner's last schedule
leaves the inner loop by `break` before the stop flag is tested, and the
outer loop goes on with the next owner. -/
theorem sched_iter_stop_skipped_after_owner_delete :
    (sched_iter
        (fun (n : Nat) (m : SchedMsg) =>
          (⟨n + 1, m.start, m.end_, m.title.getD [], m.repeat_, ⟨true, true⟩⟩ : IterVisit Nat))
        none
        [("alice".toList, [⟨1477944000, 1477947600, "One".toList, 1⟩]),
         ("bob".toList, [⟨1478030400, 1478034000, "Two".toList, 2⟩])]
        0).map (fun r => (r.sched, r.cb_arg, r.calls))
      = some ([], 2,
          [⟨some "alice".toList, 0, 1477944000, 1477947600, some "One".toList, 1⟩,
           ⟨some "bob".toList, 0, 1478030400, 1478034000, some "Two".toList, 2⟩]) := by
  decide

/-- C25 (failing input): on Wednesday 2016-11-02 (the week starts on Monday
2016-10-31) a schedule at 20:00 UTC that repeats on Tuesday and Wednesday
gets the offsets 158400 (Tuesday 20:00) and 2923200, which is 33 days after
the week start and not 2 days: `timegm` has normalised `date` to November
for Tuesday, and Wednesday is then computed as day 33 of November. -/
theorem sched_offsets_update_month_boundary :
    timegm (week_tm 1478088000) = 1477872000
    ∧ offsets_emit 1478088000
        [("bob".toList, [⟨1477944000, 1477947600, "Show".toList, 6⟩])]
      = [⟨1 * 86400 + 72000, 0, 0⟩, ⟨33 * 86400 + 72000, 0, 0⟩]
    ∧ (1477944000 : Int) % 86400 = 72000 := by
  decide

/-- C26 (failing input): on Wednesday 2016-11-02 12:00 UTC, with a one-off
schedule on 2084-12-31 00:00 UTC and a one-off schedule at 13:00 of the same
Wednesday, the index after `sched_offsets_update` has the offset 2151187200
before the offset 219600: the difference is 2^31 or more and
`sched_off_cmp` returns it as a negative `int`. -/
theorem sched_offsets_update_not_sorted :
    offsets_emit 1478088000
        [("bob".toList, [⟨3629059200, 3629062800, "Far".toList, 0⟩,
                         ⟨1478091600, 1478095200, "Near".toList, 0⟩])]
      = [⟨2151187200, 0, 0⟩, ⟨219600, 0, 1⟩]
    ∧ sched_off_cmp ⟨2151187200, 0, 0⟩ ⟨219600, 0, 1⟩ = -2143999696
    ∧ offsets_build 1478088000
        [("bob".toList, [⟨3629059200, 3629062800, "Far".toList, 0⟩,
                         ⟨1478091600, 1478095200, "Near".toList, 0⟩])]
      = [⟨2151187200, 0, 0⟩, ⟨219600, 0, 1⟩]
    ∧ ¬ ((2151187200 : Int) ≤ 219600) := by
  decide

/-- C29 (failing input): on Wednesday 2016-11-02 12:00 UTC the store holds
one schedule, a one-off that started at 06:00 of that day. The index built
at that time contains it (it started less than 12 hours ago), and
`sched_next` at the same time reports it, as 162 hours ahead: no index entry
lies after now, and the wrap to the first entry adds 7 days also to an entry
that does not repeat. -/
theorem sched_next_reports_past_one_off :
    offsets_build 1478088000 [("bob".toList, [⟨1478066400, 1478070000, "Once".toList, 0⟩])]
      = [⟨194400, 0, 0⟩]
    ∧ sched_next_find 1478088000
        (offsets_build 1478088000
          [("bob".toList, [⟨1478066400, 1478070000, "Once".toList, 0⟩])])
      = some (⟨194400, 0, 0⟩, 583200)
    ∧ (sched_next 1478088000
        (sched_offsets_update 1478088000
          ⟨[("bob".toList, [⟨1478066400, 1478070000, "Once".toList, 0⟩])], none, []⟩)).map
        (fun w => w.trace)
      = some [Event.send_msg (Reply.next_stream "bob".toList "Once".toList 162 0 0)]
    ∧ (1478066400 : Int) ≤ 1478088000 := by
  decide

/-! ## Lemmas about the week start and `sched_next` -/

/-- The start of the week: midnight of the day that is `get_dow` days before
today. -/
theorem timegm_week_tm (now : Int) :
    timegm (week_tm now) = (now / 86400 - (now / 86400 + 3) % 7) * 86400 := by
  have h := timegm_gmtime_shift now (-(get_dow (gmtime_r now))) 0 0 0
  rw [get_dow_gmtime_r] at h
  have e : week_tm now = { gmtime_r now with
              tm_mday := (gmtime_r now).tm_mday + -((now / 86400 + 3) % 7)
              tm_hour := 0
              tm_min := 0
              tm_sec := 0 } := by
    unfold week_tm
    rw [get_dow_gmtime_r]
    rfl
  rw [e, h]
  omega

/-- The week start is the most recent Monday 00:00 UTC at or before now. -/
theorem week_start_monday (now : Int) :
    timegm (week_tm now) ≤ now ∧ now < timegm (week_tm now) + 7 * 86400
    ∧ timegm (week_tm now) % 86400 = 0
    ∧ get_dow (gmtime_r (timegm (week_tm now))) = 0 := by
  rw [timegm_week_tm]
  refine ⟨by omega, by omega, by omega, ?_⟩
  rw [get_dow_gmtime_r]
  omega

theorem find_first_sorted (p : SchedOffset → Bool) (offsets : List SchedOffset)
    (hs : offsets.Pairwise (fun a b => a.offset ≤ b.offset)) (s : SchedOffset)
    (h : offsets.find? p = some s) :
    s ∈ offsets ∧ p s = true ∧ ∀ e ∈ offsets, p e = true → s.offset ≤ e.offset := by
  induction offsets with
  | nil => cases h
  | cons x xs ih =>
    rw [List.pairwise_cons] at hs
    rw [List.find?_cons] at h
    cases hx : p x with
    | true =>
      rw [hx] at h
      cases h
      refine ⟨List.mem_cons_self _ _, hx, ?_⟩
      intro e he _
      rcases List.mem_cons.1 he with rfl | he
      · exact le_refl _
      · exact hs.1 e he
    | false =>
      rw [hx] at h
      obtain ⟨m, hp, hmin⟩ := ih hs.2 h
      refine ⟨List.mem_cons_of_mem _ m, hp, ?_⟩
      intro e he hpe
      rcases List.mem_cons.1 he with rfl | he
      · rw [hx] at hpe
        cases hpe
      · exact hmin e he hpe

/-- The selection of `sched_next`: for a sorted index and a time `now` that
some index entry lies after, it finds an entry of the index whose absolute
time is the least among the entries after `now`; `diff` is the `int` value of
that absolute time minus `now`, which is the difference itself, and positive,
only when it is below 2^31; the base is the most recent Monday 00:00 UTC at
or before `now`. -/
theorem sched_next_finds_earliest_after_now (now : Int) (offsets : List SchedOffset)
    (hs : offsets.Pairwise (fun a b => a.offset ≤ b.offset))
    (hex : ∃ e ∈ offsets, now < timegm (week_tm now) + e.offset) :
    ∃ next diff, sched_next_find now offsets = some (next, diff)
      ∧ next ∈ offsets
      ∧ now < timegm (week_tm now) + next.offset
      ∧ (∀ e ∈ offsets, now < timegm (week_tm now) + e.offset →
          timegm (week_tm now) + next.offset ≤ timegm (week_tm now) + e.offset)
      ∧ diff = int32 (timegm (week_tm now) + next.offset - now)
      ∧ (timegm (week_tm now) + next.offset - now < 2147483648 →
          diff = timegm (week_tm now) + next.offset - now ∧ 0 < diff)
      ∧ timegm (week_tm now) ≤ now ∧ now < timegm (week_tm now) + 7 * 86400
      ∧ timegm (week_tm now) % 86400 = 0
      ∧ get_dow (gmtime_r (timegm (week_tm now))) = 0 := by
  have hw := week_start_monday now
  unfold sched_next_find
  dsimp only
  generalize timegm (week_tm now) = W at hex hw ⊢
  obtain ⟨e0, he0, hlt0⟩ := hex
  cases hf : offsets.find? (fun s => decide (now < W + s.offset)) with
  | none =>
    rw [List.find?_eq_none] at hf
    exact absurd (by simpa using hlt0) (hf e0 he0)
  | some s =>
    obtain ⟨hm, hp, hmin⟩ := find_first_sorted _ offsets hs s hf
    simp only [decide_eq_true_eq] at hp hmin
    refine ⟨s, int32 (W + s.offset - now), rfl, hm, hp, ?_, rfl, ?_, hw⟩
    · intro e he hlt
      have := hmin e he hlt
      omega
    · intro hfit
      rw [int32_small _ (by omega) hfit]
      exact ⟨rfl, by omega⟩

/-- An instance of the selection: the index of the sample store on Wednesday
2016-11-02 12:00 UTC, asked on Monday 2016-10-31 12:00 UTC. -/
theorem sched_next_finds_earliest_after_now_witness :
    ∃ next diff, sched_next_find 1477915200 [⟨72000, 0, 0⟩, ⟨158400, 0, 0⟩] = some (next, diff)
      ∧ next ∈ [(⟨72000, 0, 0⟩ : SchedOffset), ⟨158400, 0, 0⟩]
      ∧ 1477915200 < timegm (week_tm 1477915200) + next.offset
      ∧ (∀ e ∈ [(⟨72000, 0, 0⟩ : SchedOffset), ⟨158400, 0, 0⟩],
          1477915200 < timegm (week_tm 1477915200) + e.offset →
          timegm (week_tm 1477915200) + next.offset ≤ timegm (week_tm 1477915200) + e.offset)
      ∧ diff = int32 (timegm (week_tm 1477915200) + next.offset - 1477915200)
      ∧ (timegm (week_tm 1477915200) + next.offset - 1477915200 < 2147483648 →
          diff = timegm (week_tm 1477915200) + next.offset - 1477915200 ∧ 0 < diff)
      ∧ timegm (week_tm 1477915200) ≤ 1477915200
      ∧ 1477915200 < timegm (week_tm 1477915200) + 7 * 86400
      ∧ timegm (week_tm 1477915200) % 86400 = 0
      ∧ get_dow (gmtime_r (timegm (week_tm 1477915200))) = 0 :=
  sched_next_finds_earliest_after_now 1477915200 [⟨72000, 0, 0⟩, ⟨158400, 0, 0⟩]
    (by decide) ⟨⟨72000, 0, 0⟩, by decide, by decide⟩

/-- For a mask with the single bit `k`, the loop over the days pushes one
entry, for day `k`. -/
theorem offsets_days_single (now_tm : tm) (week_start : Int) (owner id k : Nat) (date : tm)
    (hk : k < 7) :
    offsets_days now_tm week_start owner id (1 <<< k) 7 0 date
      = [⟨timegm { date with tm_mday := now_tm.tm_mday + (k : Int) } - week_start, owner, id⟩] := by
  have h : k = 0 ∨ k = 1 ∨ k = 2 ∨ k = 3 ∨ k = 4 ∨ k = 5 ∨ k = 6 := by omega
  rcases h with rfl | rfl | rfl | rfl | rfl | rfl | rfl <;> rfl

/-- The offset of day `k` computed from a `date` that still has the year and
month of the week start: `k` days plus the time of day of the start. -/
theorem timegm_week_day (now start : Int) (k : Int) :
    timegm { gmtime_r start with
        tm_year := (timegm_norm (week_tm now)).tm_year
        tm_mon := (timegm_norm (week_tm now)).tm_mon
        tm_mday := (timegm_norm (week_tm now)).tm_mday + k }
      - timegm (week_tm now)
      = k * 86400 + start % 86400 := by
  have hw := week_start_monday now
  obtain ⟨D, hD⟩ : ∃ D, timegm (week_tm now) = D * 86400 := ⟨timegm (week_tm now) / 86400, by omega⟩
  unfold timegm_norm
  rw [hD]
  have hr := timegm_gmtime_r (D * 86400)
  obtain ⟨g1, g2, g3, _⟩ := gmtime_r_midnight D
  simp only [timegm] at hr ⊢
  rw [g1, g2, g3] at hr
  generalize days_from_civil ((gmtime_r (D * 86400)).tm_year + 1900
      + (gmtime_r (D * 86400)).tm_mon / 12) ((gmtime_r (D * 86400)).tm_mon % 12 + 1) 1 = c
    at hr ⊢
  generalize (gmtime_r (D * 86400)).tm_mday = md at hr ⊢
  simp only [gmtime_r]
  omega

/-- The index of a store with one schedule that repeats on day `k` only. -/
theorem offsets_build_single (now start end_ : Int) (user title : List Char) (k : Nat)
    (hk : k < 7) :
    offsets_build now [(user, [⟨start, end_, title, 1 <<< k⟩])]
      = [⟨(k : Int) * 86400 + start % 86400, 0, 0⟩] := by
  have hne : (1 <<< k) ≠ 0 := by
    have h : k = 0 ∨ k = 1 ∨ k = 2 ∨ k = 3 ∨ k = 4 ∨ k = 5 ∨ k = 6 := by omega
    rcases h with rfl | rfl | rfl | rfl | rfl | rfl | rfl <;> decide
  simp only [offsets_build, offsets_emit, offsets_keys, offsets_vals, offsets_entry, hne,
    false_and, if_false, List.nil_append, List.append_nil, offsets_days_single _ _ _ _ _ _ hk,
    timegm_week_day, qsort, qsort_insert]

/-- C23: a store with a single schedule that repeats on day `k` only, with
the index built at any time `now0`; when the occurrence of
this week (day `k` of the week at the time of day of the start) is at or
before `now`, `sched_next` reports that schedule, and `diff` is 7 days minus
the time since that occurrence, which lies in (0, 7 days]. -/
theorem sched_next_wraps_to_single_schedule (now0 now start end_ : Int)
    (user title : List Char) (k : Nat) (trace : List Event)
    (hk : k < 7)
    (hocc : timegm (week_tm now) + (k : Int) * 86400 + start % 86400 ≤ now) :
    sched_next_find now (offsets_build now0 [(user, [⟨start, end_, title, 1 <<< k⟩])])
      = some (⟨(k : Int) * 86400 + start % 86400, 0, 0⟩,
          7 * 86400 - (now - (timegm (week_tm now) + (k : Int) * 86400 + start % 86400)))
    ∧ 0 < 7 * 86400 - (now - (timegm (week_tm now) + (k : Int) * 86400 + start % 86400))
    ∧ 7 * 86400 - (now - (timegm (week_tm now) + (k : Int) * 86400 + start % 86400))
        ≤ 7 * 86400
    ∧ sched_next now
        (sched_offsets_update now0 ⟨[(user, [⟨start, end_, title, 1 <<< k⟩])], none, trace⟩)
      = some (send_msg
          (sched_offsets_update now0 ⟨[(user, [⟨start, end_, title, 1 <<< k⟩])], none, trace⟩)
          (Reply.next_stream user title
            (Int.tdiv (7 * 86400
              - (now - (timegm (week_tm now) + (k : Int) * 86400 + start % 86400))) (60 * 60))
            (Int.tmod (Int.tdiv (7 * 86400
              - (now - (timegm (week_tm now) + (k : Int) * 86400 + start % 86400))) 60) 60)
            (Int.tmod (7 * 86400
              - (now - (timegm (week_tm now) + (k : Int) * 86400 + start % 86400))) 60))) := by
  have hw := week_start_monday now
  have hfind : sched_next_find now (offsets_build now0 [(user, [⟨start, end_, title, 1 <<< k⟩])])
      = some (⟨(k : Int) * 86400 + start % 86400, 0, 0⟩,
          7 * 86400 - (now - (timegm (week_tm now) + (k : Int) * 86400 + start % 86400))) := by
    rw [offsets_build_single now0 start end_ user title k hk]
    unfold sched_next_find
    dsimp only
    generalize timegm (week_tm now) = W at hocc hw ⊢
    have hnot : ¬ now < W + ((k : Int) * 86400 + start % 86400) := by omega
    simp only [List.find?_cons, hnot, decide_False, List.find?_nil]
    rw [int32_small _ (by omega) (by omega)]
    congr 2
    omega
  refine ⟨hfind, ?_, ?_, ?_⟩
  · generalize timegm (week_tm now) = W at hocc hw ⊢
    omega
  · generalize timegm (week_tm now) = W at hocc hw ⊢
    omega
  · simp only [sched_next, sched_offsets, sched_offsets_update, hfind, Option.map_some',
      if_true]
    rfl

/-- C23 (witness): the schedule of Mondays at 20:00 UTC, asked on Wednesday
2016-11-02 12:00 UTC with the index built two hours before. -/
theorem sched_next_wraps_to_single_schedule_witness :
    sched_next_find 1478088000
        (offsets_build 1478080800
          [("bob".toList, [⟨1477944000, 1477947600, "Show".toList, 1 <<< 0⟩])])
      = some (⟨((0 : Nat) : Int) * 86400 + 1477944000 % 86400, 0, 0⟩,
          7 * 86400 - (1478088000
            - (timegm (week_tm 1478088000) + ((0 : Nat) : Int) * 86400 + 1477944000 % 86400)))
    ∧ 0 < 7 * 86400 - (1478088000
            - (timegm (week_tm 1478088000) + ((0 : Nat) : Int) * 86400 + 1477944000 % 86400))
    ∧ 7 * 86400 - (1478088000
            - (timegm (week_tm 1478088000) + ((0 : Nat) : Int) * 86400 + 1477944000 % 86400))
        ≤ 7 * 86400
    ∧ sched_next 1478088000
        (sched_offsets_update 1478080800
          ⟨[("bob".toList, [⟨1477944000, 1477947600, "Show".toList, 1 <<< 0⟩])], none, []⟩)
      = some (send_msg
          (sched_offsets_update 1478080800
            ⟨[("bob".toList, [⟨1477944000, 1477947600, "Show".toList, 1 <<< 0⟩])], none, []⟩)
          (Reply.next_stream "bob".toList "Show".toList
            (Int.tdiv (7 * 86400 - (1478088000
              - (timegm (week_tm 1478088000) + ((0 : Nat) : Int) * 86400 + 1477944000 % 86400)))
              (60 * 60))
            (Int.tmod (Int.tdiv (7 * 86400 - (1478088000
              - (timegm (week_tm 1478088000) + ((0 : Nat) : Int) * 86400 + 1477944000 % 86400)))
              60) 60)
            (Int.tmod (7 * 86400 - (1478088000
              - (timegm (week_tm 1478088000) + ((0 : Nat) : Int) * 86400 + 1477944000 % 86400)))
              60))) :=
  sched_next_wraps_to_single_schedule 1478080800 1478088000 1477944000 1477947600
    "bob".toList "Show".toList 0 [] (by decide) (by decide)

/-! ## Lemmas about `sched_iter` -/

theorem getElem?_append_cons {α : Type} (done : List α) (x : α) (rest : List α) :
    (done ++ x :: rest)[done.length]? = some x := by
  induction done with
  | nil => simp
  | cons d ds ih => simpa using ih

theorem getElem?_append_length {α : Type} (done : List α) : (done ++ [])[done.length]? = none := by
  simp

theorem set_append_cons {α : Type} (done : List α) (x y : α) (rest : List α) :
    (done ++ x :: rest).set done.length y = done ++ y :: rest := by
  induction done with
  | nil => rfl
  | cons d ds ih => simp [ih]

theorem eraseIdx_append_cons {α : Type} (done : List α) (x : α) (rest : List α) :
    (done ++ x :: rest).eraseIdx done.length = done ++ rest := by
  induction done with
  | nil => rfl
  | cons d ds ih => simp [ih]

theorem set_vals_append_cons (done : Store) (k : List Char) (v es : List SchedEntry)
    (rest : Store) :
    set_vals (done ++ (k, v) :: rest) done.length es = done ++ (k, es) :: rest := by
  induction done with
  | nil => rfl
  | cons d ds ih =>
    simp only [List.cons_append, List.length_cons, set_vals, List.append_eq]
    rw [ih]

theorem sched_vals_append_cons (done : Store) (k : List Char) (v : List SchedEntry)
    (rest : Store) : sched_vals (done ++ (k, v) :: rest) done.length = v := by
  induction done with
  | nil => rfl
  | cons d ds ih =>
    simp only [List.cons_append, List.length_cons, sched_vals, List.append_eq]
    exact ih

theorem iter_fuel_cons (k : List Char) (v : List SchedEntry) (rest : Store) :
    iter_fuel ((k, v) :: rest) = v.length + 1 + iter_fuel rest := by
  simp only [iter_fuel, List.length_cons, List.map_cons, List.sum_cons]
  omega

/-- The loop inside one owner, for a callback that never answers stop. -/
theorem sched_iter_loop_owner {σ : Type} (visit : σ → SchedMsg → IterVisit σ)
    (hstop : ∀ st m, (visit st m).cmd.stop = false)
    (k : List Char) (rest done : Store)
    (hrest : ∀ (done1 : Store) (st1 : σ) (calls1 : List SchedMsg) (fuel1 : Nat),
      iter_fuel rest ≤ fuel1 →
      sched_iter_loop visit true fuel1 (done1 ++ rest) done1.length 0 st1 calls1
        = some ⟨done1 ++ (visit_all visit rest st1).1, (visit_all visit rest st1).2.1,
            calls1 ++ (visit_all visit rest st1).2.2⟩)
    (rem kept : List SchedEntry) (st : σ) (calls : List SchedMsg) (fuel : Nat)
    (hfuel : rem.length + 1 + iter_fuel rest ≤ fuel) :
    sched_iter_loop visit true fuel (done ++ (k, kept ++ rem) :: rest) done.length kept.length
        st calls
      = some ⟨done ++
            (if (kept ++ (visit_owner visit k rem kept.length st).1).isEmpty && !rem.isEmpty
             then (visit_all visit rest (visit_owner visit k rem kept.length st).2.1).1
             else (k, kept ++ (visit_owner visit k rem kept.length st).1)
               :: (visit_all visit rest (visit_owner visit k rem kept.length st).2.1).1),
          (visit_all visit rest (visit_owner visit k rem kept.length st).2.1).2.1,
          calls ++ ((visit_owner visit k rem kept.length st).2.2
            ++ (visit_all visit rest (visit_owner visit k rem kept.length st).2.1).2.2)⟩ := by
  induction rem generalizing kept st calls fuel with
  | nil =>
    obtain ⟨f, rfl⟩ : ∃ f, fuel = f + 1 := ⟨fuel - 1, by simp at hfuel; omega⟩
    have hf : iter_fuel rest ≤ f := by simp at hfuel; omega
    have h := hrest (done ++ [(k, kept)]) st calls f hf
    simp only [List.append_assoc, List.singleton_append, List.length_append, List.length_cons,
      List.length_nil] at h
    simp only [sched_iter_loop, getElem?_append_cons, List.append_nil, visit_owner,
      List.isEmpty_nil, Bool.not_true, Bool.and_false, Bool.false_eq_true, if_false,
      List.nil_append, if_true]
    have hk : kept[kept.length]? = none := by simp
    simp only [hk]
    exact h
  | cons e es ih =>
    obtain ⟨f, rfl⟩ : ∃ f, fuel = f + 1 := ⟨fuel - 1, by simp at hfuel; omega⟩
    have hf : es.length + 1 + iter_fuel rest ≤ f := by simp at hfuel; omega
    simp only [sched_iter_loop, getElem?_append_cons, set_append_cons, set_vals_append_cons,
      hstop, Bool.false_eq_true, if_false, if_true]
    simp only [visit_owner, List.isEmpty_cons, Bool.not_false, Bool.and_true]
    change (if (visit st (iter_msg k kept.length e)).cmd.delete = true then _ else _) = _
    cases hd : (visit st (iter_msg k kept.length e)).cmd.delete with
    | true =>
      simp only [if_true, sched_del_i, sched_vals_append_cons, eraseIdx_append_cons,
        set_vals_append_cons]
      cases hks : (kept ++ es).isEmpty with
      | true =>
        have hnil : kept = [] ∧ es = [] := by
          cases kept with
          | nil =>
            cases es with
            | nil => exact ⟨rfl, rfl⟩
            | cons _ _ => simp at hks
          | cons _ _ => simp at hks
        obtain ⟨rfl, rfl⟩ := hnil
        simp only [if_true, visit_owner, List.append_nil, List.isEmpty_nil, List.length_nil]
        have h := hrest done (visit st (iter_msg k 0 e)).cb_arg (calls ++ [iter_msg k 0 e]) f
          (by simp at hf; omega)
        simp only [List.append_assoc, List.singleton_append] at h
        exact h
      | false =>
        simp only [Bool.false_eq_true, if_false]
        have h := ih kept (visit st (iter_msg k kept.length e)).cb_arg
          (calls ++ [iter_msg k kept.length e]) f hf
        refine h.trans ?_
        have hc : ((kept ++ (visit_owner visit k es kept.length
              (visit st (iter_msg k kept.length e)).cb_arg).1).isEmpty && !es.isEmpty)
            = (kept ++ (visit_owner visit k es kept.length
              (visit st (iter_msg k kept.length e)).cb_arg).1).isEmpty := by
          cases es with
          | nil =>
            cases kept with
            | nil => simp at hks
            | cons _ _ => simp
          | cons _ _ => simp
        rw [hc]
        simp only [List.append_assoc, List.singleton_append]
        rfl
    | false =>
      simp only [Bool.false_eq_true, if_false]
      have h := ih (kept ++ [⟨(visit st (iter_msg k kept.length e)).start,
          (visit st (iter_msg k kept.length e)).end_, (visit st (iter_msg k kept.length e)).title,
          (visit st (iter_msg k kept.length e)).repeat_ % 256⟩])
        (visit st (iter_msg k kept.length e)).cb_arg
        (calls ++ [iter_msg k kept.length e]) f hf
      simp only [List.append_assoc, List.singleton_append, List.length_append, List.length_cons,
        List.length_nil, Nat.zero_add] at h
      refine h.trans ?_
      simp

/-- The loop over all owners, for a callback that never answers stop. -/
theorem sched_iter_loop_all {σ : Type} (visit : σ → SchedMsg → IterVisit σ)
    (hstop : ∀ st m, (visit st m).cmd.stop = false)
    (rest done : Store) (st : σ) (calls : List SchedMsg) (fuel : Nat)
    (hfuel : iter_fuel rest ≤ fuel) :
    sched_iter_loop visit true fuel (done ++ rest) done.length 0 st calls
      = some ⟨done ++ (visit_all visit rest st).1, (visit_all visit rest st).2.1,
          calls ++ (visit_all visit rest st).2.2⟩ := by
  induction rest generalizing done st calls fuel with
  | nil =>
    obtain ⟨f, rfl⟩ : ∃ f, fuel = f + 1 := ⟨fuel - 1, by simp [iter_fuel] at hfuel; omega⟩
    have hn : done[done.length]? = none := by simp
    simp only [sched_iter_loop, List.append_nil, hn, visit_all]
  | cons kv rest ih =>
    obtain ⟨k, v⟩ := kv
    rw [iter_fuel_cons] at hfuel
    have h := sched_iter_loop_owner visit hstop k rest done
      (fun done1 st1 calls1 fuel1 hf => ih done1 st1 calls1 fuel1 hf) v [] st calls fuel hfuel
    simp only [List.nil_append, List.length_nil] at h
    rw [h]
    simp only [visit_all]

theorem call_tuples_visit_owner {σ : Type} (visit : σ → SchedMsg → IterVisit σ) (k : List Char)
    (rem : List SchedEntry) (i : Nat) (st : σ) :
    call_tuples (visit_owner visit k rem i st).2.2
      = rem.map (fun e => (k, e.start, e.end_, e.title, e.repeat_)) := by
  induction rem generalizing i st with
  | nil => rfl
  | cons e es ih =>
    simp only [visit_owner]
    split
    · simp only [call_tuples, List.map_cons] at ih ⊢
      rw [ih]
      rfl
    · simp only [call_tuples, List.map_cons] at ih ⊢
      rw [ih]
      rfl

theorem call_tuples_visit_all {σ : Type} (visit : σ → SchedMsg → IterVisit σ) (sched : Store)
    (st : σ) : call_tuples (visit_all visit sched st).2.2 = tuples sched := by
  induction sched generalizing st with
  | nil => rfl
  | cons kv rest ih =>
    obtain ⟨k, v⟩ := kv
    simp only [visit_all, tuples]
    rw [← ih (visit_owner visit k v 0 st).2.1, ← call_tuples_visit_owner visit k v 0 st]
    simp only [call_tuples, List.map_append]

theorem visit_all_no_empty_owner {σ : Type} (visit : σ → SchedMsg → IterVisit σ) (sched : Store)
    (st : σ) (h : ∀ kv ∈ sched, kv.2 ≠ []) : ∀ kv ∈ (visit_all visit sched st).1, kv.2 ≠ [] := by
  induction sched generalizing st with
  | nil =>
    intro kv hkv
    cases hkv
  | cons kv rest ih =>
    obtain ⟨k, v⟩ := kv
    have hv : v ≠ [] := h (k, v) (List.mem_cons_self _ _)
    have hr := ih (visit_owner visit k v 0 st).2.1 (fun x hx => h x (List.mem_cons_of_mem _ hx))
    intro x hx
    simp only [visit_all] at hx
    cases ho : (visit_owner visit k v 0 st).1 with
    | nil =>
      have hve : v.isEmpty = false := by
        cases v with
        | nil => exact absurd rfl hv
        | cons _ _ => rfl
      simp only [ho, hve, List.isEmpty_nil, Bool.not_false, Bool.and_self, if_true] at hx
      exact hr x hx
    | cons e es =>
      simp only [ho, List.isEmpty_cons, Bool.false_and, Bool.false_eq_true, if_false,
        List.mem_cons] at hx
      rcases hx with rfl | hx
      · simp
      · exact hr x hx

/-- C28: `sched_iter` without an owner filter and with a callback that never
answers stop returns; the callback was invoked once for every schedule of
the store at the start, in store order; the store afterwards is the one
that `visit_all` describes: every schedule whose visit answered delete is
gone, the others are kept in place as the callback left them, and an owner
all of whose schedules were deleted is removed, so that no owner without
schedules remains in a store that had none. -/
theorem sched_iter_visits_each_once {σ : Type} (visit : σ → SchedMsg → IterVisit σ)
    (hstop : ∀ st m, (visit st m).cmd.stop = false) (sched : Store) (st : σ) :
    ∃ r, sched_iter visit none sched st = some r
      ∧ call_tuples r.calls = tuples sched
      ∧ r.sched = (visit_all visit sched st).1
      ∧ r.cb_arg = (visit_all visit sched st).2.1
      ∧ r.calls = (visit_all visit sched st).2.2
      ∧ ((∀ kv ∈ sched, kv.2 ≠ []) → ∀ kv ∈ r.sched, kv.2 ≠ []) := by
  have h := sched_iter_loop_all visit hstop sched [] st [] (iter_fuel sched) (le_refl _)
  simp only [List.nil_append, List.length_nil] at h
  exact ⟨_, h, call_tuples_visit_all visit sched st, rfl, rfl, rfl,
    visit_all_no_empty_owner visit sched st⟩

/-- C28 (witness): a callback that counts its invocations and deletes the
one-off schedules, on a store where that removes the only schedule of the
first owner and the second schedule of the second owner. -/
theorem sched_iter_visits_each_once_witness :
    (∀ (st : Nat) (m : SchedMsg),
        ((⟨st + 1, m.start, m.end_, m.title.getD [], m.repeat_,
          ⟨decide (m.repeat_ = 0), false⟩⟩ : IterVisit Nat)).cmd.stop = false)
    ∧ ∃ r, sched_iter
          (fun (st : Nat) (m : SchedMsg) =>
            (⟨st + 1, m.start, m.end_, m.title.getD [], m.repeat_,
              ⟨decide (m.repeat_ = 0), false⟩⟩ : IterVisit Nat))
          none
          [("alice".toList, [⟨1478066400, 1478070000, "Once".toList, 0⟩]),
           ("bob".toList, [⟨1477944000, 1477947600, "Show".toList, 3⟩,
                           ⟨1478091600, 1478095200, "Near".toList, 0⟩])]
          0 = some r
      ∧ call_tuples r.calls
          = tuples [("alice".toList, [⟨1478066400, 1478070000, "Once".toList, 0⟩]),
                    ("bob".toList, [⟨1477944000, 1477947600, "Show".toList, 3⟩,
                                    ⟨1478091600, 1478095200, "Near".toList, 0⟩])]
      ∧ r.sched = [("bob".toList, [⟨1477944000, 1477947600, "Show".toList, 3⟩])]
      ∧ r.cb_arg = 3
      ∧ r.calls = [iter_msg "alice".toList 0 ⟨1478066400, 1478070000, "Once".toList, 0⟩,
                   iter_msg "bob".toList 0 ⟨1477944000, 1477947600, "Show".toList, 3⟩,
                   iter_msg "bob".toList 1 ⟨1478091600, 1478095200, "Near".toList, 0⟩]
      ∧ ((∀ kv ∈ [("alice".toList, [(⟨1478066400, 1478070000, "Once".toList, 0⟩ : SchedEntry)]),
                  ("bob".toList, [⟨1477944000, 1477947600, "Show".toList, 3⟩,
                                  ⟨1478091600, 1478095200, "Near".toList, 0⟩])], kv.2 ≠ []) →
          ∀ kv ∈ r.sched, kv.2 ≠ []) :=
  ⟨fun _ _ => rfl,
   sched_iter_visits_each_once
     (fun (st : Nat) (m : SchedMsg) =>
       (⟨st + 1, m.start, m.end_, m.title.getD [], m.repeat_,
         ⟨decide (m.repeat_ = 0), false⟩⟩ : IterVisit Nat))
     (fun _ _ => rfl)
     [("alice".toList, [⟨1478066400, 1478070000, "Once".toList, 0⟩]),
      ("bob".toList, [⟨1477944000, 1477947600, "Show".toList, 3⟩,
                      ⟨1478091600, 1478095200, "Near".toList, 0⟩])]
     0⟩

theorem iter_fuel_pos (sched : Store) : 1 ≤ iter_fuel sched := by
  simp only [iter_fuel]
  omega

theorem iter_fuel_append (a b : Store) : iter_fuel (a ++ b) + 1 = iter_fuel a + iter_fuel b := by
  simp only [iter_fuel, List.length_append, List.map_append, List.sum_append]
  omega

theorem store_split (sched : Store) (index : Nat) (x : List Char × List SchedEntry)
    (h : sched[index]? = some x) :
    ∃ done rest, sched = done ++ x :: rest ∧ done.length = index := by
  induction sched generalizing index with
  | nil => simp at h
  | cons y ys ih =>
    cases index with
    | zero =>
      simp only [List.getElem?_cons_zero, Option.some.injEq] at h
      subst h
      exact ⟨[], ys, rfl, rfl⟩
    | succ n =>
      simp only [List.getElem?_cons_succ] at h
      obtain ⟨done, rest, h1, h2⟩ := ih n h
      exact ⟨y :: done, rest, by rw [h1]; rfl, by simp [h2]⟩

/-- The loop of `sched_iter` returns when it has a round for every schedule
and every owner still ahead of it, whatever the callback answers. -/
theorem sched_iter_loop_returns {σ : Type} (visit : σ → SchedMsg → IterVisit σ)
    (iter_all : Bool) (fuel : Nat) (done : Store) (k : List Char) (vals : List SchedEntry)
    (rest : Store) (i : Nat) (st : σ) (calls : List SchedMsg)
    (hfuel : (vals.length - i) + 1 + iter_fuel rest ≤ fuel) :
    (sched_iter_loop visit iter_all fuel (done ++ (k, vals) :: rest) done.length i st
      calls).isSome = true := by
  induction fuel generalizing done k vals rest i st calls with
  | zero => omega
  | succ f ih =>
    have hnext : ∀ (d : Store) (s : σ) (c : List SchedMsg), iter_fuel rest ≤ f →
        (sched_iter_loop visit iter_all f (d ++ rest) d.length 0 s c).isSome = true := by
      intro d s c hf
      cases rest with
      | nil =>
        obtain ⟨g, rfl⟩ : ∃ g, f = g + 1 := ⟨f - 1, by have := iter_fuel_pos []; omega⟩
        have hn : d[d.length]? = none := by simp
        simp only [sched_iter_loop, List.append_nil, hn, Option.isSome_some]
      | cons kv rest1 =>
        obtain ⟨k1, v1⟩ := kv
        rw [iter_fuel_cons] at hf
        exact ih d k1 v1 rest1 0 s c (by omega)
    simp only [sched_iter_loop, getElem?_append_cons]
    cases hv : vals[i]? with
    | none =>
      simp only []
      cases iter_all with
      | false => simp
      | true =>
        simp only [if_true]
        have h := hnext (done ++ [(k, vals)]) st calls (by omega)
        simp only [List.append_assoc, List.singleton_append, List.length_append,
          List.length_cons, List.length_nil] at h
        exact h
    | some ent =>
      have hi : i < vals.length := by
        rcases List.getElem?_eq_some.1 hv with ⟨h, _⟩
        exact h
      simp only [set_vals_append_cons, sched_del_i, sched_vals_append_cons,
        eraseIdx_append_cons]
      generalize visit st ⟨some k, (i : Int), ent.start, ent.end_, some ent.title,
        ent.repeat_⟩ = r
      generalize calls ++ [(⟨some k, (i : Int), ent.start, ent.end_, some ent.title,
        ent.repeat_⟩ : SchedMsg)] = calls1
      cases hd : r.cmd.delete with
      | true =>
        simp only [if_true]
        cases he : ((vals.set i ⟨r.start, r.end_, r.title, r.repeat_ % 256⟩).eraseIdx i).isEmpty
          with
        | true =>
          simp only [if_true]
          cases iter_all with
          | false => simp
          | true =>
            simp only [if_true]
            exact hnext done _ _ (by omega)
        | false =>
          simp only [Bool.false_eq_true, if_false]
          cases r.cmd.stop with
          | true => simp
          | false =>
            simp only [Bool.false_eq_true, if_false]
            apply ih
            rw [List.length_eraseIdx, List.length_set]
            simp only [hi, if_true]
            omega
      | false =>
        simp only [Bool.false_eq_true, if_false]
        cases r.cmd.stop with
        | true => simp
        | false =>
          simp only [Bool.false_eq_true, if_false]
          apply ih
          rw [List.length_set]
          omega

/-- The message `sched_iter` always returns: the rounds that `sched_iter`
allows are enough for every store, filter and callback. -/
theorem sched_iter_returns {σ : Type} (visit : σ → SchedMsg → IterVisit σ)
    (name : Option (List Char)) (sched : Store) (st : σ) :
    (sched_iter visit name sched st).isSome = true := by
  cases name with
  | none =>
    cases sched with
    | nil => rfl
    | cons kv rest =>
      obtain ⟨k, v⟩ := kv
      have h := sched_iter_loop_returns visit true (iter_fuel ((k, v) :: rest)) [] k v rest 0 st []
        (by rw [iter_fuel_cons]; omega)
      exact h
  | some n =>
    simp only [sched_iter]
    cases hg : sched_get sched n with
    | none => rfl
    | some index =>
      have hlt := sched_get_lt sched n index hg
      obtain ⟨done, rest, h1, h2⟩ := store_split sched index sched[index]
        (List.getElem?_eq_getElem hlt)
      have hf := iter_fuel_append done (sched[index] :: rest)
      have hp := iter_fuel_pos done
      rw [← h1, iter_fuel_cons] at hf
      have h := sched_iter_loop_returns visit false (iter_fuel sched) done sched[index].1
        sched[index].2 rest 0 st [] (by omega)
      rw [h2, ← h1] at h
      exact h

/-! ## Lemmas about the index and the store -/

theorem index_follows_refl (now : Int) (w : World) : index_follows now w w :=
  Or.inl ⟨rfl, rfl⟩

theorem index_follows_trans (now : Int) (w w1 w2 : World) (h1 : index_follows now w w1)
    (h2 : index_follows now w1 w2) : index_follows now w w2 := by
  rcases h2 with ⟨a, b⟩ | h2
  · rcases h1 with ⟨c, d⟩ | h1
    · exact Or.inl ⟨a.trans c, b.trans d⟩
    · exact Or.inr (by rw [b, a, h1])
  · exact Or.inr h2

theorem index_follows_emit (now : Int) (w : World) (e : Event) : index_follows now w (emit w e) :=
  Or.inl ⟨rfl, rfl⟩

theorem index_follows_send (now : Int) (w : World) (r : Reply) :
    index_follows now w (send_msg w r) :=
  Or.inl ⟨rfl, rfl⟩

theorem index_follows_upload_send (now : Int) (w : World) (sched : Store) (r : Reply) :
    index_follows now w (send_msg (sched_upload now { w with sched := sched }) r) :=
  Or.inr rfl

theorem index_follows_send_upload (now : Int) (w : World) (sched : Store) (r : Reply) :
    index_follows now w (sched_upload now (send_msg { w with sched := sched } r)) :=
  Or.inr rfl

theorem sched_add_index_follows (tz : List Char → Option Int) (now : Int) (w w1 : World)
    (name arg : List Char) (h : sched_add tz now w name arg = some w1) :
    index_follows now w w1 := by
  unfold sched_add at h
  repeat' (first | split at h | dsimp only at h)
  all_goals first
    | (simp only [Option.some.injEq] at h
       subst h
       first
         | exact index_follows_send _ _ _
         | exact index_follows_send_upload _ _ _ _)
    | cases h

theorem sched_del_index_follows (now : Int) (w w1 : World) (name arg : List Char)
    (h : sched_del now w name arg = some w1) : index_follows now w w1 := by
  unfold sched_del at h
  repeat' (first | split at h | dsimp only at h)
  all_goals first
    | (simp only [Option.some.injEq] at h
       subst h
       first
         | exact index_follows_send _ _ _
         | exact index_follows_upload_send _ _ _ _)
    | cases h

theorem sched_edit_index_follows (tz : List Char → Option Int) (now : Int) (w w1 : World)
    (name arg : List Char) (h : sched_edit tz now w name arg = some w1) :
    index_follows now w w1 := by
  unfold sched_edit at h
  repeat' (first | split at h | dsimp only at h)
  all_goals first
    | (simp only [Option.some.injEq] at h
       subst h
       first
         | exact index_follows_send _ _ _
         | exact index_follows_upload_send _ _ _ _)
    | cases h

theorem sched_reload_index_follows (now : Int) (resp : GistLoad) (w w1 : World) (ok : Bool)
    (h : sched_reload now resp w = some (ok, w1)) : index_follows now w w1 := by
  unfold sched_reload at h
  repeat' (first | split at h | dsimp only at h)
  all_goals first
    | (simp only [Option.some.injEq, Prod.mk.injEq] at h
       obtain ⟨_, h⟩ := h
       subst h
       first
         | exact index_follows_emit _ _ _
         | exact Or.inr rfl)
    | cases h

theorem sched_cmd_index_follows (tz : List Char → Option Int) (is_wlist : List Char → Bool)
    (now : Int) (resp : GistLoad) (w w1 : World) (name arg : List Char) (cmd : Cmd)
    (h : sched_cmd tz is_wlist now resp w name arg cmd = some w1) : index_follows now w w1 := by
  unfold sched_cmd at h
  split at h
  · split at h
    · cases h
    · rename_i ok wr hr
      split at h
      · cases h
      · rename_i w2 hrun
        simp only [Option.some.injEq] at h
        subst h
        have h1 := index_follows_emit now w Event.lock
        have h2 := sched_reload_index_follows now resp _ wr ok hr
        have h3 : index_follows now wr w2 := by
          cases cmd with
          | SCHED_ADD => exact sched_add_index_follows tz now wr w2 name arg hrun
          | SCHED_DEL => exact sched_del_index_follows now wr w2 name arg hrun
          | SCHED_EDIT => exact sched_edit_index_follows tz now wr w2 name arg hrun
        exact index_follows_trans now _ _ _
          (index_follows_trans now _ _ _ (index_follows_trans now _ _ _ h1 h2) h3)
          (index_follows_emit now w2 Event.unlock)
  · simp only [Option.some.injEq] at h
    subst h
    exact index_follows_refl now w

theorem mem_qsort_insert (cmp : SchedOffset → SchedOffset → Int) (x o : SchedOffset)
    (l : List SchedOffset) : o ∈ qsort_insert cmp x l ↔ o = x ∨ o ∈ l := by
  induction l with
  | nil => simp [qsort_insert]
  | cons y ys ih =>
    simp only [qsort_insert]
    split
    · simp
    · simp only [List.mem_cons, ih]
      tauto

theorem mem_qsort (cmp : SchedOffset → SchedOffset → Int) (o : SchedOffset)
    (l : List SchedOffset) : o ∈ qsort cmp l ↔ o ∈ l := by
  induction l with
  | nil => simp [qsort]
  | cons y ys ih => simp only [qsort, mem_qsort_insert, ih, List.mem_cons]

theorem offsets_days_pos (now_tm : tm) (week_start : Int) (owner id rep n k : Nat) (date : tm)
    (o : SchedOffset) (h : o ∈ offsets_days now_tm week_start owner id rep n k date) :
    o.owner = owner ∧ o.id = id := by
  induction n generalizing k date with
  | zero => simp [offsets_days] at h
  | succ n ih =>
    simp only [offsets_days] at h
    split at h
    · exact ih _ _ h
    · rcases List.mem_cons.1 h with rfl | h
      · exact ⟨rfl, rfl⟩
      · exact ih _ _ h

theorem offsets_entry_pos (now_tm : tm) (week_start now : Int) (owner id : Nat) (s : SchedEntry)
    (o : SchedOffset) (h : o ∈ offsets_entry now_tm week_start now owner id s) :
    o.owner = owner ∧ o.id = id := by
  simp only [offsets_entry, List.mem_append] at h
  rcases h with h | h
  · split at h
    · rcases List.mem_singleton.1 h with rfl
      exact ⟨rfl, rfl⟩
    · cases h
  · exact offsets_days_pos _ _ _ _ _ _ _ _ o h

theorem offsets_vals_pos (now_tm : tm) (week_start now : Int) (owner : Nat)
    (v : List SchedEntry) (j : Nat) (o : SchedOffset)
    (h : o ∈ offsets_vals now_tm week_start now owner v j) :
    o.owner = owner ∧ j ≤ o.id ∧ o.id < j + v.length := by
  induction v generalizing j with
  | nil => simp [offsets_vals] at h
  | cons s rest ih =>
    simp only [offsets_vals, List.mem_append] at h
    rcases h with h | h
    · obtain ⟨h1, h2⟩ := offsets_entry_pos _ _ _ _ _ _ o h
      simp only [List.length_cons]
      omega
    · obtain ⟨h1, h2, h3⟩ := ih (j + 1) h
      simp only [List.length_cons]
      omega

theorem offsets_keys_pos (now_tm : tm) (week_start now : Int) (sched : Store) (i : Nat)
    (o : SchedOffset) (h : o ∈ offsets_keys now_tm week_start now sched i) :
    i ≤ o.owner ∧ o.owner - i < sched.length
    ∧ o.id < (sched_vals sched (o.owner - i)).length := by
  induction sched generalizing i with
  | nil => simp [offsets_keys] at h
  | cons kv rest ih =>
    obtain ⟨k, v⟩ := kv
    simp only [offsets_keys, List.mem_append] at h
    rcases h with h | h
    · obtain ⟨h1, _, h3⟩ := offsets_vals_pos _ _ _ _ _ _ o h
      rw [h1]
      simp only [Nat.sub_self, List.length_cons, sched_vals]
      omega
    · obtain ⟨h1, h2, h3⟩ := ih (i + 1) h
      obtain ⟨d, hd⟩ : ∃ d, o.owner - i = d + 1 := ⟨o.owner - i - 1, by omega⟩
      have hd1 : o.owner - (i + 1) = d := by omega
      rw [hd1] at h2 h3
      rw [hd]
      simp only [List.length_cons, sched_vals]
      omega

/-- Every entry of a freshly built index points to a schedule of the store
that the index was built from. -/
theorem offsets_build_pos (now : Int) (sched : Store) (o : SchedOffset)
    (h : o ∈ offsets_build now sched) :
    o.owner < sched.length ∧ o.id < (sched_vals sched o.owner).length := by
  rw [offsets_build, mem_qsort] at h
  obtain ⟨_, h2, h3⟩ := offsets_keys_pos _ _ _ _ _ o h
  exact ⟨h2, h3⟩

/-! ## Claims about the index and the store -/

/-- What rebuilds the index: the commands add, edit and delete and every
reload leave the index either untouched together with the store or rebuilt at
the current time from the resulting store; the message `sched_save` rebuilds
it from the store, which it leaves as it is; the messages `sched_add` and
`sched_iter` return without touching the index, whatever they do to the
store; and while the index is the one built from the current store, each of
its entries points to a schedule of the store. -/
theorem index_rebuilt_by_commands_and_save {σ : Type} (tz : List Char → Option Int)
    (is_wlist : List Char → Bool) (now : Int) (resp : GistLoad) (w : World)
    (name arg : List Char) (cmd : Cmd) (request : SchedMsg) (has_callback : Bool)
    (filter : Option (List Char)) (visit : σ → SchedMsg → IterVisit σ) (st : σ) :
    (∀ w1, sched_cmd tz is_wlist now resp w name arg cmd = some w1 → index_follows now w w1)
    ∧ (∀ ok w1, sched_reload now resp w = some (ok, w1) → index_follows now w w1)
    ∧ (∃ w1, sched_mod_msg now w (ModMsg.sched_save : ModMsg σ) = some w1
        ∧ w1.sched = w.sched ∧ w1.offsets_src = some (w1.sched, now))
    ∧ (∃ w1, sched_mod_msg now w (ModMsg.sched_add request has_callback : ModMsg σ) = some w1
        ∧ w1.sched = (sched_mod_msg_add w.sched request has_callback).1
        ∧ w1.offsets_src = w.offsets_src)
    ∧ (∃ w1, sched_mod_msg now w (ModMsg.sched_iter filter visit st) = some w1
        ∧ (sched_iter visit filter w.sched st).map (fun r => r.sched) = some w1.sched
        ∧ w1.offsets_src = w.offsets_src)
    ∧ (∀ t, w.offsets_src = some (w.sched, t) →
        ∀ o ∈ sched_offsets w,
          o.owner < w.sched.length ∧ o.id < (sched_vals w.sched o.owner).length) := by
  refine ⟨fun w1 h => sched_cmd_index_follows tz is_wlist now resp w w1 name arg cmd h,
    fun ok w1 h => sched_reload_index_follows now resp w w1 ok h,
    ⟨_, rfl, rfl, rfl⟩, ⟨_, rfl, rfl, rfl⟩, ?_, ?_⟩
  · have hr := sched_iter_returns visit filter w.sched st
    cases hi : sched_iter visit filter w.sched st with
    | none =>
      rw [hi] at hr
      cases hr
    | some r =>
      refine ⟨{ w with sched := r.sched }, ?_, rfl, rfl⟩
      simp only [sched_mod_msg, hi, Option.map_some']
  · intro t ht o ho
    simp only [sched_offsets, ht] at ho
    exact offsets_build_pos t w.sched o ho

/-- An instance with the sample store and its index just built; the command
is `sched- 0` by `Bob` after an unmodified load, the request a new schedule
of `alice`, the callback one that deletes every schedule. -/
theorem index_rebuilt_by_commands_and_save_witness :
    (sched_cmd sample_tz (fun _ => true) 1478088000 GistLoad.not_modified
        (sched_offsets_update 1478080800 sample_world) "Bob".toList " 0".toList
        Cmd.SCHED_DEL).isSome = true
    ∧ (∀ w1, sched_cmd sample_tz (fun _ => true) 1478088000 GistLoad.not_modified
          (sched_offsets_update 1478080800 sample_world) "Bob".toList " 0".toList
          Cmd.SCHED_DEL = some w1 →
        index_follows 1478088000 (sched_offsets_update 1478080800 sample_world) w1)
    ∧ (sched_offsets_update 1478080800 sample_world).offsets_src
        = some ((sched_offsets_update 1478080800 sample_world).sched, 1478080800)
    ∧ (∀ o ∈ sched_offsets (sched_offsets_update 1478080800 sample_world),
        o.owner < (sched_offsets_update 1478080800 sample_world).sched.length
        ∧ o.id < (sched_vals (sched_offsets_update 1478080800 sample_world).sched
            o.owner).length) :=
  ⟨by decide,
   (index_rebuilt_by_commands_and_save sample_tz (fun _ => true) 1478088000
      GistLoad.not_modified (sched_offsets_update 1478080800 sample_world) "Bob".toList
      " 0".toList Cmd.SCHED_DEL ⟨some "alice".toList, 0, 1478116800, 1478120400, none, 4⟩ false
      none
      (fun (_ : Unit) (m : SchedMsg) =>
        (⟨(), m.start, m.end_, m.title.getD [], m.repeat_, ⟨true, false⟩⟩ : IterVisit Unit))
      ()).1,
   rfl,
   (index_rebuilt_by_commands_and_save sample_tz (fun _ => true) 1478088000
      GistLoad.not_modified (sched_offsets_update 1478080800 sample_world) "Bob".toList
      " 0".toList Cmd.SCHED_DEL ⟨some "alice".toList, 0, 1478116800, 1478120400, none, 4⟩ false
      none
      (fun (_ : Unit) (m : SchedMsg) =>
        (⟨(), m.start, m.end_, m.title.getD [], m.repeat_, ⟨true, false⟩⟩ : IterVisit Unit))
      ()).2.2.2.2.2 1478080800 rfl⟩

/-- For offsets less than 2^31 apart, `sched_off_cmp` orders by offset. -/
theorem sched_off_cmp_small (a b : SchedOffset)
    (h : -2147483648 ≤ a.offset - b.offset ∧ a.offset - b.offset < 2147483648) :
    (sched_off_cmp a b ≤ 0 ↔ a.offset ≤ b.offset) := by
  unfold sched_off_cmp
  rw [int32_small _ h.1 h.2]
  omega

/-! ## Failing inputs for the `int` differences and the stale index -/

/-- C14 (failing input): on Wednesday 2016-11-02, "sched+ 03:30-596532:14JST"
by `Bob` stores a schedule from 1478025000 to 3625528440, a duration of
2147503440 seconds, without any `int` overflow on the way. The day-only
edit "schedit 0 wed" of that schedule moves the start to Wednesday 18:30 UTC
and writes the end -669352456: the duration went through `int diff` (line
691), which turned it into -2147463856, so the duration has changed and the
end lies before the start. -/
theorem sched_edit_day_only_duration_wraps :
    (sched_add sample_tz 1478088000 ⟨[], none, []⟩ "Bob".toList
        " 03:30-596532:14JST".toList).map (fun w => w.sched)
      = some [("bob".toList, [⟨1478025000, 3625528440, untitled, 0⟩])]
    ∧ ((sched_add sample_tz 1478088000 ⟨[], none, []⟩ "Bob".toList
          " 03:30-596532:14JST".toList).bind
        (fun w => sched_edit sample_tz 1478088000 w "Bob".toList " 0 wed".toList)).map
        (fun w => w.sched)
      = some [("bob".toList, [⟨1478111400, -669352456, untitled, 4⟩])]
    ∧ (3625528440 : Int) - 1478025000 = 2147503440
    ∧ int32 2147503440 = -2147463856
    ∧ (-669352456 : Int) - 1478111400 = -2147463856
    ∧ ¬ ((1478111400 : Int) ≤ -669352456) := by
  decide

/-- C22 (failing input): on Wednesday 2016-11-02 12:00 UTC,
"sched+ 2085-01-01 00:00" by `Bob` into the empty store leaves one one-off
schedule and the index with the single offset 2151273600, which is sorted
and lies 2151057600 seconds after now. `sched_next` selects that entry, but
`int diff` receives -2143909696 instead of 2151057600, and the message
reports the schedule as due in -595530 hours, -28 minutes, -16 seconds. -/
theorem sched_next_diff_wraps :
    (sched_add sample_tz 1478088000 ⟨[], none, []⟩ "Bob".toList
        " 2085-01-01 00:00".toList).map (fun w => (w.sched, sched_offsets w))
      = some ([("bob".toList, [⟨3629145600, 3629149200, untitled, 0⟩])], [⟨2151273600, 0, 0⟩])
    ∧ timegm (week_tm 1478088000) + 2151273600 - 1478088000 = 2151057600
    ∧ sched_next_find 1478088000 [⟨2151273600, 0, 0⟩]
      = some (⟨2151273600, 0, 0⟩, -2143909696)
    ∧ ((sched_add sample_tz 1478088000 ⟨[], none, []⟩ "Bob".toList
          " 2085-01-01 00:00".toList).bind (fun w => sched_next 1478088000 w)).map
        (fun w => w.trace.getLast?)
      = some (some (Event.send_msg
          (Reply.next_stream "bob".toList untitled (-595530) (-28) (-16)))) := by
  decide

/-- C27 (failing input): the sample store with its index just built. The
message `sched_iter` with a callback that deletes every schedule empties the
store and returns with the index unchanged: its two entries now point to a
schedule and an owner that `sched_del_i` has freed, and `sched_next` follows
those pointers (`none`). The message `sched_add` for a new owner appends a
schedule and returns with the index unchanged, which is not the index that
`sched_offsets_update` builds from the new store. Before the messages
`sched_next` answers. -/
theorem sched_mod_msg_leaves_index_stale :
    (sched_next 1478088000 (sched_offsets_update 1478088000 sample_world)).isSome = true
    ∧ (sched_mod_msg 1478088000 (sched_offsets_update 1478088000 sample_world)
        (ModMsg.sched_iter none
          (fun (_ : Unit) (m : SchedMsg) =>
            (⟨(), m.start, m.end_, m.title.getD [], m.repeat_, ⟨true, false⟩⟩ : IterVisit Unit))
          ())).map (fun w => (w.sched, sched_offsets w, offsets_build 1478088000 w.sched,
            (sched_next 1478088000 w).isSome))
      = some ([], [⟨72000, 0, 0⟩, ⟨158400, 0, 0⟩], [], false)
    ∧ (sched_mod_msg 1478088000 (sched_offsets_update 1478088000 sample_world)
        (ModMsg.sched_add ⟨some "alice".toList, 0, 1478116800, 1478120400, none, 4⟩ false :
          ModMsg Unit)).map (fun w => (w.sched, sched_offsets w, offsets_build 1478088000 w.sched))
      = some
          ([("bob".toList, [⟨1477944000, 1477947600, "Show".toList, 3⟩]),
            ("alice".toList, [⟨1478116800, 1478120400, untitled, 4⟩])],
           [⟨72000, 0, 0⟩, ⟨158400, 0, 0⟩],
           [⟨72000, 0, 0⟩, ⟨158400, 0, 0⟩, ⟨244800, 1, 0⟩]) := by
  refine ⟨by decide, by decide, by decide⟩

end Sched
